import Mathlib

/-!
# kv: membership filter and ordered index

A shallow embedding of `src/filter/bloomfilter.cpp` and `src/memtable/skiplist.h`.

Conventions of the embedding.

* A `std::string` is the list of its bytes (`Bytes`), a byte being a natural number.
* `int32_t`/`int` values are integers; every arithmetic result is brought back to the
  type of the C++ expression with `wrap32` (two's complement), conversions to
  `uint32_t` and `size_t` are `toU32` and `toSizeT`.
* A call that the machine cannot complete (division by zero, a read or write outside
  the addressed object, a null dereference, an allocation request that cannot be met,
  a loop that has not returned when its fuel is spent) yields `none`.
* `hash_util::SimMurMurHash` lives outside the sources at hand; it is a parameter
  `hash`, reduced to 32 bits where it is called.
* A `double` or `float` value is the rational number it stands for; every floating point
  operation is the exact operation followed by `roundBinary`, the IEEE 754 rounding to
  the nearest value of the type, ties to even.
-/

namespace kv

/-- Bytes of a `std::string`. -/
abbrev Bytes := List Nat

/-- Value of an integer expression after conversion to `int32_t` (two's complement). -/
def wrap32 (x : Int) : Int := (x + 2147483648) % 4294967296 - 2147483648

/-- Value of an integer expression after conversion to `uint32_t`. -/
def toU32 (x : Int) : Nat := (x % 4294967296).toNat

/-- Value of an integer expression after conversion to `size_t` (64 bits). -/
def toSizeT (x : Int) : Nat := (x % 18446744073709551616).toNat

/-- Largest request `std::string::resize` can ever meet on a 64-bit machine: sizes
from `2^63` on exceed `PTRDIFF_MAX` and raise `std::length_error`/`std::bad_alloc`. -/
def maxAlloc : Nat := 9223372036854775807

/-- State of a `BloomFilter` object: the three data members. -/
structure BloomFilter where
  /-- Member `bits_per_key_` (`int32_t`). -/
  bits_per_key_ : Int
  /-- Member `k_` (`int32_t`), the number of probe rounds. -/
  k_ : Int
  /-- Member `bloomfilter_data_`, the shared byte buffer. -/
  bloomfilter_data_ : Bytes
  deriving DecidableEq, Repr

/-- Rounding of a rational to an integer, to the nearest one and to the even one of the
two at a tie. -/
def roundHalfEven (m : ℚ) : Int :=
  let f := Int.floor m
  let r := m - f
  if r < 1 / 2 then f else if 1 / 2 < r then f + 1 else if f % 2 = 0 then f else f + 1

/-- Rounding of a rational to the nearest binary floating point value with `p`
significant bits, ties to even: `x` is scaled by the power of two that brings it to `p`
integer bits, rounded and scaled back.  The exponent range is not bounded; the values met
in `CalcHashNum` for a 32-bit argument are 0 or lie between `2^-1` and `2^31` in size. -/
def roundBinary (p : Nat) (x : ℚ) : ℚ :=
  if x = 0 then 0
  else
    let ulp : ℚ := 2 ^ (Int.log 2 |x| - p + 1)
    if x < 0 then -((roundHalfEven (-x / ulp) : ℚ) * ulp)
    else (roundHalfEven (x / ulp) : ℚ) * ulp

/-- The value of type `double` (binary64, 53 significant bits) nearest to `x`. -/
def toDouble (x : ℚ) : ℚ := roundBinary 53 x

/-- The value of type `float` (binary32, 24 significant bits) nearest to `x`. -/
def toFloat (x : ℚ) : ℚ := roundBinary 24 x

/-- `ceilf`: the least integer not below `x`, which is a `float` again. -/
def ceilf (x : ℚ) : ℚ := (Int.ceil x : ℚ)

/-- The integer part of `x`, rounded toward zero as `static_cast<int32_t>` does. -/
def truncToInt (x : ℚ) : Int := if 0 ≤ x then Int.floor x else Int.ceil x

/-- `CalcHashNum` (lines 20-25): the literal `0.69314718056` is a `double`, the product
with `bits_per_key_` is a `double`, `ceilf` takes it as a `float`; the cast to `int32_t`
is undefined for a value outside the type, then come the two clamps. -/
def CalcHashNum (bits_per_key_ : Int) : Option Int :=
  let c := truncToInt (ceilf (toFloat
    (toDouble (toDouble (69314718056 / 100000000000) * (bits_per_key_ : ℚ)))))
  if c < -2147483648 ∨ 2147483647 < c then none
  else
    let k_ := c
    let k_ := if 30 < k_ then 30 else k_
    some (if k_ < 1 then 1 else k_)

/-- The constructor `BloomFilter(int32_t bits_per_key_)` (lines 6-8): it stores
`bits_per_key_`, runs `CalcHashNum` and leaves the buffer empty. -/
def BloomFilter.new (bits_per_key_ : Int) : Option BloomFilter :=
  match CalcHashNum bits_per_key_ with
  | none => none
  | some k_ => some { bits_per_key_ := bits_per_key_, k_ := k_, bloomfilter_data_ := [] }

/-- The stride of the double hashing: `(hash_val >> 17) | (hash_val << 15)` on
`uint32_t`. -/
def stride (hash_val : Nat) : Nat :=
  (hash_val >>> 17) ||| ((hash_val <<< 15) % 4294967296)

/-- Lines 39-42 of `CreateFilter`: the byte length of the segment for `n` keys. -/
def segmentBytes (bits_per_key_ n : Int) : Int :=
  let bits := wrap32 (n * bits_per_key_)
  let bits := if bits < 64 then 64 else bits
  Int.tdiv (wrap32 (bits + 7)) 8

/-- `bloomfilter_data_.resize(sz, 0)`: truncate or pad with zero bytes. -/
def resize (data : Bytes) (sz : Nat) : Bytes :=
  data.take sz ++ List.replicate (sz - data.length) 0

/-- The statement `array[bitpos / 8] |= (1 << (bitpos % 8))`, `array` pointing at
offset `base` of `data`; `none` when the byte lies outside `data`. -/
def setBit (data : Bytes) (base : Int) (bitpos : Nat) : Option Bytes :=
  let idx := base + ((bitpos / 8 : Nat) : Int)
  if 0 ≤ idx then
    match data[idx.toNat]? with
    | some b => some (data.set idx.toNat (b ||| (1 <<< (bitpos % 8))))
    | none => none
  else none

/-- The inner loop of `CreateFilter` (`for (int j = 0; j < k_; j++)`) with `rounds`
iterations left; `bits` is the `int32_t` modulus, converted to `uint32_t` by `%`. -/
def probeSet (bits base : Int) (delta : Nat) : Nat → Nat → Bytes → Option Bytes
  | 0, _, data => some data
  | rounds + 1, hash_val, data =>
    if toU32 bits = 0 then none
    else
      match setBit data base (hash_val % toU32 bits) with
      | some data1 =>
        probeSet bits base delta rounds ((hash_val + delta) % 4294967296) data1
      | none => none

/-- The outer loop of `CreateFilter` (`for (int i = 0; i < n; i++)`), at index `i`
with `cnt` iterations left; `keys[i]` outside the array is a failed read. -/
def fillKeys (hash : Bytes → Nat) (k_ bits base : Int) (keys : List Bytes) :
    Nat → Nat → Bytes → Option Bytes
  | 0, _, data => some data
  | cnt + 1, i, data =>
    match keys[i]? with
    | none => none
    | some key =>
      let hash_val := hash key % 4294967296
      match probeSet bits base (stride hash_val) k_.toNat hash_val data with
      | some data1 => fillKeys hash k_ bits base keys cnt (i + 1) data1
      | none => none

/-- `BloomFilter::CreateFilter(keys, n)`; `keys = none` is the null pointer. -/
def CreateFilter (hash : Bytes → Nat) (f : BloomFilter) (keys : Option (List Bytes))
    (n : Int) : Option BloomFilter :=
  match keys with
  | none => some f
  | some ks =>
    if n ≤ 0 then some f
    else
      let bytes := segmentBytes f.bits_per_key_ n
      let bits := wrap32 (bytes * 8)
      let init_size_ := wrap32 (f.bloomfilter_data_.length : Int)
      let newSize := toSizeT (wrap32 (init_size_ + bytes))
      if maxAlloc < newSize then none
      else
        match fillKeys hash f.k_ bits init_size_ ks n.toNat 0
            (resize f.bloomfilter_data_ newSize) with
        | some data => some { f with bloomfilter_data_ := data }
        | none => none

/-- The read `cur_array[idx]` of `KeyMayMatch`: a byte of the extracted segment, the
terminating zero of the `std::string` right behind it, nothing further out. -/
def readByte (cur : Bytes) (idx : Nat) : Option Nat :=
  if idx < cur.length then cur[idx]?
  else if idx = cur.length then some 0
  else none

/-- The probe loop of `BloomFilter::KeyMayMatch` with `rounds` iterations left. -/
def probeTest (cur : Bytes) (bits : Int) (delta : Nat) : Nat → Nat → Option Bool
  | 0, _ => some true
  | rounds + 1, hash_val =>
    if toU32 bits = 0 then none
    else
      let bitpos := hash_val % toU32 bits
      match readByte cur (bitpos / 8) with
      | none => none
      | some b =>
        if b &&& (1 <<< (bitpos % 8)) = 0 then some false
        else probeTest cur bits delta rounds ((hash_val + delta) % 4294967296)

/-- `BloomFilter::KeyMayMatch(key, start_pos, len)`. -/
def KeyMayMatch (hash : Bytes → Nat) (f : BloomFilter) (key : Bytes)
    (start_pos len : Int) : Option Bool :=
  if key.isEmpty || f.bloomfilter_data_.isEmpty then some false
  else
    let total_size := f.bloomfilter_data_.length
    if total_size < toSizeT start_pos then some false
    else
      let len := if len = 0 then wrap32 ((total_size - toSizeT start_pos : Nat) : Int) else len
      let cur := (f.bloomfilter_data_.drop (toSizeT start_pos)).take (toSizeT len)
      let bits := wrap32 (len * 8)
      if 30 < f.k_ then some true
      else
        let hash_val := hash key % 4294967296
        probeTest cur bits (stride hash_val) f.k_.toNat hash_val


/-! ## The ordered index (`src/memtable/skiplist.h`)

Nodes live in an arena and are named by their address, an index into `arena_`; a
`Node*` is `none` for `nullptr` and `some a` for the node at address `a`.  A link slot
that was never stored to holds `none`; reading it is a fault.  The loops `while (true)`
run on fuel.  The random source is a stream `rand` of draws, of which `rnd_` counts the
ones taken.  Memory orders are not modelled: the barrier and the no-barrier accessors
are the same functions. -/

/-- `SkipListOption::kMaxHeight`. -/
def kMaxHeight : Nat := 20

/-- `SkipListOption::kBranching`. -/
def kBranching : Nat := 4

/-- A `Node*`. -/
abbrev Ptr := Option Nat

/-- `SkipList::Node`: the key and the array `next_` of link slots. -/
structure Node (Key : Type) where
  /-- Member `key`. -/
  key : Key
  /-- Member `next_`: one slot per level, `none` while nothing was stored in it. -/
  next_ : List (Option Ptr)
  deriving DecidableEq, Repr

/-- State of a `SkipList` object. -/
structure SkipList (Key : Type) where
  /-- The nodes allocated from `arena_`, by address. -/
  arena_ : List (Node Key)
  /-- Member `head_`, the address of the head node. -/
  head_ : Nat
  /-- Member `cur_height_`. -/
  cur_height_ : Nat
  /-- Number of draws taken so far from the random source behind `rnd_`. -/
  rnd_ : Nat
  deriving DecidableEq, Repr

variable {Key : Type}

/-- `x->Next(n)`: the stored link, a fault when `x` is no node, has no slot `n` or the
slot was never written. -/
def Next (s : SkipList Key) (x n : Nat) : Option Ptr :=
  match s.arena_[x]? with
  | none => none
  | some nd =>
    match nd.next_[n]? with
    | none => none
    | some slot => slot

/-- `x->SetNext(n, v)`. -/
def SetNext (s : SkipList Key) (x n : Nat) (v : Ptr) : Option (SkipList Key) :=
  match s.arena_[x]? with
  | none => none
  | some nd =>
    if n < nd.next_.length then
      some { s with arena_ := s.arena_.set x { nd with next_ := nd.next_.set n (some v) } }
    else none

/-- `x->NoBarrier_Next(n)`. -/
def NoBarrier_Next (s : SkipList Key) (x n : Nat) : Option Ptr := Next s x n

/-- `x->NoBarrier_SetNext(n, v)`. -/
def NoBarrier_SetNext (s : SkipList Key) (x n : Nat) (v : Ptr) : Option (SkipList Key) :=
  SetNext s x n v

/-- `NewNode(key, height)`: a node with `height` unwritten link slots at the next free
address; returns the new state and that address. -/
def NewNode (s : SkipList Key) (key : Key) (height : Nat) : SkipList Key × Nat :=
  ({ s with arena_ := s.arena_ ++ [{ key := key, next_ := List.replicate height none }] },
    s.arena_.length)

/-- The constructor: the head node built by `NewNode(0, kMaxHeight)` with its
`kMaxHeight` links set to `nullptr`, `cur_height_` 1; `key0` is the key made from `0`. -/
def SkipList.new (key0 : Key) : SkipList Key :=
  { arena_ := [{ key := key0, next_ := List.replicate kMaxHeight (some none) }],
    head_ := 0, cur_height_ := 1, rnd_ := 0 }

/-- The loop of the constructor, `head_->SetNext(i, nullptr)`, at level `i` with `cnt`
levels left. -/
def clearLinks : Nat → Nat → SkipList Key → Option (SkipList Key)
  | 0, _, s => some s
  | cnt + 1, i, s =>
    match SetNext s s.head_ i none with
    | none => none
    | some s1 => clearLinks cnt (i + 1) s1

/-- The constructor step by step: `cur_height_(1)`, `head_(NewNode(0, kMaxHeight))`,
then the loop that clears the links of the head. -/
def SkipList.construct (key0 : Key) : Option (SkipList Key) :=
  let r := NewNode { arena_ := [], head_ := 0, cur_height_ := 1, rnd_ := 0 } key0 kMaxHeight
  clearLinks kMaxHeight 0 { r.1 with head_ := r.2 }

/-- The loop of `RandomHeight`, `left = kMaxHeight - height` being what the test
`height < kMaxHeight` looks at; returns the height and the new draw count. -/
def randomHeightFrom (rand : Nat → Nat) : Nat → Nat → Nat → Nat × Nat
  | 0, height, rnd => (height, rnd)
  | left + 1, height, rnd =>
    if rand rnd % kBranching = 0 then randomHeightFrom rand left (height + 1) (rnd + 1)
    else (height, rnd + 1)

/-- `RandomHeight()`, from draw `rnd` of the stream on. -/
def RandomHeight (rand : Nat → Nat) (rnd : Nat) : Nat × Nat :=
  randomHeightFrom rand (kMaxHeight - 1) 1 rnd

/-- `Equal(a, b)`. -/
def Equal (cmp : Key → Key → Int) (a b : Key) : Bool := decide (cmp a b = 0)

/-- Modelled from the spec: the body of `KeyIsAfterNode` is cut off in the source after
`n != nullptr && comparator_.`; by its comment it tests whether `key` is greater than
the key of `n`, and the spec advances while the next key is strictly less than `key`. -/
def KeyIsAfterNode (cmp : Key → Key → Int) (s : SkipList Key) (key : Key) (n : Ptr) :
    Option Bool :=
  match n with
  | none => some false
  | some a =>
    match s.arena_[a]? with
    | none => none
    | some nd => some (decide (0 < cmp key nd.key))

/-- The store `prev[level] = x`; `prev = none` is the null `prev` argument. -/
def recordPrev (prev : Option (List Ptr)) (level x : Nat) : Option (Option (List Ptr)) :=
  match prev with
  | none => some none
  | some p => if level < p.length then some (some (p.set level (some x))) else none

/-- The loop of `FindGreaterOrEqual` at node `x` and `level`. -/
def findGreaterOrEqualLoop (cmp : Key → Key → Int) (s : SkipList Key) (key : Key) :
    Nat → Nat → Nat → Option (List Ptr) → Option (Ptr × Option (List Ptr))
  | 0, _, _, _ => none
  | fuel + 1, x, level, prev =>
    match Next s x level with
    | none => none
    | some next =>
      match KeyIsAfterNode cmp s key next with
      | none => none
      | some true =>
        match next with
        | some y => findGreaterOrEqualLoop cmp s key fuel y level prev
        | none => none
      | some false =>
        match recordPrev prev level x with
        | none => none
        | some prev1 =>
          if level = 0 then some (next, prev1)
          else findGreaterOrEqualLoop cmp s key fuel x (level - 1) prev1

/-- `FindGreaterOrEqual(key, prev)`; `GetMaxHeight() - 1` below zero makes `Next` fail
its `assert(n >= 0)`. -/
def FindGreaterOrEqual (cmp : Key → Key → Int) (fuel : Nat) (s : SkipList Key) (key : Key)
    (prev : Option (List Ptr)) : Option (Ptr × Option (List Ptr)) :=
  if s.cur_height_ = 0 then none
  else findGreaterOrEqualLoop cmp s key fuel s.head_ (s.cur_height_ - 1) prev

/-- The loop of `FindLessThan`, with its assertion on `x`. -/
def findLessThanLoop (cmp : Key → Key → Int) (s : SkipList Key) (key : Key) :
    Nat → Nat → Nat → Option Nat
  | 0, _, _ => none
  | fuel + 1, x, level =>
    match s.arena_[x]? with
    | none => none
    | some xn =>
      if x = s.head_ ∨ cmp xn.key key < 0 then
        match Next s x level with
        | none => none
        | some none =>
          if level = 0 then some x else findLessThanLoop cmp s key fuel x (level - 1)
        | some (some y) =>
          match s.arena_[y]? with
          | none => none
          | some yn =>
            if 0 ≤ cmp yn.key key then
              if level = 0 then some x else findLessThanLoop cmp s key fuel x (level - 1)
            else findLessThanLoop cmp s key fuel y level
      else none

/-- `FindLessThan(key)`. -/
def FindLessThan (cmp : Key → Key → Int) (fuel : Nat) (s : SkipList Key) (key : Key) :
    Option Nat :=
  if s.cur_height_ = 0 then none
  else findLessThanLoop cmp s key fuel s.head_ (s.cur_height_ - 1)

/-- The loop of `FindLast`. -/
def findLastLoop (s : SkipList Key) : Nat → Nat → Nat → Option Nat
  | 0, _, _ => none
  | fuel + 1, x, level =>
    match Next s x level with
    | none => none
    | some none => if level = 0 then some x else findLastLoop s fuel x (level - 1)
    | some (some y) => findLastLoop s fuel y level

/-- `FindLast()`. -/
def FindLast (fuel : Nat) (s : SkipList Key) : Option Nat :=
  if s.cur_height_ = 0 then none
  else findLastLoop s fuel s.head_ (s.cur_height_ - 1)

/-- The loop `for (int i = cur_max_level; i < new_level; i++) prev[i] = head_;`. -/
def raisePrev (head : Nat) : Nat → Nat → List Ptr → List Ptr
  | 0, _, prev => prev
  | cnt + 1, i, prev => raisePrev head cnt (i + 1) (prev.set i (some head))

/-- The linking loop of `Insert` at level `i` with `cnt` levels left: the new node's
link is stored first, the predecessor's link second. -/
def linkLevels (prev : List Ptr) (new_node : Nat) :
    Nat → Nat → SkipList Key → Option (SkipList Key)
  | 0, _, s => some s
  | cnt + 1, i, s =>
    match prev[i]? with
    | some (some p) =>
      match NoBarrier_Next s p i with
      | none => none
      | some nx =>
        match NoBarrier_SetNext s new_node i nx with
        | none => none
        | some s1 =>
          match SetNext s1 p i (some new_node) with
          | none => none
          | some s2 => linkLevels prev new_node cnt (i + 1) s2
    | _ => none

/-- `Insert(key)`. -/
def Insert (cmp : Key → Key → Int) (rand : Nat → Nat) (fuel : Nat) (s : SkipList Key)
    (key : Key) : Option (SkipList Key) :=
  match FindGreaterOrEqual cmp fuel s key (some (List.replicate kMaxHeight none)) with
  | some (node, some prev) =>
    let dup : Option Bool :=
      match node with
      | none => some false
      | some a =>
        match s.arena_[a]? with
        | none => none
        | some nd => some (Equal cmp key nd.key)
    match dup with
    | none => none
    | some true => some s
    | some false =>
      let (new_level, rnd1) := RandomHeight rand s.rnd_
      let cur_max_level := s.cur_height_
      let prev1 :=
        if cur_max_level < new_level then
          raisePrev s.head_ (new_level - cur_max_level) cur_max_level prev
        else prev
      let s1 : SkipList Key :=
        { s with
          cur_height_ := if cur_max_level < new_level then new_level else cur_max_level,
          rnd_ := rnd1 }
      let (s2, new_node) := NewNode s1 key new_level
      linkLevels prev1 new_node new_level 0 s2
  | _ => none

/-- `Contains(key)`. -/
def Contains (cmp : Key → Key → Int) (fuel : Nat) (s : SkipList Key) (key : Key) :
    Option Bool :=
  match FindGreaterOrEqual cmp fuel s key none with
  | none => none
  | some (none, _) => some false
  | some (some x, _) =>
    match s.arena_[x]? with
    | none => none
    | some nd => some (Equal cmp key nd.key)

/-- `SkipList::Iterator`: the member `node_`; the list it belongs to is passed to its
operations. -/
structure Iterator where
  /-- Member `node_`. -/
  node_ : Ptr
  deriving DecidableEq, Repr

/-- `Iterator::Valid()`. -/
def Iterator.Valid (it : Iterator) : Bool := it.node_.isSome

/-- `Iterator::key()`. -/
def Iterator.key (s : SkipList Key) (it : Iterator) : Option Key :=
  match it.node_ with
  | none => none
  | some x => (s.arena_[x]?).map (fun nd => nd.key)

/-- `Iterator::Next()`. -/
def Iterator.Next (s : SkipList Key) (it : Iterator) : Option Iterator :=
  match it.node_ with
  | none => none
  | some x => (kv.Next s x 0).map (fun p => { node_ := p })

/-- `Iterator::Prev()`. -/
def Iterator.Prev (cmp : Key → Key → Int) (fuel : Nat) (s : SkipList Key) (it : Iterator) :
    Option Iterator :=
  match it.node_ with
  | none => none
  | some x =>
    match s.arena_[x]? with
    | none => none
    | some nd =>
      match FindLessThan cmp fuel s nd.key with
      | none => none
      | some y => some { node_ := if y = s.head_ then none else some y }

/-- `Iterator::Seek(target)`. -/
def Iterator.Seek (cmp : Key → Key → Int) (fuel : Nat) (s : SkipList Key) (target : Key) :
    Option Iterator :=
  (FindGreaterOrEqual cmp fuel s target none).map (fun r => { node_ := r.1 })

/-- `Iterator::SeekToLast()`. -/
def Iterator.SeekToLast (fuel : Nat) (s : SkipList Key) : Option Iterator :=
  (FindLast fuel s).map (fun y => { node_ := if y = s.head_ then none else some y })

/-- A run of `Insert` calls, in order. -/
def insertAll (cmp : Key → Key → Int) (rand : Nat → Nat) (fuel : Nat) :
    SkipList Key → List Key → Option (SkipList Key)
  | s, [] => some s
  | s, k :: ks =>
    match Insert cmp rand fuel s k with
    | none => none
    | some s1 => insertAll cmp rand fuel s1 ks

/-- Following the level-0 links from node `x` until `nullptr`: the addresses visited
after `x`. -/
def walk (s : SkipList Key) : Nat → Nat → Option (List Nat)
  | 0, _ => none
  | fuel + 1, x =>
    match Next s x 0 with
    | none => none
    | some none => some []
    | some (some y) => (walk s fuel y).map (fun l => y :: l)

/-- The keys stored at the addresses `l`, in order. -/
def keysOf (s : SkipList Key) : List Nat → Option (List Key)
  | [] => some []
  | a :: l =>
    match s.arena_[a]? with
    | none => none
    | some nd => (keysOf s l).map (fun ks => nd.key :: ks)

/-- The keys met by a full forward traversal from the head. -/
def traverse (fuel : Nat) (s : SkipList Key) : Option (List Key) :=
  match walk s fuel s.head_ with
  | none => none
  | some l => keysOf s l

/-- Following the links of level `level` from node `x` until `nullptr`: the addresses
visited after `x`. -/
def walkAt (s : SkipList Key) (level : Nat) : Nat → Nat → Option (List Nat)
  | 0, _ => none
  | fuel + 1, x =>
    match Next s x level with
    | none => none
    | some none => some []
    | some (some y) => (walkAt s level fuel y).map (fun l => y :: l)

/-- Number of link slots of the node at address `a`, the height it was created with. -/
def heightOf (s : SkipList Key) (a : Nat) : Nat :=
  match s.arena_[a]? with
  | none => 0
  | some nd => nd.next_.length

/-- The duplicate test of `Insert` (lines 263-270): whether the node found by
`FindGreaterOrEqual` holds a key equal to `key`. -/
def insertDup (cmp : Key → Key → Int) (fuel : Nat) (s : SkipList Key) (key : Key) :
    Option Bool :=
  match FindGreaterOrEqual cmp fuel s key (some (List.replicate kMaxHeight none)) with
  | some (node, some _) =>
    match node with
    | none => some false
    | some a =>
      match s.arena_[a]? with
      | none => none
      | some nd => some (Equal cmp key nd.key)
  | _ => none

/-- The array `prev` of `Insert` when its linking loop starts (lines 260-278): filled by
`FindGreaterOrEqual` below the current height, set to the head from there up to the
drawn height. -/
def insertPrev (cmp : Key → Key → Int) (rand : Nat → Nat) (fuel : Nat) (s : SkipList Key)
    (key : Key) : Option (List Ptr) :=
  match FindGreaterOrEqual cmp fuel s key (some (List.replicate kMaxHeight none)) with
  | some (_, some prev) =>
    let new_level := (RandomHeight rand s.rnd_).1
    some (if s.cur_height_ < new_level then
      raisePrev s.head_ (new_level - s.cur_height_) s.cur_height_ prev
    else prev)
  | _ => none

/-- The state of `Insert` after line 287: the height is drawn and `cur_height_` is
raised to it when it is greater. -/
def insertRaise (rand : Nat → Nat) (s : SkipList Key) : SkipList Key :=
  { s with
    cur_height_ :=
      if s.cur_height_ < (RandomHeight rand s.rnd_).1 then (RandomHeight rand s.rnd_).1
      else s.cur_height_,
    rnd_ := (RandomHeight rand s.rnd_).2 }

/-- The state of `Insert` after line 290: the new node is allocated, not linked. -/
def insertAlloc (rand : Nat → Nat) (s : SkipList Key) (key : Key) : SkipList Key :=
  (NewNode (insertRaise rand s) key (RandomHeight rand s.rnd_).1).1

/-- The states after each store of the linking loop of `Insert`, in order: per level
the state after the link of the new node is stored, then the state after the link of
the predecessor is stored. -/
def linkTrace (prev : List Ptr) (new_node : Nat) :
    Nat → Nat → SkipList Key → Option (List (SkipList Key))
  | 0, _, _ => some []
  | cnt + 1, i, s =>
    match prev[i]? with
    | some (some p) =>
      match NoBarrier_Next s p i with
      | none => none
      | some nx =>
        match NoBarrier_SetNext s new_node i nx with
        | none => none
        | some s1 =>
          match SetNext s1 p i (some new_node) with
          | none => none
          | some s2 =>
            (linkTrace prev new_node cnt (i + 1) s2).map (fun l => s1 :: s2 :: l)
    | _ => none

/-- The states of the list after each store of `Insert(key)`, in order: the height
counter, the allocation of the node, then the stores of the linking loop; no store for a
duplicate key. -/
def insertTrace (cmp : Key → Key → Int) (rand : Nat → Nat) (fuel : Nat) (s : SkipList Key)
    (key : Key) : Option (List (SkipList Key)) :=
  match insertDup cmp fuel s key with
  | none => none
  | some true => some []
  | some false =>
    match insertPrev cmp rand fuel s key with
    | none => none
    | some prev =>
      (linkTrace prev s.arena_.length (RandomHeight rand s.rnd_).1 0
        (insertAlloc rand s key)).map
        (fun l => insertRaise rand s :: insertAlloc rand s key :: l)

/-! ## Predicates used to state the properties -/


/-- Bit `r` of the byte at index `idx` of `data` is set. -/
def bitAt (data : Bytes) (idx r : Nat) : Prop :=
  ∃ b, data[idx]? = some b ∧ b &&& (1 <<< r) ≠ 0

/-- The property `P` holds of every bit position visited by `rounds` probe rounds that
start from `hash_val`, with modulus `m` and stride `delta`. -/
def Probes (P : Nat → Prop) (m delta : Nat) : Nat → Nat → Prop
  | 0, _ => True
  | rounds + 1, hash_val =>
    P (hash_val % m) ∧ Probes P m delta rounds ((hash_val + delta) % 4294967296)

/-- The buffer `data1` has the length of `data`, every bit set in `data` and the
bytes of `data` below offset `base`. -/
def Extends (base : Nat) (data data1 : Bytes) : Prop :=
  data1.length = data.length ∧ (∀ idx r, bitAt data idx r → bitAt data1 idx r) ∧
    ∀ j, j < base → data1[j]? = data[j]?

/-- Rotation of a 32-bit value to the right by `r` bits, in the words of the
specification: the low `r` bits move to the top, the others move down. -/
def rotateRight32 (h r : Nat) : Nat := h / 2 ^ r + (h % 2 ^ r) * 2 ^ (32 - r)

/-- Rotation of a 32-bit value to the left by `r` bits: the high `r` bits move to the
bottom, the others move up. -/
def rotateLeft32 (h r : Nat) : Nat := (h * 2 ^ r) % 2 ^ 32 + h / 2 ^ (32 - r)

/-- The values taken by `hash_val` in `rounds` probe rounds: it starts at `hash_val` and
`hash_val += delta` follows each round, in `uint32_t`. -/
def probeValues (delta : Nat) : Nat → Nat → List Nat
  | 0, _ => []
  | rounds + 1, hash_val =>
    hash_val :: probeValues delta rounds ((hash_val + delta) % 4294967296)

/-- A strict total order given as a three-way comparator: `cmp a b < 0` for `a` before
`b`, `0` exactly for equal keys, `> 0` for `a` after `b`. -/
structure StrictTotalCmp (cmp : Key → Key → Int) : Prop where
  /-- Keys compare equal exactly when they are the same key. -/
  eq_iff : ∀ a b, cmp a b = 0 ↔ a = b
  /-- Swapping the arguments swaps the sign. -/
  swap : ∀ a b, cmp a b < 0 ↔ 0 < cmp b a
  /-- The order is transitive. -/
  trans : ∀ a b c, cmp a b < 0 → cmp b c < 0 → cmp a c < 0

/-- The usual order of the integers as a three-way comparator. -/
def intCmp (a b : Int) : Int := a - b

/-- A linked node as the properties see it: its address, key and number of levels. -/
structure Entry (Key : Type) where
  /-- Address of the node in the arena. -/
  addr : Nat
  /-- Key stored in the node. -/
  key : Key
  /-- Number of link slots of the node. -/
  height : Nat

/-- Addresses of the entries that take part in level `i`, in order. -/
def levelOf (i : Nat) (es : List (Entry Key)) : List Nat :=
  (es.filter (fun e => decide (i < e.height))).map (fun e => e.addr)

/-- From node `x`, the level-`i` links of `s` visit exactly the addresses `l` and then
`nullptr`. -/
def Chain (s : SkipList Key) (i : Nat) : Nat → List Nat → Prop
  | x, [] => Next s x i = some none
  | x, y :: l => Next s x i = some (some y) ∧ Chain s i y l

/-- The last address of `l`, or `head` when `l` is empty. -/
def lastOr (head : Nat) (l : List Nat) : Nat := (l.getLast?).getD head

/-- The state `s` is a well-formed skip list holding the entries `es`, in key order. -/
structure WellFormed (cmp : Key → Key → Int) (s : SkipList Key) (es : List (Entry Key)) :
    Prop where
  /-- The head node exists and has `kMaxHeight` link slots. -/
  head : ∃ hd, s.arena_[s.head_]? = some hd ∧ hd.next_.length = kMaxHeight
  /-- The height counter is at least 1. -/
  height_pos : 1 ≤ s.cur_height_
  /-- The height counter is at most `kMaxHeight`. -/
  height_le : s.cur_height_ ≤ kMaxHeight
  /-- Every entry is a node of the arena other than the head, with its key and height. -/
  node : ∀ e, e ∈ es → e.addr ≠ s.head_ ∧ 1 ≤ e.height ∧ e.height ≤ s.cur_height_ ∧
    ∃ nd, s.arena_[e.addr]? = some nd ∧ nd.key = e.key ∧ nd.next_.length = e.height
  /-- The entries are in strictly ascending key order. -/
  sorted : es.Pairwise (fun a b => cmp a.key b.key < 0)
  /-- No address occurs twice. -/
  nodup : (es.map (fun e => e.addr)).Nodup
  /-- At every level the links from the head visit the entries of that level in order. -/
  chain : ∀ i, i < kMaxHeight → Chain s i s.head_ (levelOf i es)

/-- The state `s1` has the head, height counter and draw count of `s`, and every node of
`s` is a node of `s1` with the same key and number of link slots. -/
def SameShape (s s1 : SkipList Key) : Prop :=
  s1.head_ = s.head_ ∧ s1.cur_height_ = s.cur_height_ ∧ s1.rnd_ = s.rnd_ ∧
    ∀ (y : Nat) (nd : Node Key), s.arena_[y]? = some nd →
      ∃ nd1 : Node Key,
        s1.arena_[y]? = some nd1 ∧ nd1.key = nd.key ∧ nd1.next_.length = nd.next_.length

/-- The state `t` is the state `s` with a new node of key `key` at the next free
address, linked behind the predecessors `P j` at the levels `j < c` and not linked at the
levels from `c` up; the other links are those of `s`. -/
def LinkedBelow (s t : SkipList Key) (P : Nat → Nat) (key : Key) (c : Nat) : Prop :=
  t.head_ = s.head_ ∧
  (∀ (y : Nat) (nd : Node Key), s.arena_[y]? = some nd →
    ∃ nd1 : Node Key, t.arena_[y]? = some nd1 ∧ nd1.key = nd.key) ∧
  (1 ≤ c → ∃ nn : Node Key, t.arena_[s.arena_.length]? = some nn ∧ nn.key = key) ∧
  (∀ j, j < c →
    Next t s.arena_.length j = Next s (P j) j ∧
    Next t (P j) j = some (some s.arena_.length) ∧
    ∀ x, x ≠ s.arena_.length → x ≠ P j → Next t x j = Next s x j) ∧
  ∀ j, c ≤ j → ∀ x, x ≠ s.arena_.length → Next t x j = Next s x j

/-- The common shape of the three search loops: advance along `level` while the next
node exists and its key satisfies `adv`, else record `x` and step down; returns the
node reached, its level-0 successor and the recorded predecessors. -/
def descend (adv : Key → Bool) (s : SkipList Key) :
    Nat → Nat → Nat → Option (List Ptr) → Option (Nat × Ptr × Option (List Ptr))
  | 0, _, _, _ => none
  | fuel + 1, x, level, prev =>
    let stop (next : Ptr) : Option (Nat × Ptr × Option (List Ptr)) :=
      match recordPrev prev level x with
      | none => none
      | some prev1 =>
        if level = 0 then some (x, next, prev1)
        else descend adv s fuel x (level - 1) prev1
    match Next s x level with
    | none => none
    | some none => stop none
    | some (some y) =>
      match s.arena_[y]? with
      | none => none
      | some yn => if adv yn.key then descend adv s fuel y level prev else stop (some y)

/-! ## Properties of the membership filter -/

theorem wrap32_of_range {x : Int} (h1 : -2147483648 ≤ x) (h2 : x ≤ 2147483647) :
    wrap32 x = x := by
  unfold wrap32; omega

theorem toU32_of_range {x : Int} (h1 : 0 ≤ x) (h2 : x ≤ 4294967295) :
    toU32 x = x.toNat := by
  unfold toU32; congr 1; omega

theorem toSizeT_of_range {x : Int} (h1 : 0 ≤ x) (h2 : x ≤ 4294967295) :
    toSizeT x = x.toNat := by
  unfold toSizeT; congr 1; omega

theorem and_shiftLeft_ne_zero (x r : Nat) : x &&& (1 <<< r) ≠ 0 ↔ x.testBit r = true := by
  rw [Nat.one_shiftLeft]
  constructor
  · intro h
    obtain ⟨i, hi⟩ := Nat.ne_zero_implies_bit_true h
    rw [Nat.testBit_and, Nat.testBit_two_pow] at hi
    simp at hi
    obtain ⟨h1, h2⟩ := hi
    subst h2; exact h1
  · intro h h0
    have := congrArg (fun y => Nat.testBit y r) h0
    simp [Nat.testBit_and, h, Nat.testBit_two_pow_self] at this

theorem Extends.extends_refl (base : Nat) (data : Bytes) : Extends base data data :=
  ⟨rfl, fun _ _ h => h, fun _ _ => rfl⟩

theorem Extends.extends_trans {base : Nat} {d1 d2 d3 : Bytes} (h12 : Extends base d1 d2)
    (h23 : Extends base d2 d3) : Extends base d1 d3 :=
  ⟨h23.1.trans h12.1, fun idx r h => h23.2.1 idx r (h12.2.1 idx r h),
    fun j hj => (h23.2.2 j hj).trans (h12.2.2 j hj)⟩

theorem setBit_spec (data : Bytes) (base bitpos : Nat)
    (hin : base + bitpos / 8 < data.length) :
    ∃ data1, setBit data (base : Int) bitpos = some data1 ∧ Extends base data data1 ∧
      bitAt data1 (base + bitpos / 8) (bitpos % 8) := by
  have hidx : ((base : Int) + ((bitpos / 8 : Nat) : Int)).toNat = base + bitpos / 8 := by
    omega
  have hget : data[base + bitpos / 8]? = some (data[base + bitpos / 8]) :=
    List.getElem?_eq_getElem hin
  refine ⟨data.set (base + bitpos / 8) (data[base + bitpos / 8] ||| (1 <<< (bitpos % 8))),
    ?_, ⟨?_, ?_, ?_⟩, ?_⟩
  · unfold setBit
    simp only [hidx, hget]
    rw [if_pos (by omega)]
  · simp
  · rintro idx r ⟨b, hb, hbit⟩
    by_cases hi : base + bitpos / 8 = idx
    · subst hi
      rw [hget] at hb
      cases hb
      refine ⟨data[base + bitpos / 8] ||| (1 <<< (bitpos % 8)),
        by rw [List.getElem?_set]; simp [hin], ?_⟩
      rw [and_shiftLeft_ne_zero] at hbit ⊢
      rw [Nat.testBit_or, hbit]; rfl
    · exact ⟨b, by rw [List.getElem?_set, if_neg hi]; exact hb, hbit⟩
  · intro j hj
    rw [List.getElem?_set, if_neg (by omega)]
  · refine ⟨data[base + bitpos / 8] ||| (1 <<< (bitpos % 8)),
      by rw [List.getElem?_set]; simp [hin], ?_⟩
    rw [and_shiftLeft_ne_zero, Nat.testBit_or, Nat.one_shiftLeft, Nat.testBit_two_pow_self]
    simp

theorem Probes.mono {P Q : Nat → Prop} (hPQ : ∀ pos, P pos → Q pos) (m delta : Nat) :
    ∀ rounds hash_val, Probes P m delta rounds hash_val → Probes Q m delta rounds hash_val
  | 0, _, _ => trivial
  | rounds + 1, _, h => ⟨hPQ _ h.1, Probes.mono hPQ m delta rounds _ h.2⟩

theorem probeSet_spec (bits : Int) (base delta : Nat) (h0 : toU32 bits ≠ 0) :
    ∀ (rounds hash_val : Nat) (data : Bytes),
      (∀ pos, pos < toU32 bits → base + pos / 8 < data.length) →
      ∃ data1, probeSet bits (base : Int) delta rounds hash_val data = some data1 ∧
        Extends base data data1 ∧
        Probes (fun pos => bitAt data1 (base + pos / 8) (pos % 8)) (toU32 bits) delta
          rounds hash_val
  | 0, _, data, _ => ⟨data, rfl, Extends.extends_refl _ _, trivial⟩
  | rounds + 1, hash_val, data, hin => by
    have hlt : hash_val % toU32 bits < toU32 bits := Nat.mod_lt _ (Nat.pos_of_ne_zero h0)
    obtain ⟨data1, hset, hext1, hbit⟩ := setBit_spec data base _ (hin _ hlt)
    obtain ⟨data2, hrec, hext2, hpr⟩ := probeSet_spec bits base delta h0 rounds
      ((hash_val + delta) % 4294967296) data1 (fun pos hpos => by
        rw [hext1.1]; exact hin pos hpos)
    refine ⟨data2, ?_, hext1.extends_trans hext2, hext2.2.1 _ _ hbit, hpr⟩
    simp only [probeSet, if_neg h0, hset, hrec]

theorem fillKeys_spec (hash : Bytes → Nat) (k_ bits : Int) (base : Nat)
    (keys : List Bytes) (h0 : toU32 bits ≠ 0) :
    ∀ (cnt i : Nat) (data : Bytes), i + cnt ≤ keys.length →
      (∀ pos, pos < toU32 bits → base + pos / 8 < data.length) →
      ∃ data1, fillKeys hash k_ bits (base : Int) keys cnt i data = some data1 ∧
        Extends base data data1 ∧
        ∀ j key, i ≤ j → j < i + cnt → keys[j]? = some key →
          Probes (fun pos => bitAt data1 (base + pos / 8) (pos % 8)) (toU32 bits)
            (stride (hash key % 4294967296)) k_.toNat (hash key % 4294967296)
  | 0, _, data, _, _ => ⟨data, rfl, Extends.extends_refl _ _, fun j _ h1 h2 _ => by omega⟩
  | cnt + 1, i, data, hlen, hin => by
    have hi : i < keys.length := by omega
    obtain ⟨data1, hset, hext1, hpr⟩ := probeSet_spec bits base
      (stride (hash keys[i] % 4294967296)) h0 k_.toNat (hash keys[i] % 4294967296) data hin
    obtain ⟨data2, hrec, hext2, hall⟩ := fillKeys_spec hash k_ bits base keys h0 cnt (i + 1)
      data1 (by omega) (fun pos hpos => by rw [hext1.1]; exact hin pos hpos)
    refine ⟨data2, ?_, hext1.extends_trans hext2, ?_⟩
    · simp only [fillKeys, List.getElem?_eq_getElem hi, hset, hrec]
    · intro j key hij hj hkey
      by_cases hji : j = i
      · subst hji
        rw [List.getElem?_eq_getElem hi] at hkey
        cases hkey
        exact Probes.mono (fun pos h => hext2.2.1 _ _ h) _ _ _ _ hpr
      · exact hall j key (by omega) (by omega) hkey

theorem probeTest_of_probes (cur : Bytes) (bits : Int) (delta : Nat)
    (h0 : toU32 bits ≠ 0) :
    ∀ rounds hash_val,
      Probes (fun pos => bitAt cur (pos / 8) (pos % 8)) (toU32 bits) delta rounds hash_val →
      probeTest cur bits delta rounds hash_val = some true
  | 0, _, _ => rfl
  | rounds + 1, hash_val, h => by
    obtain ⟨⟨b, hb, hbit⟩, hrest⟩ := h
    have hlt : hash_val % toU32 bits / 8 < cur.length := by
      by_contra hge
      rw [List.getElem?_eq_none (by omega)] at hb
      cases hb
    simp only [probeTest, if_neg h0, readByte, if_pos hlt, hb, if_neg hbit]
    exact probeTest_of_probes cur bits delta h0 rounds _ hrest

theorem segmentBytes_eq (bits_per_key_ n : Int) (hlo : -2147483648 ≤ n * bits_per_key_)
    (hhi : n * bits_per_key_ + 7 ≤ 2147483647) :
    segmentBytes bits_per_key_ n = (max 64 (n * bits_per_key_) + 7) / 8 := by
  unfold segmentBytes
  simp only []
  rw [wrap32_of_range hlo (by omega)]
  by_cases h : n * bits_per_key_ < 64
  · rw [if_pos h, max_eq_left (by omega), wrap32_of_range (by omega) (by omega),
      Int.tdiv_eq_ediv (by omega) (by omega)]
  · rw [if_neg h, max_eq_right (by omega), wrap32_of_range (by omega) (by omega),
      Int.tdiv_eq_ediv (by omega) (by omega)]

theorem segmentBytes_range (bits_per_key_ n : Int) (hlo : -2147483648 ≤ n * bits_per_key_)
    (hhi : n * bits_per_key_ + 7 ≤ 2147483647) :
    8 ≤ segmentBytes bits_per_key_ n ∧ segmentBytes bits_per_key_ n ≤ 268435455 := by
  rw [segmentBytes_eq _ _ hlo hhi]
  rcases max_cases (64 : Int) (n * bits_per_key_) with ⟨h, _⟩ | ⟨h, _⟩ <;> rw [h] <;> omega

theorem resize_grow (data : Bytes) (extra : Nat) :
    resize data (data.length + extra) = data ++ List.replicate extra 0 := by
  unfold resize
  rw [List.take_of_length_le (by omega)]
  congr 2
  omega

theorem createFilter_arith (len : Nat) (B : Int) (h8 : 8 ≤ B) (hmax : B ≤ 268435455)
    (hsize : (len : Int) + B ≤ 2147483647) :
    wrap32 (B * 8) = B * 8 ∧ toU32 (B * 8) = B.toNat * 8 ∧ wrap32 (len : Int) = len ∧
      toSizeT (wrap32 ((len : Int) + B)) = len + B.toNat := by
  refine ⟨wrap32_of_range (by omega) (by omega), ?_, wrap32_of_range (by omega) (by omega), ?_⟩
  · have h1 : toU32 (B * 8) = (B * 8).toNat := toU32_of_range (by omega) (by omega)
    rw [h1]; omega
  · have h1 : wrap32 ((len : Int) + B) = (len : Int) + B :=
      wrap32_of_range (by omega) (by omega)
    have h2 : toSizeT ((len : Int) + B) = ((len : Int) + B).toNat :=
      toSizeT_of_range (by omega) (by omega)
    rw [h1, h2]
    omega

/-- What one `CreateFilter` call does when its 32-bit arithmetic stays in range: it
succeeds, the buffer grows by `segmentBytes` bytes, the old bytes keep their values and
every probe bit of every key of the batch is set in the new segment. -/
theorem createFilter_core (hash : Bytes → Nat) (f : BloomFilter) (keys : List Bytes)
    (n : Int) (hn : 0 < n) (hkeys : n.toNat ≤ keys.length)
    (hlo : -2147483648 ≤ n * f.bits_per_key_)
    (hhi : n * f.bits_per_key_ + 7 ≤ 2147483647)
    (hsize : (f.bloomfilter_data_.length : Int) + segmentBytes f.bits_per_key_ n
      ≤ 2147483647) :
    ∃ data1, CreateFilter hash f (some keys) n = some { f with bloomfilter_data_ := data1 } ∧
      data1.length = f.bloomfilter_data_.length + (segmentBytes f.bits_per_key_ n).toNat ∧
      (∀ j, j < f.bloomfilter_data_.length → data1[j]? = f.bloomfilter_data_[j]?) ∧
      ∀ j key, j < n.toNat → keys[j]? = some key →
        Probes (fun pos => bitAt data1 (f.bloomfilter_data_.length + pos / 8) (pos % 8))
          ((segmentBytes f.bits_per_key_ n).toNat * 8) (stride (hash key % 4294967296))
          f.k_.toNat (hash key % 4294967296) := by
  obtain ⟨hB8, hBmax⟩ := segmentBytes_range _ _ hlo hhi
  generalize hB : segmentBytes f.bits_per_key_ n = B at *
  have hpos : B.toNat * 8 ≠ 0 := by omega
  have hcnt : 0 + n.toNat ≤ keys.length := by omega
  have hn0 : ¬ n ≤ 0 := by omega
  have hin : ∀ pos, pos < B.toNat * 8 → f.bloomfilter_data_.length + pos / 8
      < (f.bloomfilter_data_ ++ List.replicate B.toNat 0).length := by
    intro pos hpos
    simp only [List.length_append, List.length_replicate]
    omega
  have hmaxAlloc : ¬ maxAlloc < f.bloomfilter_data_.length + B.toNat := by
    unfold maxAlloc; omega
  obtain ⟨hbits, hu, hinit, hnew⟩ :=
    createFilter_arith f.bloomfilter_data_.length B hB8 hBmax hsize
  have h0 : toU32 (B * 8) ≠ 0 := by rw [hu]; exact hpos
  rw [← hu] at hin
  obtain ⟨data1, hfill, hext, hall⟩ := fillKeys_spec hash f.k_ (B * 8)
    f.bloomfilter_data_.length keys h0 n.toNat 0
    (f.bloomfilter_data_ ++ List.replicate B.toNat 0) hcnt hin
  refine ⟨data1, ?_, ?_, ?_, ?_⟩
  · unfold CreateFilter
    simp only [hB, hbits, hinit, hnew, resize_grow, hfill]
    rw [if_neg hn0, if_neg hmaxAlloc]
  · rw [hext.1]; simp
  · intro j hj
    rw [hext.2.2 j hj, List.getElem?_append_left hj]
  · intro j key hj hkey
    have := hall j key (Nat.zero_le _) (by rw [Nat.zero_add]; exact hj) hkey
    rw [hu] at this
    exact this

theorem keyMayMatch_arith (s B : Nat) (hBmax : B ≤ 268435455) (hs : s + B ≤ 2147483647) :
    toSizeT (s : Int) = s ∧ wrap32 (((s + B - s : Nat) : Int)) = (B : Int) ∧
      toSizeT (B : Int) = B ∧ wrap32 ((B : Int) * 8) = (B : Int) * 8 ∧
      toU32 ((B : Int) * 8) = B * 8 := by
  refine ⟨?_, ?_, ?_, wrap32_of_range (by omega) (by omega), ?_⟩
  · have h1 : toSizeT (s : Int) = (s : Int).toNat := toSizeT_of_range (by omega) (by omega)
    rw [h1]; omega
  · have h1 : (((s + B - s : Nat) : Int)) = (B : Int) := by omega
    rw [h1]
    exact wrap32_of_range (by omega) (by omega)
  · have h1 : toSizeT (B : Int) = (B : Int).toNat := toSizeT_of_range (by omega) (by omega)
    rw [h1]; omega
  · have h1 : toU32 ((B : Int) * 8) = ((B : Int) * 8).toNat :=
      toU32_of_range (by omega) (by omega)
    rw [h1]; omega

/-- A query that addresses the last `B` bytes of the buffer, by their length or by
length `0`, reports a key as possibly present when all of its probe bits are set there. -/
theorem keyMayMatch_of_probes (hash : Bytes → Nat) (f : BloomFilter) (key : Bytes)
    (s B : Nat) (len : Int) (hkey : key ≠ [])
    (hlen : f.bloomfilter_data_.length = s + B) (hB8 : 8 ≤ B) (hBmax : B ≤ 268435455)
    (hs : s + B ≤ 2147483647) (hl : len = (B : Int) ∨ len = 0)
    (hpr : Probes (fun pos => bitAt f.bloomfilter_data_ (s + pos / 8) (pos % 8)) (B * 8)
      (stride (hash key % 4294967296)) f.k_.toNat (hash key % 4294967296)) :
    KeyMayMatch hash f key (s : Int) len = some true := by
  have hkey1 : key.isEmpty = false := by
    cases key with
    | nil => exact absurd rfl hkey
    | cons a l => rfl
  have hdata : f.bloomfilter_data_.isEmpty = false := by
    cases hd : f.bloomfilter_data_ with
    | nil => rw [hd] at hlen; simp at hlen; omega
    | cons a l => rfl
  have hnlt : ¬ s + B < s := by omega
  have hB0 : ¬ (B : Int) = 0 := by omega
  have hB8n : B * 8 ≠ 0 := by omega
  obtain ⟨h1, h2, h3, h4, h5⟩ := keyMayMatch_arith s B hBmax hs
  have hlen1 : (if len = 0 then wrap32 (((s + B - s : Nat) : Int)) else len) = (B : Int) := by
    rcases hl with hl | hl
    · rw [hl, if_neg hB0]
    · rw [hl, if_pos rfl, h2]
  unfold KeyMayMatch
  simp only [hkey1, hdata, Bool.or_self, Bool.false_eq_true, if_false, hlen, h1, if_neg hnlt,
    hlen1, h3, h4]
  by_cases hk : 30 < f.k_
  · rw [if_pos hk]
  · rw [if_neg hk]
    apply probeTest_of_probes _ _ _ (by rw [h5]; exact hB8n)
    rw [h5]
    refine Probes.mono ?_ _ _ _ _ hpr
    rintro pos ⟨b, hb, hbit⟩
    refine ⟨b, ?_, hbit⟩
    have hlt : s + pos / 8 < f.bloomfilter_data_.length := by
      by_contra hge
      rw [List.getElem?_eq_none (Nat.le_of_not_lt hge)] at hb
      cases hb
    have hlt2 : pos / 8 < B := by rw [hlen] at hlt; exact Nat.lt_of_add_lt_add_left hlt
    rw [List.getElem?_take, if_pos hlt2, List.getElem?_drop]
    exact hb

/-- After a `CreateFilter` call whose arithmetic stays in range, a query for a non-empty
key of the batch that addresses the new segment (by its length, or by length `0` for the
rest of the buffer) answers `true`. -/
theorem createFilter_query (hash : Bytes → Nat) (f : BloomFilter) (keys : List Bytes)
    (hlo : -2147483648 ≤ (keys.length : Int) * f.bits_per_key_)
    (hhi : (keys.length : Int) * f.bits_per_key_ + 7 ≤ 2147483647)
    (hsize : (f.bloomfilter_data_.length : Int) + segmentBytes f.bits_per_key_ keys.length
      ≤ 2147483647) (hne : keys ≠ []) :
    ∃ f1, CreateFilter hash f (some keys) keys.length = some f1 ∧
      f1.bloomfilter_data_.length
        = f.bloomfilter_data_.length + (segmentBytes f.bits_per_key_ keys.length).toNat ∧
      ∀ k, k ∈ keys → k ≠ [] → ∀ len : Int,
        len = segmentBytes f.bits_per_key_ keys.length ∨ len = 0 →
        KeyMayMatch hash f1 k (f.bloomfilter_data_.length : Int) len = some true := by
  have hn : (0 : Int) < keys.length := by
    cases keys with
    | nil => exact absurd rfl hne
    | cons a l => simp only [List.length_cons]; omega
  obtain ⟨data1, hcf, hlen, -, hall⟩ := createFilter_core hash f keys keys.length hn
    (by simp) hlo hhi hsize
  obtain ⟨hB8, hBmax⟩ := segmentBytes_range _ _ hlo hhi
  generalize segmentBytes f.bits_per_key_ keys.length = B at *
  refine ⟨_, hcf, hlen, ?_⟩
  intro k hk hkne len hl
  obtain ⟨j, hj, hjk⟩ := List.getElem_of_mem hk
  have hjk2 : keys[j]? = some k := by rw [List.getElem?_eq_getElem hj, hjk]
  have hB : (B.toNat : Int) = B := by omega
  have hl2 : len = (B.toNat : Int) ∨ len = 0 := by rw [hB]; exact hl
  exact keyMayMatch_of_probes hash _ k f.bloomfilter_data_.length B.toNat len hkne hlen
    (by omega) (by omega) (by omega) hl2 (hall j k (by simpa using hj) hjk2)

/-! ## Properties of the ordered index -/

theorem SameShape.shape_refl (s : SkipList Key) : SameShape s s :=
  ⟨rfl, rfl, rfl, fun _ nd h => ⟨nd, h, rfl, rfl⟩⟩

theorem SameShape.shape_trans {s1 s2 s3 : SkipList Key} (h12 : SameShape s1 s2)
    (h23 : SameShape s2 s3) : SameShape s1 s3 := by
  obtain ⟨a1, a2, a3, a4⟩ := h12
  obtain ⟨b1, b2, b3, b4⟩ := h23
  refine ⟨b1.trans a1, b2.trans a2, b3.trans a3, ?_⟩
  intro y nd h
  obtain ⟨nd1, h1, k1, l1⟩ := a4 y nd h
  obtain ⟨nd2, h2, k2, l2⟩ := b4 y nd1 h1
  exact ⟨nd2, h2, k2.trans k1, l2.trans l1⟩

theorem next_of_node {s : SkipList Key} {x : Nat} {nd : Node Key}
    (h : s.arena_[x]? = some nd) (n : Nat) :
    Next s x n = match nd.next_[n]? with
      | none => none
      | some slot => slot := by
  simp only [Next, h]

theorem node_of_next {s : SkipList Key} {x n : Nat} {p : Ptr} (h : Next s x n = some p) :
    ∃ nd, s.arena_[x]? = some nd ∧ n < nd.next_.length := by
  cases hx : s.arena_[x]? with
  | none => simp only [Next, hx] at h; cases h
  | some nd =>
    refine ⟨nd, rfl, ?_⟩
    by_contra hn
    simp only [Next, hx, List.getElem?_eq_none (Nat.le_of_not_lt hn)] at h
    cases h

theorem setNext_spec {s : SkipList Key} {x n : Nat} {nd : Node Key} (v : Ptr)
    (hx : s.arena_[x]? = some nd) (hn : n < nd.next_.length) :
    ∃ s1, SetNext s x n v = some s1 ∧ SameShape s s1 ∧
      ∀ y m, Next s1 y m = if y = x ∧ m = n then some v else Next s y m := by
  have hxlt : x < s.arena_.length := by
    by_contra hge
    rw [List.getElem?_eq_none (Nat.le_of_not_lt hge)] at hx
    cases hx
  refine ⟨{ s with arena_ := s.arena_.set x { nd with next_ := nd.next_.set n (some v) } },
    by simp only [SetNext, hx, if_pos hn], ⟨rfl, rfl, rfl, ?_⟩, ?_⟩
  · intro y nd1 hy
    by_cases hyx : x = y
    · subst hyx
      rw [hx] at hy
      cases hy
      exact ⟨{ nd with next_ := nd.next_.set n (some v) },
        by simp only [List.getElem?_set, if_pos hxlt, if_true], rfl, by simp⟩
    · exact ⟨nd1, by simp only [List.getElem?_set, if_neg hyx]; exact hy, rfl, rfl⟩
  · intro y m
    by_cases hyx : x = y
    · subst hyx
      simp only [Next, List.getElem?_set, if_pos hxlt, hx, true_and, if_true]
      by_cases hm : m = n
      · subst hm
        simp only [if_pos hn, if_true]
      · have hnm : ¬ n = m := fun h => hm h.symm
        simp only [if_neg hm, if_neg hnm]
    · have hyx2 : ¬ (y = x ∧ m = n) := fun h => hyx h.1.symm
      simp only [Next, List.getElem?_set, if_neg hyx, if_neg hyx2]

theorem lastOr_nil (h : Nat) : lastOr h [] = h := rfl

theorem lastOr_cons (h a : Nat) (l : List Nat) : lastOr h (a :: l) = lastOr a l := by
  cases l with
  | nil => rfl
  | cons b l => simp [lastOr, List.getLast?_cons_cons, List.getLast?_eq_getLast]

theorem lastOr_append_singleton (h a : Nat) (l : List Nat) : lastOr h (l ++ [a]) = a := by
  simp [lastOr]

theorem lastOr_mem (h : Nat) (l : List Nat) : lastOr h l ∈ h :: l := by
  induction l generalizing h with
  | nil => simp [lastOr]
  | cons a l ih =>
    rw [lastOr_cons]
    exact List.mem_cons_of_mem _ (ih a)

theorem chain_congr {s s1 : SkipList Key} {i : Nat} :
    ∀ (l : List Nat) (x0 : Nat), (∀ x, x ∈ x0 :: l → Next s1 x i = Next s x i) →
      Chain s i x0 l → Chain s1 i x0 l
  | [], x0, hx, h => by
    simp only [Chain] at h ⊢
    rw [hx x0 (List.mem_cons_self _ _)]; exact h
  | y :: l, x0, hx, h => by
    simp only [Chain] at h ⊢
    refine ⟨by rw [hx x0 (List.mem_cons_self _ _)]; exact h.1, ?_⟩
    exact chain_congr l y (fun x hxm => hx x (List.mem_cons_of_mem _ hxm)) h.2

theorem chain_next {s : SkipList Key} {i : Nat} :
    ∀ (l1 l2 : List Nat) (h : Nat), Chain s i h (l1 ++ l2) →
      Next s (lastOr h l1) i = some (l2.head?)
  | [], [], h, hc => by simpa [Chain, lastOr] using hc
  | [], y :: l2, h, hc => by
    simp only [List.nil_append, Chain] at hc
    simpa [lastOr] using hc.1
  | a :: l1, l2, h, hc => by
    simp only [List.cons_append, Chain] at hc
    rw [lastOr_cons]
    exact chain_next l1 l2 a hc.2

theorem chain_insert {s s1 : SkipList Key} {i new_node : Nat} :
    ∀ (A B : List Nat) (h : Nat), Chain s i h (A ++ B) → (h :: (A ++ B)).Nodup →
      new_node ∉ h :: (A ++ B) →
      Next s1 new_node i = Next s (lastOr h A) i →
      Next s1 (lastOr h A) i = some (some new_node) →
      (∀ x, x ≠ new_node → x ≠ lastOr h A → Next s1 x i = Next s x i) →
      Chain s1 i h (A ++ new_node :: B)
  | [], B, h, hc, hnd, hnew, h1, h2, h3 => by
    simp only [List.nil_append, lastOr_nil] at *
    simp only [Chain]
    refine ⟨h2, ?_⟩
    cases B with
    | nil =>
      simp only [Chain] at hc ⊢
      rw [h1]; exact hc
    | cons y B =>
      simp only [Chain] at hc ⊢
      refine ⟨by rw [h1]; exact hc.1, ?_⟩
      refine chain_congr B y ?_ hc.2
      intro x hx
      apply h3
      · rintro rfl; exact hnew (List.mem_cons_of_mem _ hx)
      · rintro rfl; exact (List.nodup_cons.1 hnd).1 hx
  | a :: A, B, h, hc, hnd, hnew, h1, h2, h3 => by
    simp only [List.cons_append, Chain] at hc ⊢
    rw [lastOr_cons] at h1 h2 h3
    have hmem : lastOr a A ∈ a :: (A ++ B) := by
      have := lastOr_mem a A
      simp only [List.mem_cons, List.mem_append] at this ⊢
      tauto
    refine ⟨?_, chain_insert A B a hc.2 (List.nodup_cons.1 hnd).2
      (fun hm => hnew (List.mem_cons_of_mem _ hm)) h1 h2 h3⟩
    rw [h3 h ?_ ?_]
    · exact hc.1
    · rintro rfl; exact hnew (List.mem_cons_self _ _)
    · rintro rfl; exact (List.nodup_cons.1 hnd).1 hmem

theorem levelOf_nil (i : Nat) : levelOf i ([] : List (Entry Key)) = [] := rfl

theorem levelOf_append (i : Nat) (a b : List (Entry Key)) :
    levelOf i (a ++ b) = levelOf i a ++ levelOf i b := by
  simp [levelOf]

theorem levelOf_cons (i : Nat) (e : Entry Key) (l : List (Entry Key)) :
    levelOf i (e :: l) = if i < e.height then e.addr :: levelOf i l else levelOf i l := by
  by_cases h : i < e.height <;> simp [levelOf, h]

theorem levelOf_sublist (i : Nat) (es : List (Entry Key)) :
    List.Sublist (levelOf i es) (es.map (fun e => e.addr)) := by
  unfold levelOf
  exact List.Sublist.map _ (List.filter_sublist _)

theorem levelOf_mem {i a : Nat} {es : List (Entry Key)} (h : a ∈ levelOf i es) :
    ∃ e, e ∈ es ∧ e.addr = a ∧ i < e.height := by
  simp only [levelOf, List.mem_map, List.mem_filter, decide_eq_true_eq] at h
  obtain ⟨e, ⟨he, hi⟩, ha⟩ := h
  exact ⟨e, he, ha, hi⟩

/-- Either no entry of `C` reaches level `i`, or `C` splits at the first one that does. -/
theorem levelOf_split (i : Nat) :
    ∀ C : List (Entry Key), levelOf i C = [] ∨
      ∃ C1 e C2, C = C1 ++ e :: C2 ∧ levelOf i C1 = [] ∧ i < e.height
  | [] => Or.inl rfl
  | e :: C => by
    by_cases h : i < e.height
    · exact Or.inr ⟨[], e, C, rfl, rfl, h⟩
    · rcases levelOf_split i C with h0 | ⟨C1, e1, C2, hC, h1, h2⟩
      · left; rw [levelOf_cons, if_neg h]; exact h0
      · right
        refine ⟨e :: C1, e1, C2, by rw [hC]; rfl, ?_, h2⟩
        rw [levelOf_cons, if_neg h]; exact h1

theorem levelOf_zero {es : List (Entry Key)} (h : ∀ e, e ∈ es → 1 ≤ e.height) :
    levelOf 0 es = es.map (fun e => e.addr) := by
  induction es with
  | nil => rfl
  | cons e es ih =>
    have h1 : 0 < e.height := h e (List.mem_cons_self _ _)
    rw [levelOf_cons, if_pos h1, ih (fun e1 he1 => h e1 (List.mem_cons_of_mem _ he1))]
    rfl

theorem levelOf_eq_nil_of_le {i : Nat} {es : List (Entry Key)}
    (h : ∀ e, e ∈ es → e.height ≤ i) : levelOf i es = [] := by
  induction es with
  | nil => rfl
  | cons e es ih =>
    rw [levelOf_cons, if_neg (by have := h e (List.mem_cons_self _ _); omega)]
    exact ih (fun e1 he1 => h e1 (List.mem_cons_of_mem _ he1))


theorem descend_adv (adv : Key → Bool) {s : SkipList Key} {x level y : Nat} {yn : Node Key}
    (fuel : Nat) (prev : Option (List Ptr)) (hn : Next s x level = some (some y))
    (hy : s.arena_[y]? = some yn) (ha : adv yn.key = true) :
    descend adv s (fuel + 1) x level prev = descend adv s fuel y level prev := by
  simp only [descend, hn, hy, ha, if_true]

theorem descend_stop (adv : Key → Bool) {s : SkipList Key} {x level : Nat} {next : Ptr}
    (fuel : Nat) (prev : Option (List Ptr)) (hn : Next s x level = some next)
    (hy : ∀ y, next = some y → ∃ yn, s.arena_[y]? = some yn ∧ adv yn.key = false) :
    descend adv s (fuel + 1) x level prev =
      match recordPrev prev level x with
      | none => none
      | some prev1 =>
        if level = 0 then some (x, next, prev1)
        else descend adv s fuel x (level - 1) prev1 := by
  cases next with
  | none => simp only [descend, hn]
  | some y =>
    obtain ⟨yn, hyn, ha⟩ := hy y rfl
    simp only [descend, hn, hyn, ha, Bool.false_eq_true, if_false]

theorem head_levelOf_zero {es : List (Entry Key)} (h : ∀ e, e ∈ es → 1 ≤ e.height) :
    (levelOf 0 es).head? = (es.head?).map (fun e => e.addr) := by
  rw [levelOf_zero h]
  cases es <;> rfl

/-- What the search loop returns on a well-formed list whose entries split into those
that satisfy `adv` and those that do not. -/
theorem descend_spec (adv : Key → Bool) (cmp : Key → Key → Int) {s : SkipList Key}
    {es : List (Entry Key)} (hR : WellFormed cmp s es) (pre post : List (Entry Key))
    (hes : es = pre ++ post) (hpre : ∀ e, e ∈ pre → adv e.key = true)
    (hpost : ∀ e, e ∈ post → adv e.key = false) :
    ∀ (fuel : Nat) (A C : List (Entry Key)) (x level : Nat) (prev : Option (List Ptr)),
      pre = A ++ C →
      ((A = [] ∧ x = s.head_) ∨ ∃ A0 e, A = A0 ++ [e] ∧ x = e.addr ∧ level < e.height) →
      level < s.cur_height_ → C.length + level < fuel →
      (∀ p, prev = some p → p.length = kMaxHeight) →
      ∃ prev1, descend adv s fuel x level prev
          = some (lastOr s.head_ (levelOf 0 pre), (post.head?).map (fun e => e.addr), prev1) ∧
        (prev = none → prev1 = none) ∧
        ∀ p, prev = some p → ∃ p1, prev1 = some p1 ∧ p1.length = kMaxHeight ∧
          (∀ j, j ≤ level → p1[j]? = some (some (lastOr s.head_ (levelOf j pre)))) ∧
          ∀ j, level < j → p1[j]? = p[j]?
  | 0, _, _, _, _, _, _, _, _, hf, _ => by omega
  | fuel + 1, A, C, x, level, prev, hAC, hx, hlev, hf, hprev => by
    have hlevmax : level < kMaxHeight := Nat.lt_of_lt_of_le hlev hR.height_le
    have hxl : x = lastOr s.head_ (levelOf level A) := by
      rcases hx with ⟨hA, hxh⟩ | ⟨A0, e, hA, hxe, hlt⟩
      · rw [hA, hxh]; rfl
      · rw [hA, levelOf_append, levelOf_cons, if_pos hlt, levelOf_nil, lastOr_append_singleton]
        exact hxe
    have hchain := hR.chain level hlevmax
    rw [hes, hAC, List.append_assoc, levelOf_append] at hchain
    have hnext := chain_next _ _ _ hchain
    rw [← hxl] at hnext
    rcases levelOf_split level C with hC0 | ⟨C1, e, C2, hC, hC1, hlt⟩
    · -- nothing left to visit at this level
      rw [levelOf_append, hC0, List.nil_append] at hnext
      have hstop : ∀ y, (levelOf level post).head? = some y →
          ∃ yn, s.arena_[y]? = some yn ∧ adv yn.key = false := by
        intro y hy
        have hmem : y ∈ levelOf level post := List.mem_of_mem_head? hy
        obtain ⟨e, he, hea, -⟩ := levelOf_mem hmem
        obtain ⟨-, -, -, nd, hnd, hk, -⟩ := hR.node e (by rw [hes]; exact List.mem_append_right _ he)
        exact ⟨nd, by rw [← hea]; exact hnd, by rw [hk]; exact hpost e he⟩
      have hxpre : ∀ j, j ≤ level → levelOf j C = [] → x = lastOr s.head_ (levelOf j pre) := by
        intro j hj hCj
        rw [hAC, levelOf_append, hCj, List.append_nil]
        rcases hx with ⟨hA, hxh⟩ | ⟨A0, e, hA, hxe, hlt⟩
        · rw [hA, hxh]; rfl
        · rw [hA, levelOf_append, levelOf_cons, if_pos (by omega), levelOf_nil,
            lastOr_append_singleton]
          exact hxe
      rw [descend_stop adv fuel prev hnext hstop]
      cases prev with
      | none =>
        simp only [recordPrev]
        by_cases hl0 : level = 0
        · subst hl0
          rw [if_pos rfl]
          have hheights : ∀ e, e ∈ post → 1 ≤ e.height := fun e he =>
            (hR.node e (by rw [hes]; exact List.mem_append_right _ he)).2.1
          refine ⟨none, ?_, fun _ => rfl, fun p hp => by cases hp⟩
          rw [head_levelOf_zero hheights, ← hxpre 0 (Nat.le_refl _) hC0]
        · rw [if_neg hl0]
          obtain ⟨prev1, h1, h2, -⟩ := descend_spec adv cmp hR pre post hes hpre hpost fuel A C x
            (level - 1) none hAC (by
              rcases hx with h | ⟨A0, e, hA, hxe, hlt⟩
              · exact Or.inl h
              · exact Or.inr ⟨A0, e, hA, hxe, by omega⟩) (by omega) (by omega)
            (fun p hp => by cases hp)
          exact ⟨prev1, h1, fun _ => h2 rfl, fun p hp => by cases hp⟩
      | some p =>
        have hplen : p.length = kMaxHeight := hprev p rfl
        have hrec : recordPrev (some p) level x = some (some (p.set level (some x))) := by
          simp only [recordPrev]
          rw [if_pos (by rw [hplen]; exact hlevmax)]
        rw [hrec]
        simp only []
        by_cases hl0 : level = 0
        · subst hl0
          rw [if_pos rfl]
          have hheights : ∀ e, e ∈ post → 1 ≤ e.height := fun e he =>
            (hR.node e (by rw [hes]; exact List.mem_append_right _ he)).2.1
          refine ⟨some (p.set 0 (some x)), ?_, ?_, ?_⟩
          · rw [head_levelOf_zero hheights, ← hxpre 0 (Nat.le_refl _) hC0]
          · intro h; cases h
          · intro p0 hp0
            cases hp0
            refine ⟨_, rfl, by simp [hplen], ?_, ?_⟩
            · intro j hj
              have hj0 : j = 0 := by omega
              subst hj0
              rw [List.getElem?_set, if_pos rfl, if_pos (by rw [hplen]; exact hlevmax),
                ← hxpre 0 (Nat.le_refl _) hC0]
            · intro j hj
              rw [List.getElem?_set, if_neg (by omega)]
        · rw [if_neg hl0]
          obtain ⟨prev1, h1, -, h3⟩ := descend_spec adv cmp hR pre post hes hpre hpost fuel A C x
            (level - 1) (some (p.set level (some x))) hAC (by
              rcases hx with h | ⟨A0, e, hA, hxe, hlt⟩
              · exact Or.inl h
              · exact Or.inr ⟨A0, e, hA, hxe, by omega⟩) (by omega) (by omega)
            (fun p1 hp1 => by cases hp1; simp [hplen])
          obtain ⟨p1, hp1, hlen1, hlow, hhigh⟩ := h3 _ rfl
          refine ⟨prev1, h1, ?_, ?_⟩
          · intro h; cases h
          intro p0 hp0
          cases hp0
          refine ⟨p1, hp1, hlen1, ?_, ?_⟩
          · intro j hj
            by_cases hjl : j = level
            · subst hjl
              rw [hhigh j (by omega), List.getElem?_set, if_pos rfl,
                if_pos (by rw [hplen]; exact hlevmax), ← hxpre j (Nat.le_refl _) hC0]
            · exact hlow j (by omega)
          · intro j hj
            rw [hhigh j (by omega), List.getElem?_set, if_neg (by omega)]
    · -- the next node at this level satisfies `adv`: move on
      rw [hC, List.append_assoc, levelOf_append, hC1, List.nil_append, List.cons_append,
        levelOf_cons, if_pos hlt] at hnext
      have hepre : e ∈ pre := by rw [hAC, hC]; simp
      obtain ⟨-, -, -, nd, hnd, hk, -⟩ := hR.node e (by rw [hes]; exact List.mem_append_left _ hepre)
      rw [descend_adv adv fuel prev hnext hnd (by rw [hk]; exact hpre e hepre)]
      exact descend_spec adv cmp hR pre post hes hpre hpost fuel (A ++ C1 ++ [e]) C2 e.addr level
        prev (by rw [hAC, hC]; simp) (Or.inr ⟨A ++ C1, e, rfl, rfl, hlt⟩) hlev
        (by rw [hC] at hf; simp at hf; omega) hprev

theorem findGreaterOrEqualLoop_eq (cmp : Key → Key → Int) (s : SkipList Key) (key : Key) :
    ∀ (fuel x level : Nat) (prev : Option (List Ptr)),
      findGreaterOrEqualLoop cmp s key fuel x level prev
        = (descend (fun k => decide (0 < cmp key k)) s fuel x level prev).map
            (fun r => (r.2.1, r.2.2))
  | 0, _, _, _ => rfl
  | fuel + 1, x, level, prev => by
    have ih1 := findGreaterOrEqualLoop_eq cmp s key fuel
    unfold findGreaterOrEqualLoop descend
    cases hn : Next s x level with
    | none => rfl
    | some next =>
      cases next with
      | none =>
        simp only [KeyIsAfterNode]
        cases hr : recordPrev prev level x with
        | none => rfl
        | some prev1 =>
          simp only []
          by_cases hl : level = 0
          · simp only [if_pos hl, Option.map_some']
          · simp only [if_neg hl, ih1]
      | some y =>
        simp only [KeyIsAfterNode]
        cases hy : s.arena_[y]? with
        | none => rfl
        | some yn =>
          simp only []
          by_cases ha : 0 < cmp key yn.key
          · simp only [ha, decide_True, if_true, ih1]
          · simp only [ha, decide_False, Bool.false_eq_true, if_false]
            cases hr : recordPrev prev level x with
            | none => rfl
            | some prev1 =>
              simp only []
              by_cases hl : level = 0
              · simp only [if_pos hl, Option.map_some']
              · simp only [if_neg hl, ih1]

theorem findLastLoop_of_descend (s : SkipList Key) :
    ∀ (fuel x level : Nat) (r : Nat × Ptr × Option (List Ptr)),
      descend (fun _ => true) s fuel x level none = some r →
      findLastLoop s fuel x level = some r.1
  | 0, _, _, _, h => by simp [descend] at h
  | fuel + 1, x, level, r, h => by
    have ih1 := findLastLoop_of_descend s fuel
    unfold descend at h
    unfold findLastLoop
    cases hn : Next s x level with
    | none => rw [hn] at h; cases h
    | some next =>
      rw [hn] at h
      cases next with
      | none =>
        simp only [recordPrev] at h ⊢
        by_cases hl : level = 0
        · simp only [if_pos hl] at h ⊢
          cases h; rfl
        · simp only [if_neg hl] at h ⊢
          exact ih1 _ _ _ h
      | some y =>
        simp only [] at h ⊢
        cases hy : s.arena_[y]? with
        | none => rw [hy] at h; cases h
        | some yn =>
          rw [hy] at h
          simp only [if_true] at h
          exact ih1 _ _ _ h

theorem findLessThanLoop_of_descend (cmp : Key → Key → Int) (s : SkipList Key) (key : Key) :
    ∀ (fuel x level : Nat) (r : Nat × Ptr × Option (List Ptr)),
      descend (fun k => decide (cmp k key < 0)) s fuel x level none = some r →
      (x = s.head_ ∨ ∃ xn, s.arena_[x]? = some xn ∧ cmp xn.key key < 0) →
      findLessThanLoop cmp s key fuel x level = some r.1
  | 0, _, _, _, h, _ => by simp [descend] at h
  | fuel + 1, x, level, r, h, hx => by
    have ih1 := findLessThanLoop_of_descend cmp s key fuel
    unfold descend at h
    unfold findLessThanLoop
    cases hn : Next s x level with
    | none => rw [hn] at h; cases h
    | some next =>
      rw [hn] at h
      obtain ⟨xn, hxn, -⟩ := node_of_next hn
      have hassert : x = s.head_ ∨ cmp xn.key key < 0 := by
        rcases hx with h1 | ⟨xn1, h1, h2⟩
        · exact Or.inl h1
        · rw [hxn] at h1; cases h1; exact Or.inr h2
      simp only [hxn, if_pos hassert]
      cases next with
      | none =>
        simp only [recordPrev] at h ⊢
        by_cases hl : level = 0
        · simp only [if_pos hl] at h ⊢
          cases h; rfl
        · simp only [if_neg hl] at h ⊢
          exact ih1 _ _ _ h hx
      | some y =>
        simp only [] at h ⊢
        cases hy : s.arena_[y]? with
        | none => rw [hy] at h; cases h
        | some yn =>
          rw [hy] at h
          simp only [] at h ⊢
          by_cases ha : cmp yn.key key < 0
          · have hge : ¬ 0 ≤ cmp yn.key key := by omega
            simp only [ha, decide_True, if_true] at h
            simp only [if_neg hge]
            exact ih1 _ _ _ h (Or.inr ⟨yn, hy, ha⟩)
          · have hge : 0 ≤ cmp yn.key key := by omega
            simp only [ha, decide_False, Bool.false_eq_true, if_false, recordPrev] at h
            simp only [if_pos hge]
            by_cases hl : level = 0
            · simp only [if_pos hl] at h ⊢
              cases h; rfl
            · simp only [if_neg hl] at h ⊢
              exact ih1 _ _ _ h hx

theorem randomHeightFrom_range (rand : Nat → Nat) :
    ∀ left height rnd, height ≤ (randomHeightFrom rand left height rnd).1 ∧
      (randomHeightFrom rand left height rnd).1 ≤ height + left
  | 0, height, rnd => by simp [randomHeightFrom]
  | left + 1, height, rnd => by
    unfold randomHeightFrom
    by_cases h : rand rnd % kBranching = 0
    · rw [if_pos h]
      have := randomHeightFrom_range rand left (height + 1) (rnd + 1)
      omega
    · rw [if_neg h]
      simp only []
      omega

theorem randomHeight_range (rand : Nat → Nat) (rnd : Nat) :
    1 ≤ (RandomHeight rand rnd).1 ∧ (RandomHeight rand rnd).1 ≤ kMaxHeight := by
  have := randomHeightFrom_range rand (kMaxHeight - 1) 1 rnd
  unfold RandomHeight
  unfold kMaxHeight at this ⊢
  omega

theorem raisePrev_spec (head : Nat) :
    ∀ (cnt i : Nat) (prev : List Ptr), i + cnt ≤ prev.length →
      (raisePrev head cnt i prev).length = prev.length ∧
      ∀ j, (raisePrev head cnt i prev)[j]?
        = if i ≤ j ∧ j < i + cnt then some (some head) else prev[j]?
  | 0, i, prev, _ => ⟨rfl, fun j => by rw [if_neg (by omega)]; rfl⟩
  | cnt + 1, i, prev, h => by
    obtain ⟨h1, h2⟩ := raisePrev_spec head cnt (i + 1) (prev.set i (some head))
      (by simp only [List.length_set]; omega)
    refine ⟨by simp only [raisePrev, h1, List.length_set], ?_⟩
    intro j
    simp only [raisePrev, h2, List.getElem?_set]
    by_cases hji : i = j
    · subst hji
      rw [if_neg (by omega), if_pos rfl, if_pos (by omega), if_pos (by omega)]
    · rw [if_neg hji]
      by_cases hr : i + 1 ≤ j ∧ j < i + 1 + cnt
      · rw [if_pos hr, if_pos (by omega)]
      · rw [if_neg hr, if_neg (by omega)]

/-- The linking loop succeeds and stores exactly two links per level. -/
theorem linkLevels_spec (prev : List Ptr) (new_node : Nat) (P : Nat → Nat) :
    ∀ (cnt i : Nat) (t : SkipList Key) (nn : Node Key),
      t.arena_[new_node]? = some nn → i + cnt ≤ nn.next_.length →
      (∀ j, i ≤ j → j < i + cnt →
        prev[j]? = some (some (P j)) ∧ P j ≠ new_node ∧ ∃ q, Next t (P j) j = some q) →
      ∃ t1, linkLevels prev new_node cnt i t = some t1 ∧ SameShape t t1 ∧
        ∀ j x, Next t1 x j =
          if i ≤ j ∧ j < i + cnt then
            if x = new_node then Next t (P j) j
            else if x = P j then some (some new_node) else Next t x j
          else Next t x j
  | 0, i, t, _, _, _, _ => ⟨t, rfl, SameShape.shape_refl t, fun j x => by rw [if_neg (by omega)]⟩
  | cnt + 1, i, t, nn, hnew, hlen, hprev => by
    obtain ⟨hp, hne, q, hq⟩ := hprev i (Nat.le_refl _) (by omega)
    obtain ⟨pn, hpn, hpl⟩ := node_of_next hq
    obtain ⟨t1, ht1, hs1, hn1⟩ := setNext_spec q hnew (show i < nn.next_.length by omega)
    obtain ⟨pn1, hpn1, -, hpl1⟩ := hs1.2.2.2 _ _ hpn
    obtain ⟨t2, ht2, hs2, hn2⟩ := setNext_spec (some new_node) hpn1
      (show i < pn1.next_.length by omega)
    have hs12 := hs1.shape_trans hs2
    obtain ⟨nn2, hnn2, -, hnl2⟩ := hs12.2.2.2 _ _ hnew
    have hnext2 : ∀ j x, Next t2 x j =
        if j = i then
          if x = new_node then some q else if x = P i then some (some new_node) else Next t x j
        else Next t x j := by
      intro j x
      rw [hn2, hn1]
      by_cases hj : j = i
      · subst hj
        rw [if_pos rfl]
        by_cases hx : x = new_node
        · subst hx
          rw [if_neg (fun h => hne h.1.symm), if_pos ⟨rfl, rfl⟩, if_pos rfl]
        · rw [if_neg hx]
          by_cases hxp : x = P j
          · rw [if_pos ⟨hxp, rfl⟩, if_pos hxp]
          · rw [if_neg (fun h => hxp h.1), if_neg (fun h => hx h.1), if_neg hxp]
      · rw [if_neg (fun h => hj h.2), if_neg (fun h => hj h.2), if_neg hj]
    obtain ⟨t3, ht3, hs3, hn3⟩ := linkLevels_spec prev new_node P cnt (i + 1) t2 nn2 hnn2
      (by omega) (fun j h1 h2 => by
        obtain ⟨a, b, q1, hq1⟩ := hprev j (by omega) (by omega)
        refine ⟨a, b, q1, ?_⟩
        rw [hnext2, if_neg (by omega)]
        exact hq1)
    refine ⟨t3, ?_, hs12.shape_trans hs3, ?_⟩
    · simp only [linkLevels, hp, NoBarrier_Next, hq, NoBarrier_SetNext, ht1, ht2, ht3]
    · intro j x
      by_cases hj : j = i
      · subst hj
        have h1 : ¬ (j + 1 ≤ j ∧ j < j + 1 + cnt) := by omega
        have h2 : j ≤ j ∧ j < j + (cnt + 1) := by omega
        simp only [hn3, hnext2, if_neg h1, if_pos h2, if_true, hq]
      · by_cases hr : i + 1 ≤ j ∧ j < i + 1 + cnt
        · have h2 : i ≤ j ∧ j < i + (cnt + 1) := by omega
          simp only [hn3, hnext2, if_pos hr, if_pos h2, if_neg hj]
        · have h2 : ¬ (i ≤ j ∧ j < i + (cnt + 1)) := by omega
          simp only [hn3, hnext2, if_neg hr, if_neg h2, if_neg hj]

theorem split_by (cmp : Key → Key → Int) (adv : Key → Bool)
    (hmono : ∀ a b : Key, cmp a b < 0 → adv b = true → adv a = true) :
    ∀ es : List (Entry Key), es.Pairwise (fun a b => cmp a.key b.key < 0) →
      ∃ pre post, es = pre ++ post ∧ (∀ e, e ∈ pre → adv e.key = true) ∧
        ∀ e, e ∈ post → adv e.key = false
  | [], _ => ⟨[], [], rfl, fun _ h => absurd h (List.not_mem_nil _),
    fun _ h => absurd h (List.not_mem_nil _)⟩
  | e :: es, hs => by
    rw [List.pairwise_cons] at hs
    by_cases ha : adv e.key = true
    · obtain ⟨pre, post, h1, h2, h3⟩ := split_by cmp adv hmono es hs.2
      refine ⟨e :: pre, post, by rw [h1]; rfl, ?_, h3⟩
      intro e1 he1
      rcases List.mem_cons.1 he1 with h | h
      · rw [h]; exact ha
      · exact h2 e1 h
    · refine ⟨[], e :: es, rfl, fun _ h => absurd h (List.not_mem_nil _), ?_⟩
      intro e1 he1
      rcases List.mem_cons.1 he1 with h | h
      · rw [h]; simpa using ha
      · by_contra hne
        exact ha (hmono _ _ (hs.1 e1 h) (by simpa using hne))

theorem StrictTotalCmp.cmp_self {cmp : Key → Key → Int} (hc : StrictTotalCmp cmp) (a : Key) :
    cmp a a = 0 := (hc.eq_iff a a).2 rfl

theorem StrictTotalCmp.swap_pos {cmp : Key → Key → Int} (hc : StrictTotalCmp cmp)
    (a b : Key) : 0 < cmp a b ↔ cmp b a < 0 := (hc.swap b a).symm

theorem StrictTotalCmp.swap_zero {cmp : Key → Key → Int} (hc : StrictTotalCmp cmp)
    (a b : Key) : cmp a b = 0 ↔ cmp b a = 0 := by
  rw [hc.eq_iff, hc.eq_iff]; exact eq_comm

/-- What `FindGreaterOrEqual` returns on a well-formed list: the entries split into the
keys below `key` and the keys from `key` on, the result is the first node of the second
part, and `prev` holds the last node of the first part at each level in use. -/
theorem findGreaterOrEqual_spec {cmp : Key → Key → Int} (hc : StrictTotalCmp cmp)
    {s : SkipList Key} {es : List (Entry Key)} (hR : WellFormed cmp s es) (key : Key) (fuel : Nat)
    (hf : es.length + s.cur_height_ ≤ fuel) (prev : Option (List Ptr))
    (hprev : ∀ p, prev = some p → p.length = kMaxHeight) :
    ∃ pre post prev1, es = pre ++ post ∧ (∀ e, e ∈ pre → cmp e.key key < 0) ∧
      (∀ e, e ∈ post → 0 ≤ cmp e.key key) ∧
      FindGreaterOrEqual cmp fuel s key prev
        = some ((post.head?).map (fun e => e.addr), prev1) ∧
      (prev = none → prev1 = none) ∧
      ∀ p, prev = some p → ∃ p1, prev1 = some p1 ∧ p1.length = kMaxHeight ∧
        (∀ j, j < s.cur_height_ → p1[j]? = some (some (lastOr s.head_ (levelOf j pre)))) ∧
        ∀ j, s.cur_height_ ≤ j → p1[j]? = p[j]? := by
  obtain ⟨pre, post, hes, hpre, hpost⟩ := split_by cmp (fun k => decide (0 < cmp key k))
    (fun a b hab hb => by
      simp only [decide_eq_true_eq] at hb ⊢
      rw [hc.swap_pos] at hb ⊢
      exact hc.trans _ _ _ hab hb) es hR.sorted
  have hpos := hR.height_pos
  have hlen : pre.length ≤ es.length := by rw [hes]; simp
  obtain ⟨prev1, h1, h2, h3⟩ := descend_spec (fun k => decide (0 < cmp key k)) cmp hR pre post
    hes hpre hpost fuel [] pre s.head_ (s.cur_height_ - 1) prev rfl (Or.inl ⟨rfl, rfl⟩)
    (by omega) (by omega) hprev
  refine ⟨pre, post, prev1, hes, ?_, ?_, ?_, h2, ?_⟩
  · intro e he
    have := hpre e he
    simp only [decide_eq_true_eq] at this
    exact (hc.swap_pos _ _).1 this
  · intro e he
    have := hpost e he
    simp only [decide_eq_false_iff_not] at this
    rw [hc.swap_pos] at this
    omega
  · unfold FindGreaterOrEqual
    rw [if_neg (by omega), findGreaterOrEqualLoop_eq, h1]
    rfl
  · intro p hp
    obtain ⟨p1, hp1, hl1, hlow, hhigh⟩ := h3 p hp
    exact ⟨p1, hp1, hl1, fun j hj => hlow j (by omega), fun j hj => hhigh j (by omega)⟩

/-- In a sorted list split at `key`, a key equal to `key` is the key of the first entry
of the second part. -/
theorem head_of_post {cmp : Key → Key → Int} (hc : StrictTotalCmp cmp)
    {pre post : List (Entry Key)} {key : Key}
    (hs : (pre ++ post).Pairwise (fun a b => cmp a.key b.key < 0))
    (hpre : ∀ e, e ∈ pre → cmp e.key key < 0) (hpost : ∀ e, e ∈ post → 0 ≤ cmp e.key key)
    {e : Entry Key} (he : e ∈ pre ++ post) (hek : cmp e.key key = 0) :
    ∃ e0 rest, post = e0 :: rest ∧ e0.key = key := by
  have hepost : e ∈ post := by
    rcases List.mem_append.1 he with h | h
    · have := hpre e h; omega
    · exact h
  cases post with
  | nil => cases hepost
  | cons e0 rest =>
    refine ⟨e0, rest, rfl, ?_⟩
    rcases List.mem_cons.1 hepost with h | h
    · rw [← h]; exact (hc.eq_iff _ _).1 hek
    · have hlt : cmp e0.key e.key < 0 :=
        (List.pairwise_cons.1 (List.pairwise_append.1 hs).2.1).1 e h
      rw [(hc.eq_iff _ _).1 hek] at hlt
      have := hpost e0 (List.mem_cons_self _ _)
      omega

theorem WellFormed.addr_lt {cmp : Key → Key → Int} {s : SkipList Key} {es : List (Entry Key)}
    (hR : WellFormed cmp s es) {e : Entry Key} (he : e ∈ es) : e.addr < s.arena_.length := by
  obtain ⟨-, -, -, nd, hnd, -, -⟩ := hR.node e he
  by_contra hge
  rw [List.getElem?_eq_none (Nat.le_of_not_lt hge)] at hnd
  cases hnd

theorem WellFormed.head_lt {cmp : Key → Key → Int} {s : SkipList Key} {es : List (Entry Key)}
    (hR : WellFormed cmp s es) : s.head_ < s.arena_.length := by
  obtain ⟨hd, hhd, -⟩ := hR.head
  by_contra hge
  rw [List.getElem?_eq_none (Nat.le_of_not_lt hge)] at hhd
  cases hhd

/-- The predecessor at a level is the head or the address of an entry. -/
theorem lastOr_levelOf_cases (head j : Nat) (pre : List (Entry Key)) :
    lastOr head (levelOf j pre) = head ∨
      ∃ e, e ∈ pre ∧ e.addr = lastOr head (levelOf j pre) := by
  have := lastOr_mem head (levelOf j pre)
  rcases List.mem_cons.1 this with h | h
  · exact Or.inl h
  · obtain ⟨e, he, hea, -⟩ := levelOf_mem h
    exact Or.inr ⟨e, he, hea⟩

/-- The links of a well-formed list at level `j`, seen from the address list. -/
theorem WellFormed.nodup_level {cmp : Key → Key → Int} {s : SkipList Key}
    {es : List (Entry Key)} (hR : WellFormed cmp s es) (j : Nat) :
    (s.head_ :: levelOf j es).Nodup := by
  refine List.nodup_cons.2 ⟨?_, (levelOf_sublist j es).nodup hR.nodup⟩
  intro hmem
  obtain ⟨e, he, hea, -⟩ := levelOf_mem hmem
  exact (hR.node e he).1 hea

/-- Linking a fresh node of height `h` between the entries below and above `key` gives
a well-formed list again. -/
theorem wellFormed_insert {cmp : Key → Key → Int} {s : SkipList Key}
    {es : List (Entry Key)} (hR : WellFormed cmp s es) (pre post : List (Entry Key)) (key : Key)
    (hes : es = pre ++ post) (hpre : ∀ e, e ∈ pre → cmp e.key key < 0)
    (hpost : ∀ e, e ∈ post → cmp key e.key < 0) (s1 : SkipList Key) (h : Nat)
    (h1 : 1 ≤ h) (h20 : h ≤ kMaxHeight) (hhead : s1.head_ = s.head_)
    (hcur : s1.cur_height_ = if s.cur_height_ < h then h else s.cur_height_)
    (hold : ∀ (y : Nat) (nd : Node Key), s.arena_[y]? = some nd →
      ∃ nd1 : Node Key,
        s1.arena_[y]? = some nd1 ∧ nd1.key = nd.key ∧ nd1.next_.length = nd.next_.length)
    (hnode : ∃ nn : Node Key,
      s1.arena_[s.arena_.length]? = some nn ∧ nn.key = key ∧ nn.next_.length = h)
    (hlo : ∀ j, j < h →
      Next s1 s.arena_.length j = Next s (lastOr s.head_ (levelOf j pre)) j ∧
      Next s1 (lastOr s.head_ (levelOf j pre)) j = some (some s.arena_.length) ∧
      ∀ x, x ≠ s.arena_.length → x ≠ lastOr s.head_ (levelOf j pre) →
        Next s1 x j = Next s x j)
    (hhi : ∀ j, h ≤ j → ∀ x, x ≠ s.arena_.length → Next s1 x j = Next s x j) :
    WellFormed cmp s1 (pre ++ { addr := s.arena_.length, key := key, height := h } :: post) := by
  have hcurle : s.cur_height_ ≤ s1.cur_height_ := by
    rw [hcur]; split <;> omega
  have hfresh : ∀ e, e ∈ es → e.addr ≠ s.arena_.length := fun e he =>
    Nat.ne_of_lt (hR.addr_lt he)
  constructor
  · obtain ⟨hd, hhd, hlen⟩ := hR.head
    obtain ⟨hd1, hhd1, -, hlen1⟩ := hold _ _ hhd
    exact ⟨hd1, by rw [hhead]; exact hhd1, hlen1.trans hlen⟩
  · have := hR.height_pos; omega
  · have := hR.height_le
    rw [hcur]; split <;> omega
  · intro e he
    rcases List.mem_append.1 he with hm | hm
    · have hees : e ∈ es := by rw [hes]; exact List.mem_append_left _ hm
      obtain ⟨a, b, c, nd, hnd, hk, hl⟩ := hR.node e hees
      obtain ⟨nd1, hnd1, hk1, hl1⟩ := hold _ _ hnd
      exact ⟨by rw [hhead]; exact a, b, by omega, nd1, hnd1, hk1.trans hk, hl1.trans hl⟩
    · rcases List.mem_cons.1 hm with hm | hm
      · subst hm
        obtain ⟨nn, hnn, hk, hl⟩ := hnode
        refine ⟨?_, h1, ?_, nn, hnn, hk, hl⟩
        · rw [hhead]; exact Ne.symm (Nat.ne_of_lt hR.head_lt)
        · show h ≤ s1.cur_height_
          rw [hcur]; split <;> omega
      · have hees : e ∈ es := by rw [hes]; exact List.mem_append_right _ hm
        obtain ⟨a, b, c, nd, hnd, hk, hl⟩ := hR.node e hees
        obtain ⟨nd1, hnd1, hk1, hl1⟩ := hold _ _ hnd
        exact ⟨by rw [hhead]; exact a, b, by omega, nd1, hnd1, hk1.trans hk, hl1.trans hl⟩
  · have hs := hR.sorted
    rw [hes, List.pairwise_append] at hs
    rw [List.pairwise_append, List.pairwise_cons]
    refine ⟨hs.1, ⟨fun e he => hpost e he, hs.2.1⟩, ?_⟩
    intro a ha b hb
    rcases List.mem_cons.1 hb with hb | hb
    · rw [hb]; exact hpre a ha
    · exact hs.2.2 a ha b hb
  · have hn := hR.nodup
    rw [hes, List.map_append, List.nodup_append] at hn
    rw [List.map_append, List.map_cons, List.nodup_append, List.nodup_cons]
    refine ⟨hn.1, ⟨?_, hn.2.1⟩, ?_⟩
    · intro hm
      obtain ⟨e, he, hea⟩ := List.mem_map.1 hm
      exact hfresh e (by rw [hes]; exact List.mem_append_right _ he) hea
    · intro a ha hb
      rcases List.mem_cons.1 hb with hb | hb
      · obtain ⟨e, he, hea⟩ := List.mem_map.1 ha
        exact hfresh e (by rw [hes]; exact List.mem_append_left _ he) (by rw [hea, hb])
      · exact hn.2.2 ha hb
  · intro j hj
    have hch := hR.chain j hj
    have hnd := hR.nodup_level j
    rw [hes, levelOf_append] at hch hnd
    have hnotin : s.arena_.length ∉ s.head_ :: (levelOf j pre ++ levelOf j post) := by
      intro hm
      rcases List.mem_cons.1 hm with hm | hm
      · exact Nat.ne_of_lt hR.head_lt hm.symm
      · rw [← levelOf_append, ← hes] at hm
        obtain ⟨e, he, hea, -⟩ := levelOf_mem hm
        exact hfresh e he hea
    rw [hhead, levelOf_append, levelOf_cons]
    by_cases hjh : j < h
    · rw [if_pos hjh]
      obtain ⟨a, b, c⟩ := hlo j hjh
      exact chain_insert _ _ _ hch hnd hnotin a b c
    · rw [if_neg hjh]
      refine chain_congr _ _ ?_ hch
      intro x hx
      refine hhi j (by omega) x ?_
      rintro rfl
      exact hnotin hx

theorem next_append_node (s : SkipList Key) (c r : Nat) (nd : Node Key) (x j : Nat)
    (hx : x ≠ s.arena_.length) :
    Next { s with arena_ := s.arena_ ++ [nd], cur_height_ := c, rnd_ := r } x j = Next s x j := by
  unfold Next
  simp only []
  by_cases hlt : x < s.arena_.length
  · rw [List.getElem?_append_left hlt]
  · rw [List.getElem?_eq_none (by simp only [List.length_append, List.length_singleton]; omega),
      List.getElem?_eq_none (by omega)]

/-- Inserting a key that is already stored returns the state as it was. -/
theorem insert_dup {cmp : Key → Key → Int} (hc : StrictTotalCmp cmp) {s : SkipList Key}
    {es : List (Entry Key)} (hR : WellFormed cmp s es) (rand : Nat → Nat) (key : Key) (fuel : Nat)
    (hf : es.length + s.cur_height_ ≤ fuel) (hdup : ∃ e, e ∈ es ∧ cmp e.key key = 0) :
    Insert cmp rand fuel s key = some s := by
  obtain ⟨pre, post, prev1, hes, hpre, hpost, hfge, -, hp⟩ :=
    findGreaterOrEqual_spec hc hR key fuel hf (some (List.replicate kMaxHeight none))
      (fun p hp => by cases hp; simp)
  obtain ⟨p1, hp1, -⟩ := hp _ rfl
  subst hp1
  obtain ⟨e, he, hek⟩ := hdup
  obtain ⟨e0, rest, hpost0, hk0⟩ := head_of_post hc (hes ▸ hR.sorted) hpre hpost (hes ▸ he) hek
  obtain ⟨-, -, -, nd, hnd, hk, -⟩ := hR.node e0 (by rw [hes, hpost0]; simp)
  have heq : Equal cmp key nd.key = true := by
    simp only [Equal, decide_eq_true_eq, hk, hk0]
    exact hc.cmp_self key
  unfold Insert
  rw [hfge, hpost0]
  simp only [List.head?_cons, Option.map_some', hnd, heq]

/-- Inserting a key that is not stored links one new node, of the height drawn by
`RandomHeight`, between the entries below and above it. -/
theorem insert_new {cmp : Key → Key → Int} (hc : StrictTotalCmp cmp) {s : SkipList Key}
    {es : List (Entry Key)} (hR : WellFormed cmp s es) (rand : Nat → Nat) (key : Key) (fuel : Nat)
    (hf : es.length + s.cur_height_ ≤ fuel) (hnk : ∀ e, e ∈ es → cmp e.key key ≠ 0) :
    ∃ s1 pre post, es = pre ++ post ∧ Insert cmp rand fuel s key = some s1 ∧
      WellFormed cmp s1
        (pre ++ Entry.mk s.arena_.length key (RandomHeight rand s.rnd_).1 :: post) := by
  obtain ⟨pre, post, prev1, hes, hpre, hpost, hfge, -, hp⟩ :=
    findGreaterOrEqual_spec hc hR key fuel hf (some (List.replicate kMaxHeight none))
      (fun p hp => by cases hp; simp)
  obtain ⟨p1, hp1, hl1, hlow, hhigh⟩ := hp _ rfl
  subst hp1
  have hpost1 : ∀ e, e ∈ post → cmp key e.key < 0 := by
    intro e he
    have h1 := hpost e he
    have h2 := hnk e (by rw [hes]; exact List.mem_append_right _ he)
    rw [hc.swap]; omega
  obtain ⟨hh1, hh20⟩ := randomHeight_range rand s.rnd_
  rcases hrh : RandomHeight rand s.rnd_ with ⟨h, rnd1⟩
  rw [hrh] at hh1 hh20
  simp only [] at hh1 hh20 ⊢
  -- the duplicate test fails
  have hdup : ∀ e0 rest, post = e0 :: rest →
      ∃ nd, s.arena_[e0.addr]? = some nd ∧ Equal cmp key nd.key = false := by
    intro e0 rest hpr
    obtain ⟨-, -, -, nd, hnd, hk, -⟩ := hR.node e0 (by rw [hes, hpr]; simp)
    have h2 := hnk e0 (by rw [hes, hpr]; simp)
    refine ⟨nd, hnd, ?_⟩
    simp only [Equal, hk]
    rw [decide_eq_false (fun h0 => h2 ((hc.swap_zero _ _).1 h0))]
  -- the predecessors used by the linking loop
  have hprevF : ∀ j, j < h →
      (if s.cur_height_ < h then raisePrev s.head_ (h - s.cur_height_) s.cur_height_ p1
        else p1)[j]? = some (some (lastOr s.head_ (levelOf j pre))) := by
    intro j hj
    by_cases hjc : j < s.cur_height_
    · have := hlow j hjc
      by_cases hch : s.cur_height_ < h
      · rw [if_pos hch, (raisePrev_spec s.head_ _ _ p1 (by rw [hl1]; omega)).2,
          if_neg (by omega)]
        exact this
      · rw [if_neg hch]; exact this
    · have hch : s.cur_height_ < h := by omega
      rw [if_pos hch, (raisePrev_spec s.head_ _ _ p1 (by rw [hl1]; omega)).2,
        if_pos (by omega)]
      have : levelOf j pre = [] := levelOf_eq_nil_of_le (fun e he => by
        have := (hR.node e (by rw [hes]; exact List.mem_append_left _ he)).2.2.1
        omega)
      rw [this]; rfl
  have hne : ∀ j, lastOr s.head_ (levelOf j pre) ≠ s.arena_.length := by
    intro j
    rcases lastOr_levelOf_cases s.head_ j pre with h0 | ⟨e, he, hea⟩
    · rw [h0]; exact Nat.ne_of_lt hR.head_lt
    · rw [← hea]
      exact Nat.ne_of_lt (hR.addr_lt (by rw [hes]; exact List.mem_append_left _ he))
  -- the state after `NewNode`
  have hnode2 : (s.arena_ ++ [({ key := key, next_ := List.replicate h none } : Node Key)])[
      s.arena_.length]? = some { key := key, next_ := List.replicate h none } := by
    simp
  obtain ⟨t1, hlink, hshape, hnext⟩ := linkLevels_spec
    (if s.cur_height_ < h then raisePrev s.head_ (h - s.cur_height_) s.cur_height_ p1 else p1)
    s.arena_.length (fun j => lastOr s.head_ (levelOf j pre)) h 0
    { s with
      arena_ := s.arena_ ++ [{ key := key, next_ := List.replicate h none }],
      cur_height_ := if s.cur_height_ < h then h else s.cur_height_,
      rnd_ := rnd1 }
    { key := key, next_ := List.replicate h none } hnode2 (by simp)
    (fun j _ hj => by
      have hjh : j < h := by omega
      have hj20 : j < kMaxHeight := by omega
      refine ⟨hprevF j hjh, hne j, ?_⟩
      have hch := hR.chain j hj20
      rw [hes, levelOf_append] at hch
      refine ⟨(levelOf j post).head?, ?_⟩
      show Next _ (lastOr s.head_ (levelOf j pre)) j = _
      rw [next_append_node _ _ _ _ _ _ (hne j)]
      exact chain_next _ _ _ hch)
  refine ⟨t1, pre, post, hes, ?_, ?_⟩
  · unfold Insert
    rw [hfge]
    cases hpr : post with
    | nil =>
      simp only [List.head?_nil, Option.map_none', hrh, NewNode]
      exact hlink
    | cons e0 rest =>
      obtain ⟨nd, hnd, heq⟩ := hdup e0 rest hpr
      simp only [List.head?_cons, Option.map_some', hnd, heq, hrh, NewNode]
      exact hlink
  · obtain ⟨sh1, sh2, sh3, sh4⟩ := hshape
    refine wellFormed_insert hR pre post key hes hpre hpost1 t1 h hh1 hh20 sh1 sh2 ?_ ?_ ?_ ?_
    · intro y nd hy
      have hylt : y < s.arena_.length := by
        by_contra hge
        rw [List.getElem?_eq_none (Nat.le_of_not_lt hge)] at hy
        cases hy
      exact sh4 y nd (by simp only []; rw [List.getElem?_append_left hylt]; exact hy)
    · obtain ⟨nn, a, b, c⟩ := sh4 _ _ hnode2
      exact ⟨nn, a, b, by rw [c]; simp⟩
    · intro j hj
      have hne := hne j
      have hr : 0 ≤ j ∧ j < 0 + h := by omega
      refine ⟨?_, ?_, ?_⟩
      · rw [hnext, if_pos hr, if_pos rfl, next_append_node _ _ _ _ _ _ hne]
      · rw [hnext, if_pos hr, if_neg hne, if_pos rfl]
      · intro x hx hxp
        rw [hnext, if_pos hr, if_neg hx, if_neg hxp, next_append_node _ _ _ _ _ _ hx]
    · intro j hj x hx
      have hr : ¬ (0 ≤ j ∧ j < 0 + h) := by omega
      rw [hnext, if_neg hr, next_append_node _ _ _ _ _ _ hx]

/-- Running the constructor gives the state `SkipList.new`. -/
theorem construct_eq_new (key0 : Key) :
    SkipList.construct key0 = some (SkipList.new key0) := by
  simp [SkipList.construct, SkipList.new, NewNode, clearLinks, SetNext, kMaxHeight,
    List.replicate]

/-- The freshly constructed list is well-formed and holds no entry. -/
theorem wellFormed_new (cmp : Key → Key → Int) (key0 : Key) :
    WellFormed cmp (SkipList.new key0) [] := by
  constructor
  · exact ⟨_, rfl, List.length_replicate _ _⟩
  · exact Nat.le_refl _
  · show 1 ≤ kMaxHeight
    unfold kMaxHeight; omega
  · intro e he; cases he
  · exact List.Pairwise.nil
  · exact List.nodup_nil
  · intro i hi
    show Next (SkipList.new key0) 0 i = some none
    simp only [Next, SkipList.new, List.getElem?_cons_zero, List.getElem?_replicate, if_pos hi]

/-- A run of inserts from a well-formed list succeeds and gives a well-formed list that
holds the old keys and the inserted ones. -/
theorem insertAll_spec {cmp : Key → Key → Int} (hc : StrictTotalCmp cmp) (rand : Nat → Nat)
    (fuel : Nat) :
    ∀ (keys : List Key) (s : SkipList Key) (es : List (Entry Key)), WellFormed cmp s es →
      es.length + keys.length + kMaxHeight ≤ fuel →
      ∃ s1 es1, insertAll cmp rand fuel s keys = some s1 ∧ WellFormed cmp s1 es1 ∧
        es1.length ≤ es.length + keys.length ∧
        ∀ k, k ∈ es1.map (fun e => e.key) ↔ (k ∈ es.map (fun e => e.key) ∨ k ∈ keys)
  | [], s, es, hR, _ => ⟨s, es, rfl, hR, by simp, fun k => by simp⟩
  | k :: keys, s, es, hR, hf => by
    have hfi : es.length + s.cur_height_ ≤ fuel := by
      have := hR.height_le
      simp only [List.length_cons] at hf
      omega
    by_cases hdup : ∃ e, e ∈ es ∧ cmp e.key k = 0
    · have hins := insert_dup hc hR rand k fuel hfi hdup
      obtain ⟨s1, es1, h1, h2, h3, h4⟩ := insertAll_spec hc rand fuel keys s es hR
        (by simp only [List.length_cons] at hf; omega)
      refine ⟨s1, es1, by simp only [insertAll, hins, h1], h2,
        by simp only [List.length_cons]; omega, ?_⟩
      intro k1
      rw [h4 k1]
      obtain ⟨e, he, hek⟩ := hdup
      have hkk : e.key = k := (hc.eq_iff _ _).1 hek
      constructor
      · rintro (h | h)
        · exact Or.inl h
        · exact Or.inr (List.mem_cons_of_mem _ h)
      · rintro (h | h)
        · exact Or.inl h
        · rcases List.mem_cons.1 h with h | h
          · exact Or.inl (List.mem_map.2 ⟨e, he, by rw [hkk, h]⟩)
          · exact Or.inr h
    · have hnk : ∀ e, e ∈ es → cmp e.key k ≠ 0 := fun e he h0 => hdup ⟨e, he, h0⟩
      obtain ⟨s0, pre, post, hes, hins, hR0⟩ := insert_new hc hR rand k fuel hfi hnk
      obtain ⟨s1, es1, h1, h2, h3, h4⟩ := insertAll_spec hc rand fuel keys s0 _ hR0
        (by
          simp only [List.length_cons, List.length_append] at hf ⊢
          rw [hes, List.length_append] at hf
          omega)
      refine ⟨s1, es1, by simp only [insertAll, hins, h1], h2, ?_, ?_⟩
      · simp only [List.length_cons, List.length_append] at h3 ⊢
        rw [hes, List.length_append]
        omega
      · intro k1
        rw [h4 k1, hes]
        simp only [List.map_append, List.map_cons, List.mem_append, List.mem_cons]
        tauto

/-- Every list built by inserts from the empty one is well-formed and holds exactly the
inserted keys. -/
theorem built {cmp : Key → Key → Int} (hc : StrictTotalCmp cmp) (rand : Nat → Nat)
    (fuel : Nat) (key0 : Key) (keys : List Key) (hf : keys.length + kMaxHeight ≤ fuel) :
    ∃ s es, insertAll cmp rand fuel (SkipList.new key0) keys = some s ∧ WellFormed cmp s es ∧
      es.length ≤ keys.length ∧ ∀ k, k ∈ es.map (fun e => e.key) ↔ k ∈ keys := by
  obtain ⟨s, es, h1, h2, h3, h4⟩ := insertAll_spec hc rand fuel keys (SkipList.new key0) []
    (wellFormed_new cmp key0) (by simpa using hf)
  exact ⟨s, es, h1, h2, by simpa using h3, fun k => by simpa using h4 k⟩

theorem walk_of_chain (s : SkipList Key) :
    ∀ (l : List Nat) (fuel x : Nat), Chain s 0 x l → l.length < fuel → walk s fuel x = some l
  | _, 0, _, _, hf => by omega
  | [], fuel + 1, x, hc, _ => by
    simp only [Chain] at hc
    simp only [walk, hc]
  | y :: l, fuel + 1, x, hc, hf => by
    simp only [Chain] at hc
    simp only [walk, hc.1, walk_of_chain s l fuel y hc.2 (by simpa using hf), Option.map_some']

theorem keysOf_entries {cmp : Key → Key → Int} {s : SkipList Key} {es : List (Entry Key)}
    (hR : WellFormed cmp s es) :
    ∀ l : List (Entry Key), (∀ e, e ∈ l → e ∈ es) →
      keysOf s (l.map (fun e => e.addr)) = some (l.map (fun e => e.key))
  | [], _ => rfl
  | e :: l, h => by
    obtain ⟨-, -, -, nd, hnd, hk, -⟩ := hR.node e (h e (List.mem_cons_self _ _))
    simp only [List.map_cons, keysOf, hnd, hk,
      keysOf_entries hR l (fun e1 he1 => h e1 (List.mem_cons_of_mem _ he1)), Option.map_some']

theorem WellFormed.heights {cmp : Key → Key → Int} {s : SkipList Key} {es : List (Entry Key)}
    (hR : WellFormed cmp s es) : ∀ e, e ∈ es → 1 ≤ e.height := fun e he => (hR.node e he).2.1

/-- The forward traversal of a well-formed list returns the keys of its entries. -/
theorem walk_spec {cmp : Key → Key → Int} {s : SkipList Key} {es : List (Entry Key)}
    (hR : WellFormed cmp s es) (fuel : Nat) (hf : es.length < fuel) :
    walk s fuel s.head_ = some (es.map (fun e => e.addr)) := by
  have hch := hR.chain 0 (by unfold kMaxHeight; omega)
  rw [levelOf_zero hR.heights] at hch
  exact walk_of_chain s _ fuel _ hch (by simpa using hf)

theorem traverse_spec {cmp : Key → Key → Int} {s : SkipList Key} {es : List (Entry Key)}
    (hR : WellFormed cmp s es) (fuel : Nat) (hf : es.length < fuel) :
    traverse fuel s = some (es.map (fun e => e.key)) := by
  simp only [traverse, walk_spec hR fuel hf, keysOf_entries hR es (fun _ h => h)]

/-- `Contains` answers whether the key is one of the stored keys. -/
theorem contains_spec {cmp : Key → Key → Int} (hc : StrictTotalCmp cmp) {s : SkipList Key}
    {es : List (Entry Key)} (hR : WellFormed cmp s es) (key : Key) (fuel : Nat)
    (hf : es.length + s.cur_height_ ≤ fuel) :
    ∃ b, Contains cmp fuel s key = some b ∧ (b = true ↔ key ∈ es.map (fun e => e.key)) := by
  obtain ⟨pre, post, prev1, hes, hpre, hpost, hfge, -, -⟩ :=
    findGreaterOrEqual_spec hc hR key fuel hf none (fun p hp => by cases hp)
  have hmem : key ∈ es.map (fun e => e.key) → ∃ e0 rest, post = e0 :: rest ∧ e0.key = key := by
    intro hk
    obtain ⟨e, he, hek⟩ := List.mem_map.1 hk
    exact head_of_post hc (hes ▸ hR.sorted) hpre hpost (hes ▸ he) ((hc.eq_iff _ _).2 hek)
  cases hpr : post with
  | nil =>
    refine ⟨false, by simp only [Contains, hfge, hpr, List.head?_nil, Option.map_none'], ?_⟩
    constructor
    · intro h; cases h
    · intro hk
      obtain ⟨e0, rest, h1, -⟩ := hmem hk
      rw [hpr] at h1; cases h1
  | cons e0 rest =>
    obtain ⟨-, -, -, nd, hnd, hk, -⟩ := hR.node e0 (by rw [hes, hpr]; simp)
    refine ⟨Equal cmp key e0.key, by
      simp only [Contains, hfge, hpr, List.head?_cons, Option.map_some', hnd, hk], ?_⟩
    simp only [Equal, decide_eq_true_eq]
    constructor
    · intro h0
      have : key = e0.key := (hc.eq_iff _ _).1 h0
      rw [this, hes, hpr]
      exact List.mem_map.2 ⟨e0, by simp, rfl⟩
    · intro hk1
      obtain ⟨e1, rest1, h1, h2⟩ := hmem hk1
      rw [hpr] at h1
      cases h1
      rw [h2]; exact hc.cmp_self key

/-- `Seek` lands on the first entry whose key is not below the target. -/
theorem seek_spec {cmp : Key → Key → Int} (hc : StrictTotalCmp cmp) {s : SkipList Key}
    {es : List (Entry Key)} (hR : WellFormed cmp s es) (target : Key) (fuel : Nat)
    (hf : es.length + s.cur_height_ ≤ fuel) :
    ∃ pre post, es = pre ++ post ∧ (∀ e, e ∈ pre → cmp e.key target < 0) ∧
      (∀ e, e ∈ post → 0 ≤ cmp e.key target) ∧
      Iterator.Seek cmp fuel s target
        = some { node_ := (post.head?).map (fun e => e.addr) } := by
  obtain ⟨pre, post, prev1, hes, hpre, hpost, hfge, -, -⟩ :=
    findGreaterOrEqual_spec hc hR target fuel hf none (fun p hp => by cases hp)
  exact ⟨pre, post, hes, hpre, hpost, by simp only [Iterator.Seek, hfge, Option.map_some']⟩

/-- `FindLessThan` returns the last entry whose key is below `key`, or the head. -/
theorem findLessThan_spec {cmp : Key → Key → Int} (hc : StrictTotalCmp cmp)
    {s : SkipList Key} {es : List (Entry Key)} (hR : WellFormed cmp s es) (key : Key) (fuel : Nat)
    (hf : es.length + s.cur_height_ ≤ fuel) :
    ∃ pre post, es = pre ++ post ∧ (∀ e, e ∈ pre → cmp e.key key < 0) ∧
      (∀ e, e ∈ post → 0 ≤ cmp e.key key) ∧
      FindLessThan cmp fuel s key = some (lastOr s.head_ (pre.map (fun e => e.addr))) := by
  obtain ⟨pre, post, hes, hpre, hpost⟩ := split_by cmp (fun k => decide (cmp k key < 0))
    (fun a b hab hb => by
      simp only [decide_eq_true_eq] at hb ⊢
      exact hc.trans _ _ _ hab hb) es hR.sorted
  have hpos := hR.height_pos
  have hlen : pre.length ≤ es.length := by rw [hes]; simp
  obtain ⟨prev1, h1, -, -⟩ := descend_spec (fun k => decide (cmp k key < 0)) cmp hR pre post
    hes hpre hpost fuel [] pre s.head_ (s.cur_height_ - 1) none rfl (Or.inl ⟨rfl, rfl⟩)
    (by omega) (by omega) (fun p hp => by cases hp)
  have h2 := findLessThanLoop_of_descend cmp s key fuel _ _ _ h1 (Or.inl rfl)
  refine ⟨pre, post, hes, ?_, ?_, ?_⟩
  · intro e he
    simpa using hpre e he
  · intro e he
    have := hpost e he
    simp only [decide_eq_false_iff_not] at this
    omega
  · unfold FindLessThan
    rw [if_neg (by omega), h2]
    simp only []
    rw [levelOf_zero (fun e he => hR.heights e (by rw [hes]; exact List.mem_append_left _ he))]

/-- `FindLast` returns the last entry, or the head of an empty list. -/
theorem findLast_spec {cmp : Key → Key → Int} {s : SkipList Key} {es : List (Entry Key)}
    (hR : WellFormed cmp s es) (fuel : Nat) (hf : es.length + s.cur_height_ ≤ fuel) :
    FindLast fuel s = some (lastOr s.head_ (es.map (fun e => e.addr))) := by
  have hpos := hR.height_pos
  obtain ⟨prev1, h1, -, -⟩ := descend_spec (fun _ => true) cmp hR es [] (by simp)
    (fun _ _ => rfl) (fun _ h => absurd h (List.not_mem_nil _)) fuel [] es s.head_
    (s.cur_height_ - 1) none rfl (Or.inl ⟨rfl, rfl⟩) (by omega) (by omega)
    (fun p hp => by cases hp)
  have h2 := findLastLoop_of_descend s fuel _ _ _ h1
  unfold FindLast
  rw [if_neg (by omega), h2]
  simp only []
  rw [levelOf_zero hR.heights]

/-- The last address of a non-empty list of entries is the address of its last entry. -/
theorem lastOr_map_addr (head : Nat) (l : List (Entry Key)) (hl : l ≠ []) :
    ∃ l0 e, l = l0 ++ [e] ∧ lastOr head (l.map (fun e => e.addr)) = e.addr := by
  refine ⟨l.dropLast, l.getLast hl, (List.dropLast_append_getLast hl).symm, ?_⟩
  conv_lhs => rw [← List.dropLast_append_getLast hl]
  rw [List.map_append, List.map_singleton, lastOr_append_singleton]

theorem intCmp_strict : StrictTotalCmp intCmp :=
  ⟨fun a b => by unfold intCmp; omega, fun a b => by unfold intCmp; omega,
    fun a b c => by unfold intCmp; omega⟩

theorem built_fuel {cmp : Key → Key → Int} {s : SkipList Key} {es : List (Entry Key)}
    (hR : WellFormed cmp s es) {n fuel : Nat} (hlen : es.length ≤ n) (hf : n + kMaxHeight ≤ fuel) :
    es.length + s.cur_height_ ≤ fuel := by
  have := hR.height_le
  omega

theorem mem_keys_entry {es : List (Entry Key)} {keys : List Key}
    (hmem : ∀ k, k ∈ es.map (fun e => e.key) ↔ k ∈ keys) {k : Key} (hk : k ∈ keys) :
    ∃ e, e ∈ es ∧ e.key = k := by
  obtain ⟨e, he, hek⟩ := List.mem_map.1 ((hmem k).2 hk)
  exact ⟨e, he, hek⟩

theorem entry_mem_keys {es : List (Entry Key)} {keys : List Key}
    (hmem : ∀ k, k ∈ es.map (fun e => e.key) ↔ k ∈ keys) {e : Entry Key} (he : e ∈ es) :
    e.key ∈ keys := (hmem e.key).1 (List.mem_map.2 ⟨e, he, rfl⟩)

theorem key_of_entry {cmp : Key → Key → Int} {s : SkipList Key} {es : List (Entry Key)}
    (hR : WellFormed cmp s es) {e : Entry Key} (he : e ∈ es) :
    Iterator.key s { node_ := some e.addr } = some e.key := by
  obtain ⟨-, -, -, nd, hnd, hk, -⟩ := hR.node e he
  simp only [Iterator.key, hnd, Option.map_some', hk]

/-- C3 (sortedness): after any run of `Insert` calls on an empty list, with a strict
total order as comparator and any stream of random draws, following the level-0 links
from the head visits exactly the inserted keys, each once, in strictly ascending
order. -/
theorem insert_traverse_sorted {cmp : Key → Key → Int} (hc : StrictTotalCmp cmp)
    (rand : Nat → Nat) (fuel : Nat) (key0 : Key) (keys : List Key)
    (hf : keys.length + kMaxHeight ≤ fuel) :
    ∃ s ks, insertAll cmp rand fuel (SkipList.new key0) keys = some s ∧
      traverse fuel s = some ks ∧ ks.Pairwise (fun a b => cmp a b < 0) ∧ ks.Nodup ∧
      ∀ k, k ∈ ks ↔ k ∈ keys := by
  obtain ⟨s, es, hins, hR, hlen, hmem⟩ := built hc rand fuel key0 keys hf
  have hsorted : (es.map (fun e => e.key)).Pairwise (fun a b => cmp a b < 0) :=
    List.pairwise_map.2 hR.sorted
  refine ⟨s, es.map (fun e => e.key), hins, traverse_spec hR fuel (by unfold kMaxHeight at hf; omega), hsorted, ?_, hmem⟩
  refine hsorted.imp ?_
  intro a b hlt hab
  rw [hab, hc.cmp_self b] at hlt
  exact absurd hlt (by omega)

/-- Witness of C3: inserting 3, 1, 2 into the empty list of integers. -/
theorem insert_traverse_sorted_witness :
    ∃ s ks, insertAll intCmp (fun _ => 1) 23 (SkipList.new 0) [3, 1, 2] = some s ∧
      traverse 23 s = some ks ∧ ks.Pairwise (fun a b => intCmp a b < 0) ∧ ks.Nodup ∧
      ∀ k, k ∈ ks ↔ k ∈ [3, 1, 2] :=
  insert_traverse_sorted intCmp_strict (fun _ => 1) 23 0 [3, 1, 2] (by decide)

/-- C4 (containment): after any run of `Insert` calls on an empty list, `Contains(k)`
returns, and it returns true exactly when some inserted key compares equal to `k`. -/
theorem contains_iff_inserted {cmp : Key → Key → Int} (hc : StrictTotalCmp cmp)
    (rand : Nat → Nat) (fuel : Nat) (key0 : Key) (keys : List Key) (k : Key)
    (hf : keys.length + kMaxHeight ≤ fuel) :
    ∃ s b, insertAll cmp rand fuel (SkipList.new key0) keys = some s ∧
      Contains cmp fuel s k = some b ∧ (b = true ↔ ∃ k1, k1 ∈ keys ∧ cmp k1 k = 0) := by
  obtain ⟨s, es, hins, hR, hlen, hmem⟩ := built hc rand fuel key0 keys hf
  obtain ⟨b, hb, hiff⟩ := contains_spec hc hR k fuel (built_fuel hR hlen hf)
  refine ⟨s, b, hins, hb, ?_⟩
  rw [hiff, hmem]
  constructor
  · intro h; exact ⟨k, h, hc.cmp_self k⟩
  · rintro ⟨k1, h1, h2⟩
    rw [← (hc.eq_iff _ _).1 h2]; exact h1

/-- Witness of C4: after inserting 3, 1, 2 the answer for 2 is decided by the theorem. -/
theorem contains_iff_inserted_witness :
    ∃ s b, insertAll intCmp (fun _ => 1) 23 (SkipList.new 0) [3, 1, 2] = some s ∧
      Contains intCmp 23 s 2 = some b ∧ (b = true ↔ ∃ k1, k1 ∈ [3, 1, 2] ∧ intCmp k1 2 = 0) :=
  contains_iff_inserted intCmp_strict (fun _ => 1) 23 0 [3, 1, 2] 2 (by decide)

/-- C5 (duplicate no-op): on any list built by `Insert` calls, inserting a key equal to
an inserted one returns the very same state: arena, links, height counter and random
source are as before. -/
theorem insert_duplicate_noop {cmp : Key → Key → Int} (hc : StrictTotalCmp cmp)
    (rand : Nat → Nat) (fuel : Nat) (key0 : Key) (keys : List Key) (k : Key)
    (hf : keys.length + kMaxHeight ≤ fuel) (hdup : ∃ k1, k1 ∈ keys ∧ cmp k1 k = 0) :
    ∃ s, insertAll cmp rand fuel (SkipList.new key0) keys = some s ∧
      Insert cmp rand fuel s k = some s := by
  obtain ⟨s, es, hins, hR, hlen, hmem⟩ := built hc rand fuel key0 keys hf
  obtain ⟨k1, hk1, hk⟩ := hdup
  obtain ⟨e, he, hek⟩ := mem_keys_entry hmem hk1
  exact ⟨s, hins, insert_dup hc hR rand k fuel (built_fuel hR hlen hf)
    ⟨e, he, by rw [hek]; exact hk⟩⟩

/-- Witness of C5: inserting 1 again after 3, 1, 2. -/
theorem insert_duplicate_noop_witness :
    ∃ s, insertAll intCmp (fun _ => 1) 23 (SkipList.new 0) [3, 1, 2] = some s ∧
      Insert intCmp (fun _ => 1) 23 s 1 = some s :=
  insert_duplicate_noop intCmp_strict (fun _ => 1) 23 0 [3, 1, 2] 1 (by decide)
    ⟨1, by decide, by decide⟩

/-- C6 (seek): on any list built by `Insert` calls, `Seek(target)` returns with the
iterator at the node of the smallest inserted key that is not below `target`; the
iterator is invalid exactly when every inserted key is below `target`. -/
theorem seek_least_not_below {cmp : Key → Key → Int} (hc : StrictTotalCmp cmp)
    (rand : Nat → Nat) (fuel : Nat) (key0 : Key) (keys : List Key) (target : Key)
    (hf : keys.length + kMaxHeight ≤ fuel) :
    ∃ s it, insertAll cmp rand fuel (SkipList.new key0) keys = some s ∧
      Iterator.Seek cmp fuel s target = some it ∧
      (it.Valid = false ↔ ∀ k, k ∈ keys → cmp k target < 0) ∧
      (it.Valid = true → ∃ kk, Iterator.key s it = some kk ∧ kk ∈ keys ∧
        0 ≤ cmp kk target ∧ ∀ k, k ∈ keys → 0 ≤ cmp k target → cmp kk k ≤ 0) := by
  obtain ⟨s, es, hins, hR, hlen, hmem⟩ := built hc rand fuel key0 keys hf
  obtain ⟨pre, post, hes, hpre, hpost, hseek⟩ :=
    seek_spec hc hR target fuel (built_fuel hR hlen hf)
  refine ⟨s, _, hins, hseek, ?_, ?_⟩
  · cases hpr : post with
    | nil =>
      simp only [Iterator.Valid, List.head?_nil, Option.map_none', Option.isSome_none, true_iff]
      intro k hk
      obtain ⟨e, he, hek⟩ := mem_keys_entry hmem hk
      rw [hes, hpr, List.append_nil] at he
      rw [← hek]; exact hpre e he
    | cons e0 rest =>
      simp only [Iterator.Valid, List.head?_cons, Option.map_some', Option.isSome_some,
        Bool.true_eq_false, false_iff]
      intro hall
      have h1 := hall e0.key (entry_mem_keys hmem (by rw [hes, hpr]; simp))
      have h2 := hpost e0 (by rw [hpr]; simp)
      omega
  · cases hpr : post with
    | nil => intro h; simp [Iterator.Valid] at h
    | cons e0 rest =>
      intro _
      have he0 : e0 ∈ es := by rw [hes, hpr]; simp
      refine ⟨e0.key, by simpa using key_of_entry hR he0, entry_mem_keys hmem he0,
        hpost e0 (by rw [hpr]; simp), ?_⟩
      intro k hk hge
      obtain ⟨e, he, hek⟩ := mem_keys_entry hmem hk
      rw [hes, hpr] at he
      rcases List.mem_append.1 he with h | h
      · have := hpre e h; rw [hek] at this; omega
      · rcases List.mem_cons.1 h with h | h
        · rw [← hek, h, hc.cmp_self]
        · have hs := hR.sorted
          rw [hes, hpr, List.pairwise_append, List.pairwise_cons] at hs
          have := hs.2.1.1 e h
          rw [hek] at this; omega

/-- Witness of C6: seeking 2 after inserting 3, 1, 5. -/
theorem seek_least_not_below_witness :
    ∃ s it, insertAll intCmp (fun _ => 1) 23 (SkipList.new 0) [3, 1, 5] = some s ∧
      Iterator.Seek intCmp 23 s 2 = some it ∧
      (it.Valid = false ↔ ∀ k, k ∈ [3, 1, 5] → intCmp k 2 < 0) ∧
      (it.Valid = true → ∃ kk, Iterator.key s it = some kk ∧ kk ∈ [3, 1, 5] ∧
        0 ≤ intCmp kk 2 ∧ ∀ k, k ∈ [3, 1, 5] → 0 ≤ intCmp k 2 → intCmp kk k ≤ 0) :=
  seek_least_not_below intCmp_strict (fun _ => 1) 23 0 [3, 1, 5] 2 (by decide)

/-- C8 (seek to last): on any list built by `Insert` calls, `SeekToLast` returns; the
iterator is valid exactly when a key was inserted, and then it is at the node of the
greatest inserted key. -/
theorem seekToLast_greatest {cmp : Key → Key → Int} (hc : StrictTotalCmp cmp)
    (rand : Nat → Nat) (fuel : Nat) (key0 : Key) (keys : List Key)
    (hf : keys.length + kMaxHeight ≤ fuel) :
    ∃ s it, insertAll cmp rand fuel (SkipList.new key0) keys = some s ∧
      Iterator.SeekToLast fuel s = some it ∧ (it.Valid = true ↔ keys ≠ []) ∧
      (it.Valid = true → ∃ kk, Iterator.key s it = some kk ∧ kk ∈ keys ∧
        ∀ k, k ∈ keys → cmp k kk ≤ 0) := by
  obtain ⟨s, es, hins, hR, hlen, hmem⟩ := built hc rand fuel key0 keys hf
  have hlast := findLast_spec hR fuel (built_fuel hR hlen hf)
  have hstl : Iterator.SeekToLast fuel s = some (Iterator.mk
      (if (lastOr s.head_ (es.map (fun e => e.addr)) = s.head_) then none
      else some (lastOr s.head_ (es.map (fun e => e.addr))))) := by
    simp only [Iterator.SeekToLast, hlast, Option.map_some']
  refine ⟨s, _, hins, hstl, ?_⟩
  by_cases hnil : es = []
  · have hk : keys = [] := by
      cases keys with
      | nil => rfl
      | cons k ks =>
        obtain ⟨e, he, -⟩ := mem_keys_entry hmem (List.mem_cons_self k ks)
        rw [hnil] at he; cases he
    subst hnil
    simp [Iterator.Valid, lastOr, hk]
  · obtain ⟨l0, e, hl, hlo⟩ := lastOr_map_addr s.head_ es hnil
    have he : e ∈ es := by rw [hl]; simp
    have hne : e.addr ≠ s.head_ := (hR.node e he).1
    have hk : keys ≠ [] := by
      intro h0
      have := entry_mem_keys hmem he
      rw [h0] at this; cases this
    rw [hlo, if_neg hne]
    refine ⟨by simp [Iterator.Valid, hk], fun _ => ⟨e.key, key_of_entry hR he,
      entry_mem_keys hmem he, ?_⟩⟩
    intro k hk1
    obtain ⟨e1, he1, hek1⟩ := mem_keys_entry hmem hk1
    have hs := hR.sorted
    rw [hl, List.pairwise_append] at hs
    rw [hl] at he1
    rcases List.mem_append.1 he1 with h | h
    · have := hs.2.2 e1 h e (by simp)
      rw [hek1] at this; omega
    · have : e1 = e := by simpa using h
      rw [← hek1, this, hc.cmp_self]

/-- Witness of C8: the last position after inserting 3, 1, 5. -/
theorem seekToLast_greatest_witness :
    ∃ s it, insertAll intCmp (fun _ => 1) 23 (SkipList.new 0) [3, 1, 5] = some s ∧
      Iterator.SeekToLast 23 s = some it ∧ (it.Valid = true ↔ [3, 1, 5] ≠ ([] : List Int)) ∧
      (it.Valid = true → ∃ kk, Iterator.key s it = some kk ∧ kk ∈ [3, 1, 5] ∧
        ∀ k, k ∈ [3, 1, 5] → intCmp k kk ≤ 0) :=
  seekToLast_greatest intCmp_strict (fun _ => 1) 23 0 [3, 1, 5] (by decide)

/-- C7 (prev): on any list built by `Insert` calls, every inserted key has a position
on the level-0 chain, and from every such position `Prev` returns with the iterator at
the node of the greatest inserted key below the current one; the iterator is invalid
exactly when no inserted key is below the current one, and it never rests on the
head. -/
theorem prev_greatest_below {cmp : Key → Key → Int} (hc : StrictTotalCmp cmp)
    (rand : Nat → Nat) (fuel : Nat) (key0 : Key) (keys : List Key)
    (hf : keys.length + kMaxHeight ≤ fuel) :
    ∃ s l, insertAll cmp rand fuel (SkipList.new key0) keys = some s ∧
      walk s fuel s.head_ = some l ∧
      (∀ k, k ∈ keys → ∃ a, a ∈ l ∧ Iterator.key s { node_ := some a } = some k) ∧
      ∀ a, a ∈ l → ∃ kc it, Iterator.key s { node_ := some a } = some kc ∧ kc ∈ keys ∧
        Iterator.Prev cmp fuel s { node_ := some a } = some it ∧
        it.node_ ≠ some s.head_ ∧
        (it.Valid = false ↔ ∀ k, k ∈ keys → 0 ≤ cmp k kc) ∧
        (it.Valid = true → ∃ kp, Iterator.key s it = some kp ∧ kp ∈ keys ∧ cmp kp kc < 0 ∧
          ∀ k, k ∈ keys → cmp k kc < 0 → cmp k kp ≤ 0) := by
  obtain ⟨s, es, hins, hR, hlen, hmem⟩ := built hc rand fuel key0 keys hf
  refine ⟨s, es.map (fun e => e.addr), hins,
    walk_spec hR fuel (by unfold kMaxHeight at hf; omega), ?_, ?_⟩
  · intro k hk
    obtain ⟨e, he, hek⟩ := mem_keys_entry hmem hk
    exact ⟨e.addr, List.mem_map.2 ⟨e, he, rfl⟩, by rw [key_of_entry hR he, hek]⟩
  · intro a ha
    obtain ⟨e, he, hea⟩ := List.mem_map.1 ha
    subst hea
    obtain ⟨-, -, -, nd, hnd, hk, -⟩ := hR.node e he
    obtain ⟨pre, post, hes, hpre, hpost, hflt⟩ :=
      findLessThan_spec hc hR e.key fuel (built_fuel hR hlen hf)
    have hprev : Iterator.Prev cmp fuel s { node_ := some e.addr } = some (Iterator.mk
        (if (lastOr s.head_ (pre.map (fun e => e.addr)) = s.head_) then none
        else some (lastOr s.head_ (pre.map (fun e => e.addr))))) := by
      simp only [Iterator.Prev, hnd, hk, hflt]
    refine ⟨e.key, _, key_of_entry hR he, entry_mem_keys hmem he, hprev, ?_⟩
    by_cases hnil : pre = []
    · subst hnil
      simp only [List.map_nil, lastOr_nil, if_true]
      refine ⟨by simp, ?_, fun h => by simp [Iterator.Valid] at h⟩
      simp only [Iterator.Valid, Option.isSome_none, true_iff]
      intro k hk1
      obtain ⟨e1, he1, hek1⟩ := mem_keys_entry hmem hk1
      rw [hes, List.nil_append] at he1
      rw [← hek1]; exact hpost e1 he1
    · obtain ⟨l0, ep, hl, hlo⟩ := lastOr_map_addr s.head_ pre hnil
      have hep : ep ∈ pre := by rw [hl]; simp
      have hepes : ep ∈ es := by rw [hes]; exact List.mem_append_left _ hep
      have hne : ep.addr ≠ s.head_ := (hR.node ep hepes).1
      rw [hlo, if_neg hne]
      refine ⟨fun h => hne (Option.some.inj h), ?_, fun _ => ⟨ep.key, key_of_entry hR hepes,
        entry_mem_keys hmem hepes, hpre ep hep, ?_⟩⟩
      · simp only [Iterator.Valid, Option.isSome_some, Bool.true_eq_false, false_iff]
        intro hall
        have h1 := hall ep.key (entry_mem_keys hmem hepes)
        have h2 := hpre ep hep
        omega
      · intro k hk1 hlt
        obtain ⟨e1, he1, hek1⟩ := mem_keys_entry hmem hk1
        rw [hes] at he1
        rcases List.mem_append.1 he1 with h | h
        · have hs := hR.sorted
          rw [hes, hl, List.pairwise_append, List.pairwise_append] at hs
          rw [hl] at h
          rcases List.mem_append.1 h with h | h
          · have := hs.1.2.2 e1 h ep (by simp)
            rw [hek1] at this; omega
          · have : e1 = ep := by simpa using h
            rw [← hek1, this, hc.cmp_self]
        · have := hpost e1 h
          rw [hek1] at this; omega

/-- Witness of C7: the positions after inserting 3, 1, 5. -/
theorem prev_greatest_below_witness :
    ∃ s l, insertAll intCmp (fun _ => 1) 23 (SkipList.new 0) [3, 1, 5] = some s ∧
      walk s 23 s.head_ = some l ∧
      (∀ k, k ∈ [3, 1, 5] → ∃ a, a ∈ l ∧ Iterator.key s { node_ := some a } = some k) ∧
      ∀ a, a ∈ l → ∃ kc it, Iterator.key s { node_ := some a } = some kc ∧ kc ∈ [3, 1, 5] ∧
        Iterator.Prev intCmp 23 s { node_ := some a } = some it ∧
        it.node_ ≠ some s.head_ ∧
        (it.Valid = false ↔ ∀ k, k ∈ [3, 1, 5] → 0 ≤ intCmp k kc) ∧
        (it.Valid = true → ∃ kp, Iterator.key s it = some kp ∧ kp ∈ [3, 1, 5] ∧
          intCmp kp kc < 0 ∧ ∀ k, k ∈ [3, 1, 5] → intCmp k kc < 0 → intCmp k kp ≤ 0) :=
  prev_greatest_below intCmp_strict (fun _ => 1) 23 0 [3, 1, 5] (by decide)

/-- The scenario of the specification, with 1, 2, 3 for "a", "b", "c": inserting
"c", "a", "b" and traversing forward yields "a", "b", "c". -/
theorem scenario_traverse :
    (insertAll intCmp (fun n => [0, 1, 3, 0, 0, 2].getD n 1) 23 (SkipList.new 0)
      [3, 1, 2]).bind (traverse 23) = some [1, 2, 3] := by
  decide

/-- The scenario of the specification, continued: "b" is contained, "d" is not. -/
theorem scenario_contains :
    (insertAll intCmp (fun n => [0, 1, 3, 0, 0, 2].getD n 1) 23 (SkipList.new 0)
        [3, 1, 2]).bind (fun s => Contains intCmp 23 s 2) = some true ∧
      (insertAll intCmp (fun n => [0, 1, 3, 0, 0, 2].getD n 1) 23 (SkipList.new 0)
        [3, 1, 2]).bind (fun s => Contains intCmp 23 s 4) = some false := by
  decide

/-! ## Claims about the membership filter -/

theorem toSizeT_le {x : Int} (h : 0 ≤ x) : (toSizeT x : Int) ≤ x := by
  unfold toSizeT
  omega

theorem isEmpty_false_of_length {α : Type} {l : List α} (h : 0 < l.length) :
    l.isEmpty = false := by
  cases l with
  | nil => simp at h
  | cons a l => rfl

/-- A query that addresses bytes of the old buffer only is not affected by what is
appended behind them. -/
theorem keyMayMatch_frame (hash : Bytes → Nat) (f f1 : BloomFilter) (ext : Bytes)
    (hk : f1.k_ = f.k_) (hd : f1.bloomfilter_data_ = f.bloomfilter_data_ ++ ext)
    (key : Bytes) (s L : Int) (hs : 0 ≤ s) (hL : 0 < L)
    (hsl : s + L ≤ (f.bloomfilter_data_.length : Int)) :
    KeyMayMatch hash f1 key s L = KeyMayMatch hash f key s L := by
  unfold KeyMayMatch
  have hL0 : ¬ L = 0 := by omega
  simp only [if_neg hL0]
  have h1 := toSizeT_le hs
  have h2 := toSizeT_le (Int.le_of_lt hL)
  generalize toSizeT s = ts at h1 ⊢
  generalize toSizeT L = tl at h2 ⊢
  have hlen : 0 < f.bloomfilter_data_.length := by omega
  have hlen1 : 0 < (f.bloomfilter_data_ ++ ext).length := by
    rw [List.length_append]; omega
  have hts : ¬ f.bloomfilter_data_.length < ts := by omega
  have hts1 : ¬ (f.bloomfilter_data_ ++ ext).length < ts := by
    rw [List.length_append]; omega
  have hcur : ((f.bloomfilter_data_ ++ ext).drop ts).take tl
      = (f.bloomfilter_data_.drop ts).take tl := by
    rw [List.drop_append_of_le_length (by omega),
      List.take_append_of_le_length (by rw [List.length_drop]; omega)]
  simp only [hd, hk, isEmpty_false_of_length hlen, isEmpty_false_of_length hlen1, if_neg hL0,
    if_neg hts, if_neg hts1, hcur]

/-- C1 (amended): when the 32-bit arithmetic of `CreateFilter` stays in range
(`-2^31 <= n * bits_per_key`, `n * bits_per_key + 7 <= 2^31 - 1` and the new buffer size
is at most `2^31 - 1`), the call on a non-empty batch appends a segment of
`L = segmentBytes = ceil(max(64, n * bits_per_key) / 8)` bytes at the old size `s`, and
`KeyMayMatch(k, s, L)` returns true for every non-empty key `k` of the batch. -/
theorem createFilter_no_false_negative (hash : Bytes → Nat) (f : BloomFilter)
    (keys : List Bytes) (hne : keys ≠ [])
    (hlo : -2147483648 ≤ (keys.length : Int) * f.bits_per_key_)
    (hhi : (keys.length : Int) * f.bits_per_key_ + 7 ≤ 2147483647)
    (hsize : (f.bloomfilter_data_.length : Int) + segmentBytes f.bits_per_key_ keys.length
      ≤ 2147483647) :
    segmentBytes f.bits_per_key_ keys.length
        = (max 64 ((keys.length : Int) * f.bits_per_key_) + 7) / 8 ∧
    ∃ f1, CreateFilter hash f (some keys) keys.length = some f1 ∧
      f1.bloomfilter_data_.length
        = f.bloomfilter_data_.length + (segmentBytes f.bits_per_key_ keys.length).toNat ∧
      ∀ k, k ∈ keys → k ≠ [] →
        KeyMayMatch hash f1 k (f.bloomfilter_data_.length : Int)
          (segmentBytes f.bits_per_key_ keys.length) = some true := by
  obtain ⟨f1, h1, h2, h3⟩ := createFilter_query hash f keys hlo hhi hsize hne
  exact ⟨segmentBytes_eq _ _ hlo hhi,
    f1, h1, h2, fun k hk hkne => h3 k hk hkne _ (Or.inl rfl)⟩

/-- Witness of C1 (amended): a second segment for two keys behind eight old bytes. -/
theorem createFilter_no_false_negative_witness :
    segmentBytes 10 ([[99], [1, 2]] : List Bytes).length
        = (max 64 ((([[99], [1, 2]] : List Bytes).length : Int) * 10) + 7) / 8 ∧
    ∃ f1, CreateFilter (fun k => k.sum) ⟨10, 7, [1, 2, 3, 4, 5, 6, 7, 8]⟩
        (some [[99], [1, 2]]) ([[99], [1, 2]] : List Bytes).length = some f1 ∧
      f1.bloomfilter_data_.length
        = ([1, 2, 3, 4, 5, 6, 7, 8] : Bytes).length
          + (segmentBytes 10 ([[99], [1, 2]] : List Bytes).length).toNat ∧
      ∀ k, k ∈ ([[99], [1, 2]] : List Bytes) → k ≠ [] →
        KeyMayMatch (fun k => k.sum) f1 k (([1, 2, 3, 4, 5, 6, 7, 8] : Bytes).length : Int)
          (segmentBytes 10 ([[99], [1, 2]] : List Bytes).length) = some true :=
  createFilter_no_false_negative (fun k => k.sum) ⟨10, 7, [1, 2, 3, 4, 5, 6, 7, 8]⟩
    [[99], [1, 2]] (by decide) (by decide) (by decide) (by decide)

/-- Counterexample to C1 as stated: the empty key is a key of the batch `{""}`, the
filter is built, and the query for it at the new segment (offset 0, length 8) answers
false, whatever the hash function. -/
theorem createFilter_empty_key_false_negative :
    ([] : Bytes) ∈ [([] : Bytes)] ∧
      ∀ hash : Bytes → Nat, ∃ f1, CreateFilter hash ⟨10, 7, []⟩ (some [[]]) 1 = some f1 ∧
        f1.bloomfilter_data_.length = 8 ∧ KeyMayMatch hash f1 [] 0 8 = some false := by
  refine ⟨List.mem_singleton.2 rfl, fun hash => ?_⟩
  obtain ⟨data1, h1, h2, -, -⟩ := createFilter_core hash ⟨10, 7, []⟩ [[]] 1 (by decide)
    (by decide) (by decide) (by decide) (by decide)
  exact ⟨_, h1, h2, rfl⟩

/-- C2 (amended): for a filter with an empty buffer and a non-empty batch of `n`
non-empty keys such that `n * bits_per_key + 7` is representable as `int32_t`,
`CreateFilter` succeeds and `KeyMayMatch(k, 0, 0)` returns true for every key of the
batch. -/
theorem createFilter_fresh_query (hash : Bytes → Nat) (bits_per_key_ k_ : Int)
    (keys : List Bytes) (hne : keys ≠ []) (hkeys : ∀ k, k ∈ keys → k ≠ [])
    (hlo : -2147483648 ≤ (keys.length : Int) * bits_per_key_)
    (hhi : (keys.length : Int) * bits_per_key_ + 7 ≤ 2147483647) :
    ∃ f1, CreateFilter hash ⟨bits_per_key_, k_, []⟩ (some keys) keys.length = some f1 ∧
      ∀ k, k ∈ keys → KeyMayMatch hash f1 k 0 0 = some true := by
  have hr := segmentBytes_range bits_per_key_ keys.length hlo hhi
  obtain ⟨f1, h1, -, h3⟩ := createFilter_query hash ⟨bits_per_key_, k_, []⟩ keys hlo hhi
    (by simp only [List.length_nil]; omega) hne
  exact ⟨f1, h1, fun k hk => h3 k hk (hkeys k hk) 0 (Or.inr rfl)⟩

/-- Witness of C2 (amended): ten bits per key, seven probes, the three keys of the
test as byte strings of lengths 6, 7, 7. -/
theorem createFilter_fresh_query_witness :
    ∃ f1, CreateFilter (fun k => k.sum) ⟨10, 7, []⟩
        (some [[99, 111, 114, 101, 107, 118], [99, 111, 114, 101, 107, 118, 49],
          [99, 111, 114, 101, 107, 118, 50]])
        ([[99, 111, 114, 101, 107, 118], [99, 111, 114, 101, 107, 118, 49],
          [99, 111, 114, 101, 107, 118, 50]] : List Bytes).length = some f1 ∧
      ∀ k, k ∈ ([[99, 111, 114, 101, 107, 118], [99, 111, 114, 101, 107, 118, 49],
          [99, 111, 114, 101, 107, 118, 50]] : List Bytes) →
        KeyMayMatch (fun k => k.sum) f1 k 0 0 = some true :=
  createFilter_fresh_query (fun k => k.sum) 10 7
    [[99, 111, 114, 101, 107, 118], [99, 111, 114, 101, 107, 118, 49],
      [99, 111, 114, 101, 107, 118, 50]] (by decide) (by decide) (by decide) (by decide)

/-- Counterexample to C2 as stated: with `bits_per_key = 2147483647` and one key the
rounding `bits + 7` leaves the `int32_t` range, the byte count comes out negative and
the `resize` request cannot be met: the call does not complete for any hash function. -/
theorem createFilter_fresh_overflow :
    ¬ ∃ (hash : Bytes → Nat) (f1 : BloomFilter),
      CreateFilter hash ⟨2147483647, 30, []⟩ (some [[1]]) 1 = some f1 := by
  rintro ⟨hash, f1, h⟩
  have : CreateFilter hash ⟨2147483647, 30, []⟩ (some [[1]]) 1 = none := rfl
  rw [this] at h
  cases h

/-- C9 (the code fails here): on a buffer of eight bytes, the query with `start_pos`
equal to the buffer size and `len` 0 passes the guard `total_size < start_pos`, takes
`len = 0` as the rest of the buffer, and evaluates `hash_val % bits` with `bits = 0`:
it has no result, for every hash function. -/
theorem keyMayMatch_start_at_size_faults (hash : Bytes → Nat) :
    KeyMayMatch hash ⟨10, 7, [0, 0, 0, 0, 0, 0, 0, 0]⟩ [1] 8 0 = none := rfl

/-- C10 (amended): when `-2^31 <= n * bits_per_key`, `n * bits_per_key + 7 <= 2^31 - 1`
and the new buffer size is at most `2^31 - 1`, `CreateFilter` on `n > 0` keys succeeds,
leaves the configuration alone, makes the buffer `ceil(max(64, n * bits_per_key) / 8)`
bytes longer, keeps the old bytes, and every query addressed to a range of the old
buffer by an offset `s >= 0` and a length `L > 0` answers as before. -/
theorem createFilter_appends_segment (hash : Bytes → Nat) (f : BloomFilter)
    (keys : List Bytes) (n : Int) (hn : 0 < n) (hkeys : n.toNat ≤ keys.length)
    (hlo : -2147483648 ≤ n * f.bits_per_key_)
    (hhi : n * f.bits_per_key_ + 7 ≤ 2147483647)
    (hsize : (f.bloomfilter_data_.length : Int) + (max 64 (n * f.bits_per_key_) + 7) / 8
      ≤ 2147483647) :
    ∃ f1, CreateFilter hash f (some keys) n = some f1 ∧
      f1.bits_per_key_ = f.bits_per_key_ ∧ f1.k_ = f.k_ ∧
      (f1.bloomfilter_data_.length : Int)
        = (f.bloomfilter_data_.length : Int) + (max 64 (n * f.bits_per_key_) + 7) / 8 ∧
      f1.bloomfilter_data_.take f.bloomfilter_data_.length = f.bloomfilter_data_ ∧
      ∀ (key : Bytes) (s L : Int), 0 ≤ s → 0 < L →
        s + L ≤ (f.bloomfilter_data_.length : Int) →
        KeyMayMatch hash f1 key s L = KeyMayMatch hash f key s L := by
  have hB := segmentBytes_eq f.bits_per_key_ n hlo hhi
  have hr := segmentBytes_range f.bits_per_key_ n hlo hhi
  obtain ⟨data1, h1, h2, h3, -⟩ := createFilter_core hash f keys n hn hkeys hlo hhi
    (by rw [hB]; exact hsize)
  have htake : data1.take f.bloomfilter_data_.length = f.bloomfilter_data_ := by
    apply List.ext_getElem?
    intro j
    rw [List.getElem?_take]
    by_cases hj : j < f.bloomfilter_data_.length
    · rw [if_pos hj, h3 j hj]
    · rw [if_neg hj, List.getElem?_eq_none (Nat.le_of_not_lt hj)]
  refine ⟨_, h1, rfl, rfl, ?_, htake, ?_⟩
  · show ((data1.length : Nat) : Int) = _
    rw [h2, ← hB]
    omega
  · intro key s L hs hL hsl
    refine keyMayMatch_frame hash f { f with bloomfilter_data_ := data1 }
      (data1.drop f.bloomfilter_data_.length) rfl ?_ key s L hs hL hsl
    show data1 = _
    conv_lhs => rw [← List.take_append_drop f.bloomfilter_data_.length data1, htake]

/-- Witness of C10 (amended): a second segment for two keys behind eight old bytes. -/
theorem createFilter_appends_segment_witness :
    ∃ f1, CreateFilter (fun k => k.sum) ⟨10, 7, [1, 2, 3, 4, 5, 6, 7, 8]⟩
        (some [[99], [1, 2]]) 2 = some f1 ∧
      f1.bits_per_key_ = 10 ∧ f1.k_ = 7 ∧
      (f1.bloomfilter_data_.length : Int)
        = (([1, 2, 3, 4, 5, 6, 7, 8] : Bytes).length : Int) + (max 64 (2 * 10) + 7) / 8 ∧
      f1.bloomfilter_data_.take ([1, 2, 3, 4, 5, 6, 7, 8] : Bytes).length
        = [1, 2, 3, 4, 5, 6, 7, 8] ∧
      ∀ (key : Bytes) (s L : Int), 0 ≤ s → 0 < L →
        s + L ≤ (([1, 2, 3, 4, 5, 6, 7, 8] : Bytes).length : Int) →
        KeyMayMatch (fun k => k.sum) f1 key s L
          = KeyMayMatch (fun k => k.sum) ⟨10, 7, [1, 2, 3, 4, 5, 6, 7, 8]⟩ key s L :=
  createFilter_appends_segment (fun k => k.sum) ⟨10, 7, [1, 2, 3, 4, 5, 6, 7, 8]⟩
    [[99], [1, 2]] 2 (by decide) (by decide) (by decide) (by decide) (by decide)

/-- Counterexamples to C10 as stated.  First: with `n = 1` and `bits_per_key =
2147483641` the product `n * bits_per_key` is representable as `int32_t`, but `bits + 7`
is not; the byte count comes out negative and the call does not complete, for any hash
function, so the buffer does not get `ceil(2147483641 / 8)` bytes longer.  Second: a
query with `len = 0` reads from `start_pos` to the end of the buffer.  With the hash
function `131072 + sum of the bytes`, the filter built from the key `[64]` holds one
segment, which the query `(0, 0)` addresses, and the key is reported present; after a
second call, for the key `[32]`, the first eight bytes are as before and the same query
reports the key absent, while the query `(0, 8)` still reports it present. -/
theorem createFilter_frame_counterexamples :
    ((-2147483648 ≤ (1 : Int) * 2147483641 ∧ (1 : Int) * 2147483641 ≤ 2147483647) ∧
      ¬ ∃ (hash : Bytes → Nat) (f1 : BloomFilter),
        CreateFilter hash ⟨2147483641, 30, [0, 0, 0, 0, 0, 0, 0, 0]⟩ (some [[1]]) 1
          = some f1) ∧
    (CreateFilter (fun k => 131072 + k.sum) ⟨10, 7, []⟩ (some [[64]]) 1
        = some ⟨10, 7, [127, 0, 0, 0, 0, 0, 0, 0]⟩ ∧
      KeyMayMatch (fun k => 131072 + k.sum) ⟨10, 7, [127, 0, 0, 0, 0, 0, 0, 0]⟩ [64] 0 0
        = some true ∧
      CreateFilter (fun k => 131072 + k.sum) ⟨10, 7, [127, 0, 0, 0, 0, 0, 0, 0]⟩
          (some [[32]]) 1
        = some ⟨10, 7, [127, 0, 0, 0, 0, 0, 0, 0, 0, 0, 0, 0, 127, 0, 0, 0]⟩ ∧
      ([127, 0, 0, 0, 0, 0, 0, 0, 0, 0, 0, 0, 127, 0, 0, 0] : Bytes).take 8
        = [127, 0, 0, 0, 0, 0, 0, 0] ∧
      KeyMayMatch (fun k => 131072 + k.sum)
          ⟨10, 7, [127, 0, 0, 0, 0, 0, 0, 0, 0, 0, 0, 0, 127, 0, 0, 0]⟩ [64] 0 0
        = some false ∧
      KeyMayMatch (fun k => 131072 + k.sum)
          ⟨10, 7, [127, 0, 0, 0, 0, 0, 0, 0, 0, 0, 0, 0, 127, 0, 0, 0]⟩ [64] 0 8
        = some true) := by
  refine ⟨⟨by decide, ?_⟩, by decide, by decide, by decide, by decide, by decide,
    by decide⟩
  rintro ⟨hash, f1, h⟩
  have : CreateFilter hash ⟨2147483641, 30, [0, 0, 0, 0, 0, 0, 0, 0]⟩ (some [[1]]) 1 = none :=
    rfl
  rw [this] at h
  cases h

/-! ## Probe count, stride and short-circuits of the membership filter -/

theorem roundHalfEven_near (m : ℚ) :
    m - 1 / 2 ≤ (roundHalfEven m : ℚ) ∧ (roundHalfEven m : ℚ) ≤ m + 1 / 2 := by
  have h1 := Int.floor_le m
  have h2 := Int.lt_floor_add_one m
  unfold roundHalfEven
  simp only []
  split_ifs with a b c
  · constructor <;> linarith
  · push_cast; constructor <;> linarith
  · constructor <;> linarith
  · push_cast; constructor <;> linarith

theorem roundBinary_pos (p : Nat) (x : ℚ) (hx : 0 < x) :
    x * (1 - 2 ^ (-(p : ℤ))) ≤ roundBinary p x ∧
      roundBinary p x ≤ x * (1 + 2 ^ (-(p : ℤ))) := by
  unfold roundBinary
  rw [if_neg (ne_of_gt hx)]
  simp only []
  rw [if_neg (not_lt.2 (le_of_lt hx)), abs_of_pos hx]
  have he : (2 : ℚ) ^ Int.log 2 x ≤ x := by
    have := Int.zpow_log_le_self (b := 2) (r := x) (by norm_num) hx
    simpa using this
  have hulp : (2 : ℚ) ^ (Int.log 2 x - p + 1) = 2 ^ Int.log 2 x * 2 ^ (-(p : ℤ)) * 2 := by
    rw [show Int.log 2 x - (p : ℤ) + 1 = Int.log 2 x + (-(p : ℤ)) + 1 by ring,
      zpow_add₀ (by norm_num), zpow_add₀ (by norm_num), zpow_one]
  have hpos : (0 : ℚ) < 2 ^ (Int.log 2 x - p + 1) := zpow_pos (by norm_num) _
  have hd : (0 : ℚ) < 2 ^ (-(p : ℤ)) := zpow_pos (by norm_num) _
  obtain ⟨n1, n2⟩ := roundHalfEven_near (x / 2 ^ (Int.log 2 x - p + 1))
  have hx1 : x / 2 ^ (Int.log 2 x - p + 1) * 2 ^ (Int.log 2 x - p + 1) = x :=
    div_mul_cancel₀ _ (ne_of_gt hpos)
  have m1 := mul_le_mul_of_nonneg_right n1 (le_of_lt hpos)
  have m2 := mul_le_mul_of_nonneg_right n2 (le_of_lt hpos)
  rw [sub_mul, hx1] at m1
  rw [add_mul, hx1] at m2
  have hhalf : 1 / 2 * (2 : ℚ) ^ (Int.log 2 x - p + 1) ≤ x * 2 ^ (-(p : ℤ)) := by
    rw [hulp]
    have := mul_le_mul_of_nonneg_right he (le_of_lt hd)
    linarith
  constructor <;> linarith

theorem roundBinary_neg (p : Nat) (x : ℚ) : roundBinary p (-x) = -roundBinary p x := by
  unfold roundBinary
  rcases lt_trichotomy x 0 with h | h | h
  · have h1 : ¬ (-x = 0) := by intro h0; linarith [neg_eq_zero.1 h0]
    have h2 : ¬ (-x < 0) := by linarith
    rw [if_neg h1, if_neg (ne_of_lt h)]
    simp only [abs_neg, neg_neg]
    rw [if_neg h2, if_pos h, neg_neg]
  · subst h; simp
  · have h1 : ¬ (-x = 0) := by intro h0; linarith [neg_eq_zero.1 h0]
    have h2 : -x < 0 := by linarith
    rw [if_neg h1, if_neg (ne_of_gt h)]
    simp only [abs_neg, neg_neg]
    rw [if_pos h2, if_neg (not_lt.2 (le_of_lt h))]

theorem roundBinary_zero (p : Nat) : roundBinary p 0 = 0 := by
  unfold roundBinary
  rw [if_pos rfl]

theorem two_zpow_neg_le_one (p : Nat) : (2 : ℚ) ^ (-(p : ℤ)) ≤ 1 := by
  rw [zpow_neg, zpow_natCast]
  exact inv_le_one_of_one_le₀ (one_le_pow₀ (by norm_num))

/-- Rounding keeps a value between two multiples of `b` between slightly wider
multiples of `b`. -/
theorem roundBinary_scale (p : Nat) (a a1 A A1 b x : ℚ) (hb : 0 < b) (ha : 0 < a)
    (hx1 : a * b ≤ x) (hx2 : x ≤ A * b) (h1 : a1 ≤ a * (1 - 2 ^ (-(p : ℤ))))
    (h2 : A * (1 + 2 ^ (-(p : ℤ))) ≤ A1) :
    a1 * b ≤ roundBinary p x ∧ roundBinary p x ≤ A1 * b := by
  have hx : 0 < x := lt_of_lt_of_le (mul_pos ha hb) hx1
  obtain ⟨r1, r2⟩ := roundBinary_pos p x hx
  have hd := two_zpow_neg_le_one p
  have hd0 : (0 : ℚ) < 2 ^ (-(p : ℤ)) := zpow_pos (by norm_num) _
  have e1 : a * b * (1 - 2 ^ (-(p : ℤ))) ≤ x * (1 - 2 ^ (-(p : ℤ))) :=
    mul_le_mul_of_nonneg_right hx1 (by linarith)
  have e2 : x * (1 + 2 ^ (-(p : ℤ))) ≤ A * b * (1 + 2 ^ (-(p : ℤ))) :=
    mul_le_mul_of_nonneg_right hx2 (by linarith)
  have e3 : a1 * b ≤ a * (1 - 2 ^ (-(p : ℤ))) * b := mul_le_mul_of_nonneg_right h1 (le_of_lt hb)
  have e4 : A * (1 + 2 ^ (-(p : ℤ))) * b ≤ A1 * b := mul_le_mul_of_nonneg_right h2 (le_of_lt hb)
  constructor
  · calc a1 * b ≤ a * (1 - 2 ^ (-(p : ℤ))) * b := e3
      _ = a * b * (1 - 2 ^ (-(p : ℤ))) := by ring
      _ ≤ x * (1 - 2 ^ (-(p : ℤ))) := e1
      _ ≤ roundBinary p x := r1
  · calc roundBinary p x ≤ x * (1 + 2 ^ (-(p : ℤ))) := r2
      _ ≤ A * b * (1 + 2 ^ (-(p : ℤ))) := e2
      _ = A * (1 + 2 ^ (-(p : ℤ))) * b := by ring
      _ ≤ A1 * b := e4

/-- The floating point expression of `CalcHashNum` for a positive `bits_per_key_`. -/
theorem hashExpr_pos (b : ℤ) (hb : 0 < b) :
    (693147 / 1000000 : ℚ) * b
        ≤ toFloat (toDouble (toDouble (69314718056 / 100000000000) * (b : ℚ))) ∧
      toFloat (toDouble (toDouble (69314718056 / 100000000000) * (b : ℚ)))
        ≤ (693148 / 1000000 : ℚ) * b := by
  have hbq : (0 : ℚ) < b := by exact_mod_cast hb
  obtain ⟨l1, l2⟩ := roundBinary_scale 53 (69314718056 / 100000000000)
    (6931471805 / 10000000000) (69314718056 / 100000000000) (6931471806 / 10000000000) 1
    (69314718056 / 100000000000) (by norm_num) (by norm_num) (by norm_num) (by norm_num)
    (by norm_num) (by norm_num)
  rw [mul_one] at l1 l2
  obtain ⟨p1, p2⟩ := roundBinary_scale 53 (6931471805 / 10000000000)
    (693147180 / 1000000000) (6931471806 / 10000000000) (693147181 / 1000000000) b
    (toDouble (69314718056 / 100000000000) * (b : ℚ)) hbq (by norm_num)
    (mul_le_mul_of_nonneg_right l1 (le_of_lt hbq))
    (mul_le_mul_of_nonneg_right l2 (le_of_lt hbq)) (by norm_num) (by norm_num)
  exact roundBinary_scale 24 (693147180 / 1000000000) (693147 / 1000000)
    (693147181 / 1000000000) (693148 / 1000000) b _ hbq (by norm_num) p1 p2 (by norm_num)
    (by norm_num)

theorem hashExpr_neg (b : ℤ) :
    toFloat (toDouble (toDouble (69314718056 / 100000000000) * ((-b : ℤ) : ℚ)))
      = -toFloat (toDouble (toDouble (69314718056 / 100000000000) * (b : ℚ))) := by
  unfold toFloat
  rw [← roundBinary_neg]
  congr 1
  show roundBinary 53 _ = -roundBinary 53 _
  rw [← roundBinary_neg]
  congr 1
  push_cast
  ring

theorem hashExpr_zero :
    toFloat (toDouble (toDouble (69314718056 / 100000000000) * ((0 : ℤ) : ℚ))) = 0 := by
  simp [toFloat, toDouble, roundBinary_zero]

/-- The value of `CalcHashNum` from the ceiling of its floating point expression. -/
theorem calcHashNum_of_ceil (b : ℤ)
    (h1 : -2147483648 ≤ ⌈toFloat (toDouble (toDouble (69314718056 / 100000000000) * (b : ℚ)))⌉)
    (h2 : ⌈toFloat (toDouble (toDouble (69314718056 / 100000000000) * (b : ℚ)))⌉ ≤ 2147483647) :
    CalcHashNum b = some (max 1 (min 30
      ⌈toFloat (toDouble (toDouble (69314718056 / 100000000000) * (b : ℚ)))⌉)) := by
  unfold CalcHashNum ceilf truncToInt
  simp only [Int.ceil_intCast, Int.floor_intCast, ite_self]
  rw [if_neg (by omega)]
  congr 1
  split_ifs <;> omega


theorem ceil_log_two_small (b m : ℤ) (hb : 0 < b)
    (h1 : (m - 1) * 1000000 < 693147 * b) (h2 : 693148 * b ≤ m * 1000000) :
    ⌈Real.log 2 * (b : ℝ)⌉ = m := by
  have hbr : (0 : ℝ) < b := by exact_mod_cast hb
  have g1 := Real.log_two_gt_d9
  have g2 := Real.log_two_lt_d9
  have c1 : ((m : ℝ) - 1) * 1000000 < 693147 * (b : ℝ) := by exact_mod_cast h1
  have c2 : (693148 : ℝ) * (b : ℝ) ≤ (m : ℝ) * 1000000 := by exact_mod_cast h2
  have e1 : (0.6931471803 : ℝ) * b < Real.log 2 * b := mul_lt_mul_of_pos_right g1 hbr
  have e2 : Real.log 2 * b < (0.6931471808 : ℝ) * b := mul_lt_mul_of_pos_right g2 hbr
  rw [Int.ceil_eq_iff]
  constructor
  · norm_num at e1 ⊢
    linarith
  · norm_num at e2 ⊢
    linarith

/-- C11 (probe-count clamp): for every 32-bit `bits_per_key`, `CalcHashNum` - the double
product `0.69314718056 * bits_per_key_`, its conversion to `float`, `ceilf`, the cast to
`int32_t` and the two clamps - returns a probe count `k` with `1 <= k <= 30` that is
`ceil(ln 2 * bits_per_key)` clamped to `[1, 30]`; the constructor stores it, so the test
`k_ > 30` of `KeyMayMatch` fails for the filter it builds. -/
theorem calcHashNum_clamp (bits_per_key_ : Int) (hlo : -2147483648 ≤ bits_per_key_)
    (hhi : bits_per_key_ ≤ 2147483647) :
    ∃ k, CalcHashNum bits_per_key_ = some k ∧ 1 ≤ k ∧ k ≤ 30 ∧
      k = max 1 (min 30 ⌈Real.log 2 * (bits_per_key_ : ℝ)⌉) ∧
      BloomFilter.new bits_per_key_
        = some { bits_per_key_ := bits_per_key_, k_ := k, bloomfilter_data_ := [] } ∧
      ¬ 30 < k := by
  have hq1 : (-2147483648 : ℚ) ≤ bits_per_key_ := by exact_mod_cast hlo
  have hq2 : (bits_per_key_ : ℚ) ≤ 2147483647 := by exact_mod_cast hhi
  have key : ∀ k, CalcHashNum bits_per_key_ = some k → 1 ≤ k → k ≤ 30 →
      k = max 1 (min 30 ⌈Real.log 2 * (bits_per_key_ : ℝ)⌉) →
      ∃ k, CalcHashNum bits_per_key_ = some k ∧ 1 ≤ k ∧ k ≤ 30 ∧
        k = max 1 (min 30 ⌈Real.log 2 * (bits_per_key_ : ℝ)⌉) ∧
        BloomFilter.new bits_per_key_
          = some { bits_per_key_ := bits_per_key_, k_ := k, bloomfilter_data_ := [] } ∧
        ¬ 30 < k := by
    intro k h1 h2 h3 h4
    exact ⟨k, h1, h2, h3, h4, by unfold BloomFilter.new; rw [h1], by omega⟩
  have hlog := Real.log_two_gt_d9
  have hlog2 := Real.log_two_lt_d9
  rcases lt_trichotomy bits_per_key_ 0 with hneg | hzero | hpos
  · -- negative: the expression is negative, the clamp gives 1
    obtain ⟨b1, b2⟩ := hashExpr_pos (-bits_per_key_) (by omega)
    rw [hashExpr_neg] at b1 b2
    push_cast at b1 b2
    have c1 : ⌈toFloat (toDouble (toDouble (69314718056 / 100000000000) *
        (bits_per_key_ : ℚ)))⌉ ≤ 0 := by
      rw [Int.ceil_le]
      push_cast
      have : (bits_per_key_ : ℚ) < 0 := by exact_mod_cast hneg
      linarith
    have c2 : -2147483648 ≤ ⌈toFloat (toDouble (toDouble (69314718056 / 100000000000) *
        (bits_per_key_ : ℚ)))⌉ := by
      have := Int.le_ceil (toFloat (toDouble (toDouble (69314718056 / 100000000000) *
        (bits_per_key_ : ℚ))))
      have h3 : ((-2147483648 : ℤ) : ℚ) ≤ (⌈toFloat (toDouble (toDouble
        (69314718056 / 100000000000) * (bits_per_key_ : ℚ)))⌉ : ℚ) := by
        push_cast
        linarith
      exact_mod_cast h3
    have hreal : ⌈Real.log 2 * (bits_per_key_ : ℝ)⌉ ≤ 0 := by
      rw [Int.ceil_le]
      push_cast
      have hb : (bits_per_key_ : ℝ) < 0 := by exact_mod_cast hneg
      have : Real.log 2 * (bits_per_key_ : ℝ) < 0 :=
        mul_neg_of_pos_of_neg (by linarith) hb
      linarith
    refine key 1 ?_ (by omega) (by omega) (by omega)
    rw [calcHashNum_of_ceil _ c2 (by omega)]
    congr 1
    omega
  · subst hzero
    have c0 : ⌈toFloat (toDouble (toDouble (69314718056 / 100000000000) *
        ((0 : ℤ) : ℚ)))⌉ = 0 := by
      rw [hashExpr_zero]; simp
    refine key 1 ?_ (by omega) (by omega) (by simp)
    rw [calcHashNum_of_ceil _ (by omega) (by omega), c0]
    rfl
  · obtain ⟨b1, b2⟩ := hashExpr_pos bits_per_key_ hpos
    have hbq : (0 : ℚ) < bits_per_key_ := by exact_mod_cast hpos
    have hbr : (0 : ℝ) < bits_per_key_ := by exact_mod_cast hpos
    have c2 : ⌈toFloat (toDouble (toDouble (69314718056 / 100000000000) *
        (bits_per_key_ : ℚ)))⌉ ≤ 2147483647 := by
      rw [Int.ceil_le]
      push_cast
      linarith
    have c1 : 0 < ⌈toFloat (toDouble (toDouble (69314718056 / 100000000000) *
        (bits_per_key_ : ℚ)))⌉ := by
      rw [Int.ceil_pos]
      linarith
    by_cases hbig : 44 ≤ bits_per_key_
    · have hq44 : (44 : ℚ) ≤ bits_per_key_ := by exact_mod_cast hbig
      have hr44 : (44 : ℝ) ≤ bits_per_key_ := by exact_mod_cast hbig
      have c3 : 30 < ⌈toFloat (toDouble (toDouble (69314718056 / 100000000000) *
          (bits_per_key_ : ℚ)))⌉ := by
        rw [Int.lt_ceil]
        push_cast
        linarith
      have hreal : 30 < ⌈Real.log 2 * (bits_per_key_ : ℝ)⌉ := by
        rw [Int.lt_ceil]
        push_cast
        have e1 : (0.6931471803 : ℝ) * bits_per_key_ < Real.log 2 * bits_per_key_ :=
          mul_lt_mul_of_pos_right hlog hbr
        norm_num at e1 ⊢
        linarith
      refine key 30 ?_ (by omega) (by omega) (by omega)
      rw [calcHashNum_of_ceil _ (by omega) c2]
      congr 1
      omega
    · have hsmall : bits_per_key_ ≤ 43 := by omega
      have htab : ∃ m : ℤ, 1 ≤ m ∧ m ≤ 30 ∧ (m - 1) * 1000000 < 693147 * bits_per_key_ ∧
          693148 * bits_per_key_ ≤ m * 1000000 := by
        refine ⟨693147 * bits_per_key_ / 1000000 + 1, ?_⟩
        interval_cases bits_per_key_ <;> omega
      obtain ⟨m, m1, m30, t1, t2⟩ := htab
      have tq1 : ((m : ℚ) - 1) * 1000000 < 693147 * (bits_per_key_ : ℚ) := by
        exact_mod_cast t1
      have tq2 : (693148 : ℚ) * (bits_per_key_ : ℚ) ≤ (m : ℚ) * 1000000 := by
        exact_mod_cast t2
      have c3 : ⌈toFloat (toDouble (toDouble (69314718056 / 100000000000) *
          (bits_per_key_ : ℚ)))⌉ = m := by
        rw [Int.ceil_eq_iff]
        constructor <;> linarith
      have hreal := ceil_log_two_small bits_per_key_ m hpos t1 t2
      refine key m ?_ m1 m30 (by rw [hreal]; omega)
      rw [calcHashNum_of_ceil _ (by omega) c2, c3]
      congr 1
      omega

/-- Witness of C11: the constructor called with 10 bits per key. -/
theorem calcHashNum_clamp_witness :
    ∃ k, CalcHashNum 10 = some k ∧ 1 ≤ k ∧ k ≤ 30 ∧
      k = max 1 (min 30 ⌈Real.log 2 * ((10 : Int) : ℝ)⌉) ∧
      BloomFilter.new 10 = some { bits_per_key_ := 10, k_ := k, bloomfilter_data_ := [] } ∧
      ¬ 30 < k :=
  calcHashNum_clamp 10 (by decide) (by decide)

theorem stride_eq_sum (h : Nat) (hh : h < 4294967296) :
    stride h = h / 131072 + (h % 131072) * 32768 := by
  unfold stride
  have h1 : (h <<< 15) % 4294967296 = 2 ^ 15 * (h % 131072) := by
    rw [Nat.shiftLeft_eq]; omega
  have h2 : h >>> 17 = h / 131072 := by
    rw [Nat.shiftRight_eq_div_pow]
  have h3 : h / 131072 < 2 ^ 15 := by omega
  rw [h1, h2, Nat.or_comm, ← Nat.mul_add_lt_is_or h3]
  omega

theorem probes_iff_values (P : Nat → Prop) (m delta : Nat) :
    ∀ rounds hash_val, Probes P m delta rounds hash_val ↔
      ∀ v, v ∈ probeValues delta rounds hash_val → P (v % m)
  | 0, _ => by simp [Probes, probeValues]
  | rounds + 1, hash_val => by
    simp only [Probes, probeValues, List.mem_cons, forall_eq_or_imp,
      probes_iff_values P m delta rounds]

theorem probeValues_eq (delta : Nat) :
    ∀ rounds hash_val, hash_val < 4294967296 →
      probeValues delta rounds hash_val
        = (List.range rounds).map (fun j => (hash_val + j * delta) % 4294967296)
  | 0, _, _ => rfl
  | rounds + 1, hash_val, hh => by
    rw [probeValues, probeValues_eq delta rounds _ (Nat.mod_lt _ (by omega)),
      List.range_succ_eq_map, List.map_cons, List.map_map]
    congr 1
    · simp; omega
    · apply List.map_congr_left
      intro j _
      simp only [Function.comp]
      rw [Nat.succ_mul, Nat.mod_add_mod]
      congr 1
      omega

theorem probeTest_true_iff (cur : Bytes) (bits : Int) (delta : Nat) (h0 : toU32 bits ≠ 0) :
    ∀ rounds hash_val, probeTest cur bits delta rounds hash_val = some true ↔
      ∀ v, v ∈ probeValues delta rounds hash_val →
        ∃ b, readByte cur (v % toU32 bits / 8) = some b ∧
          b &&& (1 <<< (v % toU32 bits % 8)) ≠ 0
  | 0, _ => by simp [probeTest, probeValues]
  | rounds + 1, hash_val => by
    simp only [probeTest, if_neg h0, probeValues, List.mem_cons, forall_eq_or_imp]
    cases hr : readByte cur (hash_val % toU32 bits / 8) with
    | none => simp
    | some b =>
      by_cases hb : b &&& (1 <<< (hash_val % toU32 bits % 8)) = 0
      · simp [hb]
      · simp only [if_neg hb, Option.some.injEq, exists_eq_left', ne_eq, hb, not_false_eq_true,
          true_and]
        exact probeTest_true_iff cur bits delta h0 rounds _

theorem probeSet_eq_fold (bits base : Int) (delta : Nat) (h0 : toU32 bits ≠ 0) :
    ∀ (rounds hash_val : Nat) (data : Bytes),
      probeSet bits base delta rounds hash_val data
        = (probeValues delta rounds hash_val).foldlM
            (fun d v => setBit d base (v % toU32 bits)) data
  | 0, _, _ => rfl
  | rounds + 1, hash_val, data => by
    simp only [probeSet, if_neg h0, probeValues, List.foldlM_cons]
    cases hs : setBit data base (hash_val % toU32 bits) with
    | none => rfl
    | some data1 =>
      simp only [Option.bind_eq_bind, Option.some_bind]
      exact probeSet_eq_fold bits base delta h0 rounds _ data1

/-- C19 (probe stride): for a 32-bit hash value `h` the stride `(h >> 17) | (h << 15)` is
the rotation of `h` right by 17 bits, which is the rotation left by 15 bits; the probe
rounds visit `h, h + d, h + 2d, ...` modulo `2^32`; the loop of `CreateFilter` writes and
the loop of `KeyMayMatch` reads exactly at these values, and both functions start their
loop from `h = hash(key)` with the stride of `h`. -/
theorem probe_stride_rotation (h : Nat) (hh : h < 4294967296) :
    stride h = rotateRight32 h 17 ∧ stride h = rotateLeft32 h 15 ∧
    (∀ rounds, probeValues (stride h) rounds h
      = (List.range rounds).map (fun j => (h + j * stride h) % 4294967296)) ∧
    (∀ (bits base : Int) (rounds : Nat) (data : Bytes), toU32 bits ≠ 0 →
      probeSet bits base (stride h) rounds h data
        = (probeValues (stride h) rounds h).foldlM
            (fun d v => setBit d base (v % toU32 bits)) data) ∧
    (∀ (cur : Bytes) (bits : Int) (rounds : Nat), toU32 bits ≠ 0 →
      (probeTest cur bits (stride h) rounds h = some true ↔
        ∀ v, v ∈ probeValues (stride h) rounds h →
          ∃ b, readByte cur (v % toU32 bits / 8) = some b ∧
            b &&& (1 <<< (v % toU32 bits % 8)) ≠ 0)) ∧
    (∀ (hash : Bytes → Nat) (key : Bytes), hash key % 4294967296 = h →
      (∀ (k_ bits base : Int) (keys : List Bytes) (cnt i : Nat) (data : Bytes),
        keys[i]? = some key →
        fillKeys hash k_ bits base keys (cnt + 1) i data
          = (probeSet bits base (stride h) k_.toNat h data).bind
              (fillKeys hash k_ bits base keys cnt (i + 1))) ∧
      ∀ (f : BloomFilter) (start_pos len : Int),
        key.isEmpty = false → f.bloomfilter_data_.isEmpty = false →
        ¬ f.bloomfilter_data_.length < toSizeT start_pos → ¬ 30 < f.k_ →
        KeyMayMatch hash f key start_pos len
          = probeTest
              ((f.bloomfilter_data_.drop (toSizeT start_pos)).take
                (toSizeT (if len = 0 then
                  wrap32 ((f.bloomfilter_data_.length - toSizeT start_pos : Nat) : Int)
                  else len)))
              (wrap32 ((if len = 0 then
                  wrap32 ((f.bloomfilter_data_.length - toSizeT start_pos : Nat) : Int)
                  else len) * 8))
              (stride h) f.k_.toNat h) := by
  have hsum := stride_eq_sum h hh
  refine ⟨?_, ?_, fun rounds => probeValues_eq _ rounds h hh,
    fun bits base rounds data h0 => probeSet_eq_fold bits base _ h0 rounds h data,
    fun cur bits rounds h0 => probeTest_true_iff cur bits _ h0 rounds h, ?_⟩
  · rw [hsum]; unfold rotateRight32; norm_num
  · rw [hsum]; unfold rotateLeft32
    norm_num
    omega
  · intro hash key hk
    refine ⟨?_, ?_⟩
    · intro k_ bits base keys cnt i data hkey
      simp only [fillKeys, hkey, hk]
      cases probeSet bits base (stride h) k_.toNat h data <;> rfl
    · intro f start_pos len h1 h2 h3 h4
      simp only [KeyMayMatch, h1, h2, Bool.or_self, Bool.false_eq_true, if_false, if_neg h3,
        if_neg h4, hk]

/-- Witness of C19: the hash value `0x12345678`. -/
theorem probe_stride_rotation_witness :
    stride 305419896 = rotateRight32 305419896 17 ∧
      stride 305419896 = rotateLeft32 305419896 15 :=
  ⟨(probe_stride_rotation 305419896 (by decide)).1,
    (probe_stride_rotation 305419896 (by decide)).2.1⟩

/-- C12 (short-circuits): for every filter state, key and `len`, and every 32-bit
`start_pos`, `KeyMayMatch` returns false when the key is empty, when the buffer is
empty, and when `start_pos` exceeds the buffer size; a negative `start_pos`, converted to
the unsigned type of the size, exceeds every buffer size below `2^63` as well. -/
theorem keyMayMatch_short_circuits (hash : Bytes → Nat) (f : BloomFilter) (key : Bytes)
    (start_pos len : Int) (hlo : -2147483648 ≤ start_pos) (hhi : start_pos ≤ 2147483647) :
    (key = [] → KeyMayMatch hash f key start_pos len = some false) ∧
    (f.bloomfilter_data_ = [] → KeyMayMatch hash f key start_pos len = some false) ∧
    ((f.bloomfilter_data_.length : Int) < start_pos →
      KeyMayMatch hash f key start_pos len = some false) ∧
    (start_pos < 0 → f.bloomfilter_data_.length < 9223372036854775808 →
      KeyMayMatch hash f key start_pos len = some false) := by
  refine ⟨?_, ?_, ?_, ?_⟩
  · intro hk
    simp only [KeyMayMatch, hk, List.isEmpty_nil, Bool.true_or, if_true]
  · intro hd
    simp only [KeyMayMatch, hd, List.isEmpty_nil, Bool.or_true, if_true]
  · intro hlt
    have hs : f.bloomfilter_data_.length < toSizeT start_pos := by
      have h1 : toSizeT start_pos = start_pos.toNat :=
        toSizeT_of_range (by omega) (by omega)
      rw [h1]; omega
    unfold KeyMayMatch
    by_cases h0 : (key.isEmpty || f.bloomfilter_data_.isEmpty) = true
    · rw [if_pos h0]
    · rw [if_neg h0]
      simp only [if_pos hs]
  · intro hneg hsz
    have hs : f.bloomfilter_data_.length < toSizeT start_pos := by
      unfold toSizeT
      omega
    unfold KeyMayMatch
    by_cases h0 : (key.isEmpty || f.bloomfilter_data_.isEmpty) = true
    · rw [if_pos h0]
    · rw [if_neg h0]
      simp only [if_pos hs]

/-- Witness of C12: an eight-byte buffer queried at offset 9. -/
theorem keyMayMatch_short_circuits_witness :
    KeyMayMatch (fun k => k.sum) ⟨10, 7, [1, 2, 3, 4, 5, 6, 7, 8]⟩ [1] 9 0 = some false :=
  (keyMayMatch_short_circuits (fun k => k.sum) ⟨10, 7, [1, 2, 3, 4, 5, 6, 7, 8]⟩ [1] 9 0
    (by decide) (by decide)).2.2.1 (by decide)

/-- C13 (no-op): `CreateFilter(keys, n)` with `n <= 0` or a null `keys` returns with the
filter state - buffer, `bits_per_key_` and `k_` - exactly as it was. -/
theorem createFilter_noop (hash : Bytes → Nat) (f : BloomFilter) (keys : Option (List Bytes))
    (n : Int) (h : n ≤ 0 ∨ keys = none) : CreateFilter hash f keys n = some f := by
  cases keys with
  | none => rfl
  | some ks =>
    rcases h with h | h
    · simp only [CreateFilter, if_pos h]
    · cases h

/-- Witness of C13: a batch of two keys passed with `n = 0`. -/
theorem createFilter_noop_witness :
    CreateFilter (fun k => k.sum) ⟨10, 7, [1, 2, 3, 4, 5, 6, 7, 8]⟩ (some [[99], [1, 2]]) 0
      = some ⟨10, 7, [1, 2, 3, 4, 5, 6, 7, 8]⟩ :=
  createFilter_noop (fun k => k.sum) ⟨10, 7, [1, 2, 3, 4, 5, 6, 7, 8]⟩ (some [[99], [1, 2]]) 0
    (Or.inl (by decide))

/-! ## Heights and stores of the ordered index -/

theorem randomHeightFrom_miss (rand : Nat → Nat) :
    ∀ (left height rnd j : Nat), (∀ t, t < j → rand (rnd + t) % kBranching = 0) →
      rand (rnd + j) % kBranching ≠ 0 →
      randomHeightFrom rand left height rnd = (height + min left j, rnd + min left (j + 1))
  | 0, height, rnd, j, _, _ => by simp [randomHeightFrom]
  | left + 1, height, rnd, 0, _, hmiss => by
    have hm : ¬ rand rnd % kBranching = 0 := by simpa using hmiss
    simp only [randomHeightFrom, if_neg hm]
    congr 1
    omega
  | left + 1, height, rnd, j + 1, hhit, hmiss => by
    have hh : rand rnd % kBranching = 0 := by simpa using hhit 0 (by omega)
    simp only [randomHeightFrom, if_pos hh]
    rw [randomHeightFrom_miss rand left (height + 1) (rnd + 1) j
      (fun t ht => by have := hhit (t + 1) (by omega); rwa [show rnd + 1 + t = rnd + (t + 1) by omega])
      (by rwa [show rnd + 1 + j = rnd + (j + 1) by omega])]
    congr 1 <;> omega

theorem randomHeightFrom_hits (rand : Nat → Nat) :
    ∀ (left height rnd : Nat), (∀ t, t < left → rand (rnd + t) % kBranching = 0) →
      randomHeightFrom rand left height rnd = (height + left, rnd + left)
  | 0, height, rnd, _ => rfl
  | left + 1, height, rnd, hhit => by
    have hh : rand rnd % kBranching = 0 := by simpa using hhit 0 (by omega)
    simp only [randomHeightFrom, if_pos hh]
    rw [randomHeightFrom_hits rand left (height + 1) (rnd + 1)
      (fun t ht => by have := hhit (t + 1) (by omega); rwa [show rnd + 1 + t = rnd + (t + 1) by omega])]
    congr 1 <;> omega

/-- C18 (random height): for every stream of draws, `RandomHeight` returns
`min(20, 1 + j)` when exactly the first `j` draws are divisible by `kBranching = 4`, and
20 when the first 19 all are; the result lies in `[1, kMaxHeight]`, at most 19 draws
succeed and at most 19 draws are taken. -/
theorem randomHeight_spec (rand : Nat → Nat) (rnd : Nat) :
    (∀ j, (∀ t, t < j → rand (rnd + t) % 4 = 0) → rand (rnd + j) % 4 ≠ 0 →
      RandomHeight rand rnd = (min 20 (1 + j), rnd + min 19 (j + 1))) ∧
    ((∀ t, t < 19 → rand (rnd + t) % 4 = 0) → RandomHeight rand rnd = (20, rnd + 19)) ∧
    1 ≤ (RandomHeight rand rnd).1 ∧ (RandomHeight rand rnd).1 ≤ kMaxHeight ∧
    (RandomHeight rand rnd).1 - 1 ≤ 19 ∧ (RandomHeight rand rnd).2 ≤ rnd + 19 := by
  have hr := randomHeight_range rand rnd
  have hk : kMaxHeight = 20 := rfl
  refine ⟨?_, ?_, hr.1, hr.2, by rw [hk] at hr; omega, ?_⟩
  · intro j hhit hmiss
    unfold RandomHeight
    rw [randomHeightFrom_miss rand _ 1 rnd j hhit hmiss]
    simp only [hk]
    congr 1
    omega
  · intro hhit
    unfold RandomHeight
    rw [randomHeightFrom_hits rand (kMaxHeight - 1) 1 rnd hhit]
    rfl
  · by_cases hall : ∀ t, t < 19 → rand (rnd + t) % 4 = 0
    · unfold RandomHeight
      rw [randomHeightFrom_hits rand (kMaxHeight - 1) 1 rnd hall]
      simp [hk]
    · push_neg at hall
      have hex : ∃ j, rand (rnd + j) % 4 ≠ 0 := by
        obtain ⟨t, _, ht⟩ := hall
        exact ⟨t, ht⟩
      have hmin : ∀ t, t < Nat.find hex → ¬ rand (rnd + t) % 4 ≠ 0 :=
        fun t ht => Nat.find_min hex ht
      have hspec := Nat.find_spec hex
      unfold RandomHeight
      rw [randomHeightFrom_miss rand _ 1 rnd (Nat.find hex)
        (fun t ht => by
          have := hmin t ht
          simpa using this) hspec]
      simp only [hk]
      omega

/-- `Insert` is its duplicate test followed, for a new key, by the linking loop run
from the allocated state with the array `prev`. -/
theorem insert_eq_steps (cmp : Key → Key → Int) (rand : Nat → Nat) (fuel : Nat)
    (s : SkipList Key) (key : Key) :
    Insert cmp rand fuel s key =
      match insertDup cmp fuel s key with
      | none => none
      | some true => some s
      | some false =>
        match insertPrev cmp rand fuel s key with
        | none => none
        | some prev =>
          linkLevels prev s.arena_.length (RandomHeight rand s.rnd_).1 0
            (insertAlloc rand s key) := by
  unfold Insert insertDup insertPrev insertAlloc insertRaise NewNode
  cases hf : FindGreaterOrEqual cmp fuel s key (some (List.replicate kMaxHeight none)) with
  | none => rfl
  | some r =>
    obtain ⟨node, prev⟩ := r
    cases prev with
    | none => rfl
    | some prev =>
      cases node with
      | none => rfl
      | some a =>
        cases ha : s.arena_[a]? with
        | none => rfl
        | some nd =>
          cases Equal cmp key nd.key <;> rfl

/-- The result of the linking loop is the last state of its trace. -/
theorem linkLevels_eq_trace (prev : List Ptr) (new_node : Nat) :
    ∀ (cnt i : Nat) (s : SkipList Key),
      linkLevels prev new_node cnt i s
        = (linkTrace prev new_node cnt i s).map (fun l => l.getLastD s)
  | 0, _, _ => rfl
  | cnt + 1, i, s => by
    unfold linkLevels linkTrace
    cases hp : prev[i]? with
    | none => rfl
    | some p =>
      cases p with
      | none => rfl
      | some p =>
        simp only []
        cases hn : NoBarrier_Next s p i with
        | none => rfl
        | some nx =>
          simp only []
          cases h1 : NoBarrier_SetNext s new_node i nx with
          | none => rfl
          | some s1 =>
            simp only []
            cases h2 : SetNext s1 p i (some new_node) with
            | none => rfl
            | some s2 =>
              simp only []
              rw [linkLevels_eq_trace prev new_node cnt (i + 1) s2]
              cases linkTrace prev new_node cnt (i + 1) s2 with
              | none => rfl
              | some l =>
                simp only [Option.map_some', Option.some.injEq]
                cases l with
                | nil => rfl
                | cons a l => simp [List.getLastD]

/-! ## Level chains, predecessors and the stores of `Insert` -/

theorem walkAt_of_chain (s : SkipList Key) (i : Nat) :
    ∀ (l : List Nat) (fuel x : Nat), Chain s i x l → l.length < fuel →
      walkAt s i fuel x = some l
  | _, 0, _, _, hf => by omega
  | [], fuel + 1, x, hc, _ => by
    simp only [Chain] at hc
    simp only [walkAt, hc]
  | y :: l, fuel + 1, x, hc, hf => by
    simp only [Chain] at hc
    simp only [walkAt, hc.1, walkAt_of_chain s i l fuel y hc.2 (by simpa using hf),
      Option.map_some']

theorem walk_eq_walkAt (s : SkipList Key) :
    ∀ (fuel x : Nat), walk s fuel x = walkAt s 0 fuel x
  | 0, _ => rfl
  | fuel + 1, x => by
    simp only [walk, walkAt, walk_eq_walkAt s fuel]

/-- The keys read at the addresses of entries whose nodes hold their keys. -/
theorem keysOf_of_nodes {s : SkipList Key} {es : List (Entry Key)}
    (hn : ∀ e, e ∈ es → ∃ nd, s.arena_[e.addr]? = some nd ∧ nd.key = e.key) :
    ∀ l : List (Entry Key), (∀ e, e ∈ l → e ∈ es) →
      keysOf s (l.map (fun e => e.addr)) = some (l.map (fun e => e.key))
  | [], _ => rfl
  | e :: l, h => by
    obtain ⟨nd, hnd, hk⟩ := hn e (h e (List.mem_cons_self _ _))
    simp only [List.map_cons, keysOf, hnd, hk,
      keysOf_of_nodes hn l (fun e1 he1 => h e1 (List.mem_cons_of_mem _ he1)), Option.map_some']

/-- The entries of a level are among the entries of every lower level, in the same
order. -/
theorem levelOf_sublist_of_le {i j : Nat} (hji : j ≤ i) :
    ∀ es : List (Entry Key), (levelOf i es).Sublist (levelOf j es)
  | [] => List.Sublist.slnil
  | e :: es => by
    have ih := levelOf_sublist_of_le hji es
    simp only [levelOf, List.filter_cons] at ih ⊢
    by_cases h1 : i < e.height
    · have h2 : j < e.height := by omega
      simp only [h1, h2, decide_True, if_true, List.map_cons]
      exact ih.cons₂ _
    · by_cases h2 : j < e.height
      · simp only [h1, h2, decide_True, decide_False, if_true, List.map_cons]
        exact ih.cons _
      · simp only [h1, h2, decide_False]
        exact ih

/-- What a traversal sees in a state whose level chains are those of the sorted
entries `es`: at every level it ends at `nullptr`, reads ascending keys and visits a
subsequence of every lower level. -/
theorem observe_levels {cmp : Key → Key → Int} {s : SkipList Key} {es : List (Entry Key)}
    (hn : ∀ e, e ∈ es → ∃ nd, s.arena_[e.addr]? = some nd ∧ nd.key = e.key)
    (hs : es.Pairwise (fun a b => cmp a.key b.key < 0))
    (hch : ∀ i, i < kMaxHeight → Chain s i s.head_ (levelOf i es))
    (fuel : Nat) (hf : es.length < fuel) (i : Nat) (hi : i < kMaxHeight) :
    ∃ l ks, walkAt s i fuel s.head_ = some l ∧ keysOf s l = some ks ∧
      ks.Pairwise (fun a b => cmp a b < 0) ∧
      ∀ j, j ≤ i → ∃ lj, walkAt s j fuel s.head_ = some lj ∧ l.Sublist lj := by
  have hlen : ∀ j, (levelOf j es).length < fuel := fun j => by
    have := (levelOf_sublist j es).length_le
    simp only [List.length_map] at this
    omega
  refine ⟨levelOf i es, (es.filter (fun e => decide (i < e.height))).map (fun e => e.key),
    walkAt_of_chain s i _ fuel _ (hch i hi) (hlen i), ?_, ?_, ?_⟩
  · exact keysOf_of_nodes hn _ (fun e he => (List.mem_filter.1 he).1)
  · rw [List.pairwise_map]
    exact hs.sublist (List.filter_sublist _)
  · intro j hj
    exact ⟨levelOf j es, walkAt_of_chain s j _ fuel _ (hch j (by omega)) (hlen j),
      levelOf_sublist_of_le hj es⟩

/-- C14 (levels are nested): after every sequence of `Insert` calls on an empty list,
the links of every level `i < kMaxHeight` lead from the head through a chain that ends at
`nullptr`, whose keys ascend and whose nodes are, in order, among the nodes of the chain
of every level `j <= i`. -/
theorem level_chains_nested {cmp : Key → Key → Int} (hc : StrictTotalCmp cmp)
    (rand : Nat → Nat) (fuel : Nat) (key0 : Key) (keys : List Key)
    (hf : keys.length + kMaxHeight ≤ fuel) :
    ∃ s, insertAll cmp rand fuel (SkipList.new key0) keys = some s ∧
      ∀ i, i < kMaxHeight →
        ∃ l ks, walkAt s i fuel s.head_ = some l ∧ keysOf s l = some ks ∧
          ks.Pairwise (fun a b => cmp a b < 0) ∧
          ∀ j, j ≤ i → ∃ lj, walkAt s j fuel s.head_ = some lj ∧ l.Sublist lj := by
  obtain ⟨s, es, hs, hR, hlen, -⟩ := built hc rand fuel key0 keys hf
  refine ⟨s, hs, fun i hi => ?_⟩
  exact observe_levels (fun e he => by
      obtain ⟨-, -, -, nd, h1, h2, -⟩ := hR.node e he
      exact ⟨nd, h1, h2⟩) hR.sorted hR.chain fuel
    (by unfold kMaxHeight at hf; omega) i hi

/-- Witness of C14: the levels after inserting 5, 1, 9, 3, 7, with draws that give heights
above 1. -/
theorem level_chains_nested_witness :
    25 ≤ 30 ∧
    ∃ s, insertAll intCmp (fun n => 4 * n + (n / 3) % 2) 30 (SkipList.new 0) [5, 1, 9, 3, 7]
        = some s ∧
      ∀ i, i < kMaxHeight →
        ∃ l ks, walkAt s i 30 s.head_ = some l ∧ keysOf s l = some ks ∧
          ks.Pairwise (fun a b => intCmp a b < 0) ∧
          ∀ j, j ≤ i → ∃ lj, walkAt s j 30 s.head_ = some lj ∧ l.Sublist lj :=
  ⟨by decide, level_chains_nested intCmp_strict (fun n => 4 * n + (n / 3) % 2) 30 0
    [5, 1, 9, 3, 7] (by decide)⟩

/-- The predecessor of a split at level `j` is a node of the list and its level-`j` link
leads to the first entry of that level in the second part. -/
theorem pred_facts {cmp : Key → Key → Int} {s : SkipList Key} {es : List (Entry Key)}
    (hR : WellFormed cmp s es) (pre post : List (Entry Key)) (hes : es = pre ++ post)
    (j : Nat) (hj : j < kMaxHeight) :
    lastOr s.head_ (levelOf j pre) ≠ s.arena_.length ∧
      Next s (lastOr s.head_ (levelOf j pre)) j = some ((levelOf j post).head?) ∧
      (s.cur_height_ ≤ j → lastOr s.head_ (levelOf j pre) = s.head_) := by
  refine ⟨?_, ?_, ?_⟩
  · rcases lastOr_levelOf_cases s.head_ j pre with h0 | ⟨e, he, hea⟩
    · rw [h0]; exact Nat.ne_of_lt hR.head_lt
    · rw [← hea]
      exact Nat.ne_of_lt (hR.addr_lt (by rw [hes]; exact List.mem_append_left _ he))
  · have hch := hR.chain j hj
    rw [hes, levelOf_append] at hch
    exact chain_next _ _ _ hch
  · intro hle
    have : levelOf j pre = [] := levelOf_eq_nil_of_le (fun e he => by
      have := (hR.node e (by rw [hes]; exact List.mem_append_left _ he)).2.2.1
      omega)
    rw [this]; rfl

/-- The search, the duplicate test and the array `prev` of `Insert` for a key that is
not stored. -/
theorem insert_prep {cmp : Key → Key → Int} (hc : StrictTotalCmp cmp) {s : SkipList Key}
    {es : List (Entry Key)} (hR : WellFormed cmp s es) (rand : Nat → Nat) (key : Key)
    (fuel : Nat) (hf : es.length + s.cur_height_ ≤ fuel)
    (hnk : ∀ e, e ∈ es → cmp e.key key ≠ 0) :
    ∃ pre post p1 prev, es = pre ++ post ∧ (∀ e, e ∈ pre → cmp e.key key < 0) ∧
      (∀ e, e ∈ post → cmp key e.key < 0) ∧
      FindGreaterOrEqual cmp fuel s key (some (List.replicate kMaxHeight none))
        = some ((post.head?).map (fun e => e.addr), some p1) ∧
      insertDup cmp fuel s key = some false ∧
      insertPrev cmp rand fuel s key = some prev ∧
      (∀ j, j < s.cur_height_ → prev[j]? = p1[j]?) ∧
      (∀ j, s.cur_height_ ≤ j → j < (RandomHeight rand s.rnd_).1 →
        prev[j]? = some (some s.head_)) ∧
      ∀ j, j < (RandomHeight rand s.rnd_).1 →
        prev[j]? = some (some (lastOr s.head_ (levelOf j pre))) := by
  obtain ⟨pre, post, prev1, hes, hpre, hpost, hfge, -, hp⟩ :=
    findGreaterOrEqual_spec hc hR key fuel hf (some (List.replicate kMaxHeight none))
      (fun p hp => by cases hp; simp)
  obtain ⟨p1, hp1, hl1, hlow, hhigh⟩ := hp _ rfl
  subst hp1
  have hpost1 : ∀ e, e ∈ post → cmp key e.key < 0 := by
    intro e he
    have h1 := hpost e he
    have h2 := hnk e (by rw [hes]; exact List.mem_append_right _ he)
    rw [hc.swap]; omega
  obtain ⟨hh1, hh20⟩ := randomHeight_range rand s.rnd_
  have hdup : insertDup cmp fuel s key = some false := by
    unfold insertDup
    rw [hfge]
    cases hpr : post with
    | nil => rfl
    | cons e0 rest =>
      obtain ⟨-, -, -, nd, hnd, hk, -⟩ := hR.node e0 (by rw [hes, hpr]; simp)
      have h2 := hnk e0 (by rw [hes, hpr]; simp)
      simp only [List.head?_cons, Option.map_some', hnd, Equal, hk]
      rw [decide_eq_false (fun h0 => h2 ((hc.swap_zero _ _).1 h0))]
  have hraise := fun cnt hcnt => raisePrev_spec s.head_ cnt s.cur_height_ p1 hcnt
  refine ⟨pre, post, p1, _, hes, hpre, hpost1, hfge, hdup,
    by unfold insertPrev; rw [hfge], ?_, ?_, ?_⟩
  · intro j hj
    by_cases hch : s.cur_height_ < (RandomHeight rand s.rnd_).1
    · simp only [if_pos hch]
      rw [(hraise _ (by rw [hl1]; omega)).2, if_neg (by omega)]
    · simp only [if_neg hch]
  · intro j hj1 hj2
    have hch : s.cur_height_ < (RandomHeight rand s.rnd_).1 := by omega
    simp only [if_pos hch]
    rw [(hraise _ (by rw [hl1]; omega)).2, if_pos (by omega)]
  · intro j hj
    by_cases hjc : j < s.cur_height_
    · have := hlow j hjc
      by_cases hch : s.cur_height_ < (RandomHeight rand s.rnd_).1
      · simp only [if_pos hch]
        rw [(hraise _ (by rw [hl1]; omega)).2, if_neg (by omega)]
        exact this
      · simp only [if_neg hch]; exact this
    · have hch : s.cur_height_ < (RandomHeight rand s.rnd_).1 := by omega
      simp only [if_pos hch]
      rw [(hraise _ (by rw [hl1]; omega)).2, if_pos (by omega),
        (pred_facts hR pre post hes j (by omega)).2.2 (by omega)]

theorem next_insertAlloc (rand : Nat → Nat) (s : SkipList Key) (key : Key) (x j : Nat)
    (hx : x ≠ s.arena_.length) : Next (insertAlloc rand s key) x j = Next s x j :=
  next_append_node s _ _ _ x j hx

theorem next_insertRaise (rand : Nat → Nat) (s : SkipList Key) (x j : Nat) :
    Next (insertRaise rand s) x j = Next s x j := rfl

theorem insertAlloc_node (rand : Nat → Nat) (s : SkipList Key) (key : Key) :
    (insertAlloc rand s key).arena_[s.arena_.length]?
      = some { key := key, next_ := List.replicate (RandomHeight rand s.rnd_).1 none } := by
  simp [insertAlloc, NewNode, insertRaise]

theorem insertAlloc_old (rand : Nat → Nat) (s : SkipList Key) (key : Key) (y : Nat)
    (nd : Node Key) (hy : s.arena_[y]? = some nd) :
    (insertAlloc rand s key).arena_[y]? = some nd := by
  have hylt : y < s.arena_.length := by
    by_contra hge
    rw [List.getElem?_eq_none (Nat.le_of_not_lt hge)] at hy
    cases hy
  simp only [insertAlloc, NewNode, insertRaise]
  rw [List.getElem?_append_left hylt]; exact hy

/-- The level chains of a state in which the new node is linked at the levels below `c`
and the other links are those of the well-formed state `s`. -/
theorem chain_link {cmp : Key → Key → Int} {s : SkipList Key} {es : List (Entry Key)}
    (hR : WellFormed cmp s es) (pre post : List (Entry Key)) (hes : es = pre ++ post)
    (t : SkipList Key) (key : Key) (c : Nat)
    (hlo : ∀ j, j < c →
      Next t s.arena_.length j = Next s (lastOr s.head_ (levelOf j pre)) j ∧
      Next t (lastOr s.head_ (levelOf j pre)) j = some (some s.arena_.length) ∧
      ∀ x, x ≠ s.arena_.length → x ≠ lastOr s.head_ (levelOf j pre) →
        Next t x j = Next s x j)
    (hhi : ∀ j, c ≤ j → ∀ x, x ≠ s.arena_.length → Next t x j = Next s x j)
    (j : Nat) (hj : j < kMaxHeight) :
    Chain t j s.head_ (levelOf j (pre ++ Entry.mk s.arena_.length key c :: post)) := by
  have hfresh : ∀ e, e ∈ es → e.addr ≠ s.arena_.length := fun e he =>
    Nat.ne_of_lt (hR.addr_lt he)
  have hch := hR.chain j hj
  have hnd := hR.nodup_level j
  rw [hes, levelOf_append] at hch hnd
  have hnotin : s.arena_.length ∉ s.head_ :: (levelOf j pre ++ levelOf j post) := by
    intro hm
    rcases List.mem_cons.1 hm with hm | hm
    · exact Nat.ne_of_lt hR.head_lt hm.symm
    · rw [← levelOf_append, ← hes] at hm
      obtain ⟨e, he, hea, -⟩ := levelOf_mem hm
      exact hfresh e he hea
  rw [levelOf_append, levelOf_cons]
  by_cases hjh : j < c
  · rw [if_pos hjh]
    obtain ⟨a, b, c⟩ := hlo j hjh
    exact chain_insert _ _ _ hch hnd hnotin a b c
  · rw [if_neg hjh]
    refine chain_congr _ _ ?_ hch
    intro x hx
    refine hhi j (by omega) x ?_
    rintro rfl
    exact hnotin hx

/-- The linking loop of `Insert` run for the first `c` levels only: it succeeds and
changes exactly the links of the new node and of the predecessors at these levels. -/
theorem insert_partial {cmp : Key → Key → Int} {s : SkipList Key} {es : List (Entry Key)}
    (hR : WellFormed cmp s es) (pre post : List (Entry Key)) (hes : es = pre ++ post)
    (rand : Nat → Nat) (key : Key) (prev : List Ptr)
    (hprev : ∀ j, j < (RandomHeight rand s.rnd_).1 →
      prev[j]? = some (some (lastOr s.head_ (levelOf j pre))))
    (c : Nat) (hc : c ≤ (RandomHeight rand s.rnd_).1) :
    ∃ t, linkLevels prev s.arena_.length c 0 (insertAlloc rand s key) = some t ∧
      SameShape (insertAlloc rand s key) t ∧
      (∀ j, j < c →
        Next t s.arena_.length j = Next s (lastOr s.head_ (levelOf j pre)) j ∧
        Next t (lastOr s.head_ (levelOf j pre)) j = some (some s.arena_.length) ∧
        ∀ x, x ≠ s.arena_.length → x ≠ lastOr s.head_ (levelOf j pre) →
          Next t x j = Next s x j) ∧
      (∀ j, c ≤ j → ∀ x, x ≠ s.arena_.length → Next t x j = Next s x j) ∧
      ∀ j, c ≤ j → Next t s.arena_.length j = none := by
  obtain ⟨-, hh20⟩ := randomHeight_range rand s.rnd_
  obtain ⟨t, hlink, hshape, hnext⟩ := linkLevels_spec prev s.arena_.length
    (fun j => lastOr s.head_ (levelOf j pre)) c 0 (insertAlloc rand s key) _
    (insertAlloc_node rand s key) (by simp only [List.length_replicate]; omega)
    (fun j _ hj => by
      have hp := pred_facts hR pre post hes j (by omega)
      refine ⟨hprev j (by omega), hp.1, (levelOf j post).head?, ?_⟩
      show Next _ (lastOr s.head_ (levelOf j pre)) j = _
      rw [next_insertAlloc _ _ _ _ _ hp.1]
      exact hp.2.1)
  refine ⟨t, hlink, hshape, ?_, ?_, ?_⟩
  · intro j hj
    have hne := (pred_facts hR pre post hes j (by omega)).1
    have hr : 0 ≤ j ∧ j < 0 + c := by omega
    refine ⟨?_, ?_, ?_⟩
    · rw [hnext, if_pos hr, if_pos rfl, next_insertAlloc _ _ _ _ _ hne]
    · rw [hnext, if_pos hr, if_neg hne, if_pos rfl]
    · intro x hx hxp
      rw [hnext, if_pos hr, if_neg hx, if_neg hxp, next_insertAlloc _ _ _ _ _ hx]
  · intro j hj x hx
    have hr : ¬ (0 ≤ j ∧ j < 0 + c) := by omega
    rw [hnext, if_neg hr, next_insertAlloc _ _ _ _ _ hx]
  · intro j hj
    have hr : ¬ (0 ≤ j ∧ j < 0 + c) := by omega
    rw [hnext, if_neg hr, next_of_node (insertAlloc_node rand s key)]
    simp only [List.getElem?_replicate]
    split_ifs <;> rfl

/-- The states of the trace of the linking loop are the results of its partial runs and
the state between the two stores of each level. -/
theorem linkTrace_get (prev : List Ptr) (new_node : Nat) :
    ∀ (cnt i : Nat) (t : SkipList Key) (tr : List (SkipList Key)),
      linkTrace prev new_node cnt i t = some tr →
      tr.length = 2 * cnt ∧ ∀ m, m < cnt →
        ∃ T p nx u v, linkLevels prev new_node m i t = some T ∧
          prev[i + m]? = some (some p) ∧ Next T p (i + m) = some nx ∧
          SetNext T new_node (i + m) nx = some u ∧
          SetNext u p (i + m) (some new_node) = some v ∧
          linkLevels prev new_node (m + 1) i t = some v ∧
          tr[2 * m]? = some u ∧ tr[2 * m + 1]? = some v
  | 0, _, _, tr, h => by
    simp only [linkTrace, Option.some.injEq] at h
    subst h
    exact ⟨rfl, fun m hm => absurd hm (Nat.not_lt_zero m)⟩
  | cnt + 1, i, t, tr, h => by
    unfold linkTrace at h
    cases hp : prev[i]? with
    | none => rw [hp] at h; cases h
    | some p =>
      cases p with
      | none => rw [hp] at h; cases h
      | some p =>
        rw [hp] at h
        simp only [] at h
        cases hn : NoBarrier_Next t p i with
        | none => rw [hn] at h; cases h
        | some nx =>
          rw [hn] at h
          simp only [] at h
          cases h1 : NoBarrier_SetNext t new_node i nx with
          | none => rw [h1] at h; cases h
          | some s1 =>
            rw [h1] at h
            simp only [] at h
            cases h2 : SetNext s1 p i (some new_node) with
            | none => rw [h2] at h; cases h
            | some s2 =>
              rw [h2] at h
              simp only [] at h
              cases h3 : linkTrace prev new_node cnt (i + 1) s2 with
              | none => rw [h3] at h; cases h
              | some tr1 =>
                rw [h3] at h
                simp only [Option.map_some', Option.some.injEq] at h
                subst h
                obtain ⟨hlen, hget⟩ := linkTrace_get prev new_node cnt (i + 1) s2 tr1 h3
                have hstep : ∀ m, linkLevels prev new_node (m + 1) i t
                    = linkLevels prev new_node m (i + 1) s2 := by
                  intro m
                  simp only [linkLevels, hp, hn, h1, h2]
                refine ⟨by simp only [List.length_cons, hlen]; omega, ?_⟩
                intro m hm
                cases m with
                | zero =>
                  refine ⟨t, p, nx, s1, s2, rfl, hp, hn, h1, h2, ?_, by simp, by simp⟩
                  rw [hstep]; rfl
                | succ m =>
                  obtain ⟨T, p1, nx1, u, v, a1, a2, a3, a4, a5, a6, a7, a8⟩ :=
                    hget m (by omega)
                  have hidx : i + (m + 1) = i + 1 + m := by omega
                  refine ⟨T, p1, nx1, u, v, ?_, ?_, ?_, ?_, ?_, ?_, ?_, ?_⟩
                  · rw [hstep]; exact a1
                  · rw [hidx]; exact a2
                  · rw [hidx]; exact a3
                  · rw [hidx]; exact a4
                  · rw [hidx]; exact a5
                  · rw [hstep]; exact a6
                  · have : 2 * (m + 1) = 2 * m + 1 + 1 := by omega
                    rw [this, List.getElem?_cons_succ, List.getElem?_cons_succ]
                    exact a7
                  · have : 2 * (m + 1) + 1 = 2 * m + 1 + 1 + 1 := by omega
                    rw [this, List.getElem?_cons_succ, List.getElem?_cons_succ]
                    exact a8

/-- What a traversal sees in a state where the new node is linked at some levels only:
at level 0 the old keys, with the new key at its place once level 0 is linked, and at
every level a chain with ascending keys that ends at `nullptr`. -/
theorem observe_linked {cmp : Key → Key → Int} {s : SkipList Key} {es : List (Entry Key)}
    (hR : WellFormed cmp s es) (pre post : List (Entry Key)) (hes : es = pre ++ post)
    (key : Key) (hpre : ∀ e, e ∈ pre → cmp e.key key < 0)
    (hpost : ∀ e, e ∈ post → cmp key e.key < 0) (t : SkipList Key) (c : Nat)
    (hL : LinkedBelow s t (fun j => lastOr s.head_ (levelOf j pre)) key c)
    (fuel : Nat) (hf : es.length + 1 < fuel) :
    (∃ ks, traverse fuel t = some ks ∧
      (ks = es.map (fun e => e.key) ∨
        ∃ a b, es.map (fun e => e.key) = a ++ b ∧ ks = a ++ key :: b)) ∧
    ∀ i, i < kMaxHeight →
      ∃ l ks, walkAt t i fuel t.head_ = some l ∧ keysOf t l = some ks ∧
        ks.Pairwise (fun a b => cmp a b < 0) := by
  obtain ⟨hhead, hold, hnew, hlo, hhi⟩ := hL
  have hch := chain_link hR pre post hes t key c hlo hhi
  have hnold : ∀ e, e ∈ es → ∃ nd, t.arena_[e.addr]? = some nd ∧ nd.key = e.key := by
    intro e he
    obtain ⟨-, -, -, nd, h1, h2, -⟩ := hR.node e he
    obtain ⟨nd1, h3, h4⟩ := hold _ _ h1
    exact ⟨nd1, h3, h4.trans h2⟩
  have h020 : 0 < kMaxHeight := by unfold kMaxHeight; omega
  by_cases hc0 : c = 0
  · subst hc0
    have hlev : ∀ j, levelOf j (pre ++ Entry.mk s.arena_.length key 0 :: post)
        = levelOf j es := by
      intro j
      rw [hes, levelOf_append, levelOf_cons, if_neg (Nat.not_lt_zero _), levelOf_append]
    have hch1 : ∀ i, i < kMaxHeight → Chain t i t.head_ (levelOf i es) := by
      intro i hi
      rw [hhead, ← hlev]; exact hch i hi
    refine ⟨⟨es.map (fun e => e.key), ?_, Or.inl rfl⟩, fun i hi => ?_⟩
    · have h0 := hch1 0 h020
      rw [levelOf_zero hR.heights] at h0
      unfold traverse
      rw [walk_eq_walkAt, walkAt_of_chain t 0 _ fuel _ h0 (by simp only [List.length_map]; omega)]
      exact keysOf_of_nodes hnold es (fun _ h => h)
    · obtain ⟨l, ks, h1, h2, h3, -⟩ :=
        observe_levels hnold hR.sorted hch1 fuel (by omega) i hi
      exact ⟨l, ks, h1, h2, h3⟩
  · have hc1 : 1 ≤ c := by omega
    have hn1 : ∀ e, e ∈ pre ++ Entry.mk s.arena_.length key c :: post →
        ∃ nd, t.arena_[e.addr]? = some nd ∧ nd.key = e.key := by
      intro e he
      rcases List.mem_append.1 he with hm | hm
      · exact hnold e (by rw [hes]; exact List.mem_append_left _ hm)
      · rcases List.mem_cons.1 hm with hm | hm
        · subst hm
          exact hnew hc1
        · exact hnold e (by rw [hes]; exact List.mem_append_right _ hm)
    have hs1 : (pre ++ Entry.mk s.arena_.length key c :: post).Pairwise
        (fun a b => cmp a.key b.key < 0) := by
      have hs := hR.sorted
      rw [hes, List.pairwise_append] at hs
      rw [List.pairwise_append, List.pairwise_cons]
      refine ⟨hs.1, ⟨fun e he => hpost e he, hs.2.1⟩, ?_⟩
      intro a ha b hb
      rcases List.mem_cons.1 hb with hb | hb
      · rw [hb]; exact hpre a ha
      · exact hs.2.2 a ha b hb
    have hh1 : ∀ e, e ∈ pre ++ Entry.mk s.arena_.length key c :: post → 1 ≤ e.height := by
      intro e he
      rcases List.mem_append.1 he with hm | hm
      · exact hR.heights e (by rw [hes]; exact List.mem_append_left _ hm)
      · rcases List.mem_cons.1 hm with hm | hm
        · subst hm; exact hc1
        · exact hR.heights e (by rw [hes]; exact List.mem_append_right _ hm)
    have hch1 : ∀ i, i < kMaxHeight →
        Chain t i t.head_ (levelOf i (pre ++ Entry.mk s.arena_.length key c :: post)) := by
      intro i hi
      rw [hhead]; exact hch i hi
    have hlen : (pre ++ Entry.mk s.arena_.length key c :: post).length < fuel := by
      rw [hes, List.length_append] at hf
      simp only [List.length_append, List.length_cons]
      omega
    refine ⟨⟨(pre ++ Entry.mk s.arena_.length key c :: post).map (fun e => e.key), ?_,
      Or.inr ⟨pre.map (fun e => e.key), post.map (fun e => e.key), ?_, ?_⟩⟩, fun i hi => ?_⟩
    · have h0 := hch1 0 h020
      rw [levelOf_zero hh1] at h0
      unfold traverse
      rw [walk_eq_walkAt, walkAt_of_chain t 0 _ fuel _ h0 (by simpa using hlen)]
      exact keysOf_of_nodes hn1 _ (fun _ h => h)
    · rw [hes, List.map_append]
    · simp only [List.map_append, List.map_cons]
    · obtain ⟨l, ks, h1, h2, h3, -⟩ := observe_levels hn1 hs1 hch1 fuel hlen i hi
      exact ⟨l, ks, h1, h2, h3⟩

/-- The state after the first `c` levels of the linking loop. -/
theorem partial_linked {cmp : Key → Key → Int} {s : SkipList Key} {es : List (Entry Key)}
    (hR : WellFormed cmp s es) (pre post : List (Entry Key)) (hes : es = pre ++ post)
    (rand : Nat → Nat) (key : Key) (prev : List Ptr)
    (hprev : ∀ j, j < (RandomHeight rand s.rnd_).1 →
      prev[j]? = some (some (lastOr s.head_ (levelOf j pre))))
    (c : Nat) (hc : c ≤ (RandomHeight rand s.rnd_).1) :
    ∃ t, linkLevels prev s.arena_.length c 0 (insertAlloc rand s key) = some t ∧
      SameShape (insertAlloc rand s key) t ∧
      LinkedBelow s t (fun j => lastOr s.head_ (levelOf j pre)) key c ∧
      ∀ j, c ≤ j → Next t s.arena_.length j = none := by
  obtain ⟨t, h1, h2, h3, h4, h5⟩ := insert_partial hR pre post hes rand key prev hprev c hc
  refine ⟨t, h1, h2, ⟨h2.1, ?_, ?_, h3, h4⟩, h5⟩
  · intro y nd hy
    obtain ⟨nd1, a, b, -⟩ := h2.2.2.2 y nd (insertAlloc_old rand s key y nd hy)
    exact ⟨nd1, a, b⟩
  · intro _
    obtain ⟨nd1, a, b, -⟩ := h2.2.2.2 _ _ (insertAlloc_node rand s key)
    exact ⟨nd1, a, b⟩

/-- The two stores of level `m` of the linking loop, seen in its trace. -/
theorem trace_step {cmp : Key → Key → Int} {s : SkipList Key} {es : List (Entry Key)}
    (hR : WellFormed cmp s es) (pre post : List (Entry Key)) (hes : es = pre ++ post)
    (rand : Nat → Nat) (key : Key) (prev : List Ptr)
    (hprev : ∀ j, j < (RandomHeight rand s.rnd_).1 →
      prev[j]? = some (some (lastOr s.head_ (levelOf j pre))))
    (ltr : List (SkipList Key))
    (htr : linkTrace prev s.arena_.length (RandomHeight rand s.rnd_).1 0
      (insertAlloc rand s key) = some ltr)
    (m : Nat) (hm : m < (RandomHeight rand s.rnd_).1) :
    ∃ T u v nx, ltr[2 * m]? = some u ∧ ltr[2 * m + 1]? = some v ∧
      linkLevels prev s.arena_.length m 0 (insertAlloc rand s key) = some T ∧
      linkLevels prev s.arena_.length (m + 1) 0 (insertAlloc rand s key) = some v ∧
      Next s (lastOr s.head_ (levelOf m pre)) m = some nx ∧
      LinkedBelow s T (fun j => lastOr s.head_ (levelOf j pre)) key m ∧
      Next T s.arena_.length m = none ∧
      SameShape T u ∧
      (∀ y j, Next u y j = if y = s.arena_.length ∧ j = m then some nx else Next T y j) ∧
      ∀ y j, Next v y j =
        if y = lastOr s.head_ (levelOf m pre) ∧ j = m then some (some s.arena_.length)
        else Next u y j := by
  obtain ⟨-, hh20⟩ := randomHeight_range rand s.rnd_
  obtain ⟨-, hget⟩ := linkTrace_get prev s.arena_.length _ 0 _ ltr htr
  obtain ⟨T, p, nx, u, v, a1, a2, a3, a4, a5, a6, a7, a8⟩ := hget m hm
  rw [Nat.zero_add] at a2 a3 a4 a5
  obtain ⟨T1, b1, b2, b3, b4⟩ := partial_linked hR pre post hes rand key prev hprev m
    (Nat.le_of_lt hm)
  rw [a1] at b1
  cases b1
  have hpeq : p = lastOr s.head_ (levelOf m pre) := by
    have hpi := hprev m hm
    rw [a2] at hpi
    simpa using hpi
  subst hpeq
  have hne := (pred_facts hR pre post hes m (by omega)).1
  have hTp : Next T (lastOr s.head_ (levelOf m pre)) m
      = Next s (lastOr s.head_ (levelOf m pre)) m := b3.2.2.2.2 m (Nat.le_refl _) _ hne
  obtain ⟨nn, hnn, -, hnl⟩ := b2.2.2.2 _ _ (insertAlloc_node rand s key)
  obtain ⟨u1, hu1, hsu, hnu⟩ := setNext_spec nx hnn
    (show m < nn.next_.length by rw [hnl, List.length_replicate]; exact hm)
  have hu : u1 = u := by
    have := hu1.symm.trans a4
    simpa using this
  subst hu
  have hup : Next u1 (lastOr s.head_ (levelOf m pre)) m = some nx := by
    rw [hnu, if_neg (fun h => hne h.1)]
    exact a3
  obtain ⟨pn, hpn, hpl⟩ := node_of_next hup
  obtain ⟨v1, hv1, -, hnv⟩ := setNext_spec (some s.arena_.length) hpn hpl
  have hv : v1 = v := by
    have := hv1.symm.trans a5
    simpa using this
  subst hv
  exact ⟨T, u1, v1, nx, a7, a8, a1, a6, by rw [← hTp]; exact a3, b3,
    b4 m (Nat.le_refl _), hsu, hnu, hnv⟩

/-- Every state of the trace of `Insert` is the old state with the new node linked at
the levels below some `c`. -/
theorem trace_linked {cmp : Key → Key → Int} {s : SkipList Key} {es : List (Entry Key)}
    (hR : WellFormed cmp s es) (pre post : List (Entry Key)) (hes : es = pre ++ post)
    (rand : Nat → Nat) (key : Key) (prev : List Ptr)
    (hprev : ∀ j, j < (RandomHeight rand s.rnd_).1 →
      prev[j]? = some (some (lastOr s.head_ (levelOf j pre))))
    (ltr : List (SkipList Key))
    (htr : linkTrace prev s.arena_.length (RandomHeight rand s.rnd_).1 0
      (insertAlloc rand s key) = some ltr)
    (t : SkipList Key) (ht : t ∈ insertRaise rand s :: insertAlloc rand s key :: ltr) :
    ∃ c, LinkedBelow s t (fun j => lastOr s.head_ (levelOf j pre)) key c := by
  obtain ⟨-, hh20⟩ := randomHeight_range rand s.rnd_
  rcases List.mem_cons.1 ht with ht | ht
  · subst ht
    exact ⟨0, rfl, fun y nd h => ⟨nd, h, rfl⟩, fun h => absurd h (by omega),
      fun j hj => absurd hj (Nat.not_lt_zero j), fun j _ x _ => rfl⟩
  rcases List.mem_cons.1 ht with ht | ht
  · subst ht
    exact ⟨0, rfl, fun y nd h => ⟨nd, insertAlloc_old rand s key y nd h, rfl⟩,
      fun h => absurd h (by omega), fun j hj => absurd hj (Nat.not_lt_zero j),
      fun j _ x hx => next_insertAlloc rand s key x j hx⟩
  obtain ⟨hlen, -⟩ := linkTrace_get prev s.arena_.length _ 0 _ ltr htr
  obtain ⟨n, hn, hnt⟩ := List.mem_iff_getElem.1 ht
  have hnt1 : ltr[n]? = some t := by rw [List.getElem?_eq_getElem hn, hnt]
  have hm : n / 2 < (RandomHeight rand s.rnd_).1 := by omega
  obtain ⟨T, u, v, nx, c1, c2, c3, c4, c5, c6, c7, c8, c9, c10⟩ :=
    trace_step hR pre post hes rand key prev hprev ltr htr (n / 2) hm
  rcases Nat.mod_two_eq_zero_or_one n with hpar | hpar
  · have hn2 : 2 * (n / 2) = n := by omega
    rw [hn2, hnt1] at c1
    cases c1
    obtain ⟨d1, d2, d3, d4, d5⟩ := c6
    refine ⟨n / 2, c8.1.trans d1, ?_, ?_, ?_, ?_⟩
    · intro y nd hy
      obtain ⟨nd1, e1, e2⟩ := d2 y nd hy
      obtain ⟨nd2, e3, e4, -⟩ := c8.2.2.2 y nd1 e1
      exact ⟨nd2, e3, e4.trans e2⟩
    · intro h1
      obtain ⟨nd1, e1, e2⟩ := d3 h1
      obtain ⟨nd2, e3, e4, -⟩ := c8.2.2.2 _ nd1 e1
      exact ⟨nd2, e3, e4.trans e2⟩
    · intro j hj
      have hjm : ¬ j = n / 2 := by omega
      obtain ⟨f1, f2, f3⟩ := d4 j hj
      refine ⟨?_, ?_, ?_⟩
      · rw [c9, if_neg (fun h => hjm h.2)]; exact f1
      · rw [c9, if_neg (fun h => hjm h.2)]; exact f2
      · intro x hx hxp
        rw [c9, if_neg (fun h => hjm h.2)]; exact f3 x hx hxp
    · intro j hj x hx
      rw [c9, if_neg (fun h => hx h.1)]
      exact d5 j hj x hx
  · have hn2 : 2 * (n / 2) + 1 = n := by omega
    rw [hn2, hnt1] at c2
    cases c2
    obtain ⟨t1, g1, -, g3, -⟩ := partial_linked hR pre post hes rand key prev hprev
      (n / 2 + 1) (by omega)
    rw [c4] at g1
    cases g1
    exact ⟨n / 2 + 1, g3⟩

/-- C17 (predecessors of `FindGreaterOrEqual`): on a well-formed list with height counter
`h`, `FindGreaterOrEqual(key, prev)` returns; for every level `i < h` the chain of level
`i` splits into the nodes with keys below `key` and the nodes with keys not below it,
`prev[i]` is the last node of the first part (the head when that part is empty) and its
level-`i` link is the first node of the second part or `nullptr`; the entries of `prev`
from `h` on are left as they were; the node returned is the level-0 successor of
`prev[0]`. -/
theorem findGreaterOrEqual_predecessors {cmp : Key → Key → Int} (hc : StrictTotalCmp cmp)
    {s : SkipList Key} {es : List (Entry Key)} (hR : WellFormed cmp s es) (key : Key)
    (fuel : Nat) (hf : es.length + s.cur_height_ ≤ fuel) (prev0 : List Ptr)
    (hp0 : prev0.length = kMaxHeight) :
    ∃ node prev, FindGreaterOrEqual cmp fuel s key (some prev0) = some (node, some prev) ∧
      prev.length = kMaxHeight ∧
      (∀ i, s.cur_height_ ≤ i → prev[i]? = prev0[i]?) ∧
      (∀ i, i < s.cur_height_ →
        ∃ A B kA kB, walkAt s i fuel s.head_ = some (A ++ B) ∧
          keysOf s A = some kA ∧ keysOf s B = some kB ∧
          (∀ k, k ∈ kA → cmp k key < 0) ∧ (∀ k, k ∈ kB → 0 ≤ cmp k key) ∧
          prev[i]? = some (some (lastOr s.head_ A)) ∧
          Next s (lastOr s.head_ A) i = some (B.head?) ∧ (i = 0 → node = B.head?)) ∧
      ∃ p, prev[0]? = some (some p) ∧ Next s p 0 = some node := by
  obtain ⟨pre, post, prev1, hes, hpre, hpost, hfge, -, hp⟩ :=
    findGreaterOrEqual_spec hc hR key fuel hf (some prev0)
      (fun p hp => by cases hp; exact hp0)
  obtain ⟨p1, hp1, hl1, hlow, hhigh⟩ := hp _ rfl
  subst hp1
  have hnode : ∀ e, e ∈ es → ∃ nd, s.arena_[e.addr]? = some nd ∧ nd.key = e.key := by
    intro e he
    obtain ⟨-, -, -, nd, h1, h2, -⟩ := hR.node e he
    exact ⟨nd, h1, h2⟩
  have hzero : (levelOf 0 post).head? = (post.head?).map (fun e => e.addr) := by
    rw [levelOf_zero (fun e he => hR.heights e (by rw [hes]; exact List.mem_append_right _ he))]
    cases post <;> rfl
  have hkmax := hR.height_le
  have hlevel : ∀ i, i < s.cur_height_ →
      walkAt s i fuel s.head_ = some (levelOf i pre ++ levelOf i post) ∧
      Next s (lastOr s.head_ (levelOf i pre)) i = some ((levelOf i post).head?) := by
    intro i hi
    have hch := hR.chain i (by omega)
    rw [hes, levelOf_append] at hch
    refine ⟨walkAt_of_chain s i _ fuel _ hch ?_, chain_next _ _ _ hch⟩
    have hl : (levelOf i pre ++ levelOf i post).length ≤ es.length := by
      rw [← levelOf_append, ← hes]
      simpa using (levelOf_sublist i es).length_le
    have := hR.height_pos
    omega
  refine ⟨_, p1, hfge, hl1, hhigh, ?_, ?_⟩
  · intro i hi
    refine ⟨levelOf i pre, levelOf i post,
      (pre.filter (fun e => decide (i < e.height))).map (fun e => e.key),
      (post.filter (fun e => decide (i < e.height))).map (fun e => e.key),
      (hlevel i hi).1, ?_, ?_, ?_, ?_, hlow i hi, (hlevel i hi).2, ?_⟩
    · exact keysOf_of_nodes hnode _ (fun e he => by
        rw [hes]; exact List.mem_append_left _ (List.mem_filter.1 he).1)
    · exact keysOf_of_nodes hnode _ (fun e he => by
        rw [hes]; exact List.mem_append_right _ (List.mem_filter.1 he).1)
    · intro k hk
      obtain ⟨e, he, rfl⟩ := List.mem_map.1 hk
      exact hpre e (List.mem_filter.1 he).1
    · intro k hk
      obtain ⟨e, he, rfl⟩ := List.mem_map.1 hk
      exact hpost e (List.mem_filter.1 he).1
    · intro h0
      subst h0
      exact hzero.symm
  · refine ⟨_, hlow 0 hR.height_pos, ?_⟩
    rw [(hlevel 0 hR.height_pos).2, hzero]

/-- Witness of C17: the search for 4 in the list built from 5, 1, 9, 3, 7. -/
theorem findGreaterOrEqual_predecessors_witness :
    ∃ s es, insertAll intCmp (fun n => 4 * n + (n / 3) % 2) 30 (SkipList.new 0) [5, 1, 9, 3, 7]
        = some s ∧ WellFormed intCmp s es ∧ es.length + s.cur_height_ ≤ 30 ∧
      ∃ node prev, FindGreaterOrEqual intCmp 30 s 4 (some (List.replicate kMaxHeight none))
          = some (node, some prev) ∧
        prev.length = kMaxHeight ∧
        (∀ i, s.cur_height_ ≤ i → prev[i]? = (List.replicate kMaxHeight none)[i]?) ∧
        (∀ i, i < s.cur_height_ →
          ∃ A B kA kB, walkAt s i 30 s.head_ = some (A ++ B) ∧
            keysOf s A = some kA ∧ keysOf s B = some kB ∧
            (∀ k, k ∈ kA → intCmp k 4 < 0) ∧ (∀ k, k ∈ kB → 0 ≤ intCmp k 4) ∧
            prev[i]? = some (some (lastOr s.head_ A)) ∧
            Next s (lastOr s.head_ A) i = some (B.head?) ∧ (i = 0 → node = B.head?)) ∧
        ∃ p, prev[0]? = some (some p) ∧ Next s p 0 = some node := by
  obtain ⟨s, es, hs, hR, hlen, -⟩ :=
    built intCmp_strict (fun n => 4 * n + (n / 3) % 2) 30 0 [5, 1, 9, 3, 7] (by decide)
  have hf : es.length + s.cur_height_ ≤ 30 := built_fuel hR hlen (by decide)
  exact ⟨s, es, hs, hR, hf,
    findGreaterOrEqual_predecessors intCmp_strict hR 4 30 hf _ (List.length_replicate _ _)⟩

/-- C20 (no null predecessor): on every list reached by inserts, for every key that is
not stored and every drawn height `h` (it lies in `[1, 20]`), each `prev[i]` with `i < h`
is a node: the one recorded by `FindGreaterOrEqual` for `i` below the height counter, the
head from the counter up; the node exists with a level-`i` slot, and in the state that the
linking loop has reached at level `i` the read of its link and both stores succeed. -/
theorem insert_prev_non_null {cmp : Key → Key → Int} (hc : StrictTotalCmp cmp)
    (rand : Nat → Nat) (fuel : Nat) (key0 : Key) (keys : List Key) (k : Key)
    (hf : keys.length + kMaxHeight ≤ fuel) (hnew : ∀ k1, k1 ∈ keys → cmp k1 k ≠ 0) :
    ∃ s node prev0 prev s1,
      insertAll cmp rand fuel (SkipList.new key0) keys = some s ∧
      FindGreaterOrEqual cmp fuel s k (some (List.replicate kMaxHeight none))
        = some (node, some prev0) ∧
      insertPrev cmp rand fuel s k = some prev ∧
      1 ≤ (RandomHeight rand s.rnd_).1 ∧ (RandomHeight rand s.rnd_).1 ≤ kMaxHeight ∧
      Insert cmp rand fuel s k
        = linkLevels prev s.arena_.length (RandomHeight rand s.rnd_).1 0
            (insertAlloc rand s k) ∧
      Insert cmp rand fuel s k = some s1 ∧
      ∀ i, i < (RandomHeight rand s.rnd_).1 →
        ∃ p nd T nx u v, prev[i]? = some (some p) ∧
          (i < s.cur_height_ → prev0[i]? = some (some p)) ∧
          (s.cur_height_ ≤ i → p = s.head_) ∧
          s.arena_[p]? = some nd ∧ i < nd.next_.length ∧
          linkLevels prev s.arena_.length i 0 (insertAlloc rand s k) = some T ∧
          NoBarrier_Next T p i = some nx ∧
          NoBarrier_SetNext T s.arena_.length i nx = some u ∧
          SetNext u p i (some s.arena_.length) = some v := by
  obtain ⟨s, es, hins, hR, hlen, hmem⟩ := built hc rand fuel key0 keys hf
  have hnk : ∀ e, e ∈ es → cmp e.key k ≠ 0 := fun e he =>
    hnew e.key (entry_mem_keys hmem he)
  obtain ⟨pre, post, p1, prev, hes, hpre, hpost, hfge, hdup, hprev, hlow, hhigh, hP⟩ :=
    insert_prep hc hR rand k fuel (built_fuel hR hlen hf) hnk
  obtain ⟨hh1, hh20⟩ := randomHeight_range rand s.rnd_
  obtain ⟨s1, hlink, -⟩ := insert_partial hR pre post hes rand k prev hP _ (Nat.le_refl _)
  have heq : Insert cmp rand fuel s k
      = linkLevels prev s.arena_.length (RandomHeight rand s.rnd_).1 0
          (insertAlloc rand s k) := by
    rw [insert_eq_steps, hdup, hprev]
  obtain ⟨tr, htr⟩ : ∃ tr, linkTrace prev s.arena_.length (RandomHeight rand s.rnd_).1 0
      (insertAlloc rand s k) = some tr := by
    have h := hlink
    rw [linkLevels_eq_trace] at h
    cases htr : linkTrace prev s.arena_.length (RandomHeight rand s.rnd_).1 0
        (insertAlloc rand s k) with
    | none => rw [htr] at h; cases h
    | some tr => exact ⟨tr, rfl⟩
  obtain ⟨-, hget⟩ := linkTrace_get prev s.arena_.length _ 0 _ tr htr
  refine ⟨s, _, p1, prev, s1, hins, hfge, hprev, hh1, hh20, heq, heq.trans hlink, ?_⟩
  intro i hi
  obtain ⟨T, p, nx, u, v, a1, a2, a3, a4, a5, -, -, -⟩ := hget i hi
  rw [Nat.zero_add] at a2 a3 a4 a5
  have hpi := hP i hi
  have hpeq : p = lastOr s.head_ (levelOf i pre) := by
    rw [a2] at hpi
    simpa using hpi
  have hp := pred_facts hR pre post hes i (by omega)
  obtain ⟨nd, hnd, hslot⟩ := node_of_next hp.2.1
  refine ⟨p, nd, T, nx, u, v, a2, ?_, ?_, ?_, hslot, a1, a3, a4, a5⟩
  · intro hic
    rw [← hlow i hic]; exact a2
  · intro hci
    rw [hpeq]; exact hp.2.2 hci
  · rw [hpeq]; exact hnd

/-- Witness of C20: the predecessors of the new key 4 in the list built from 5, 1, 9, 3,
7. -/
theorem insert_prev_non_null_witness :
    ∃ s node prev0 prev s1,
      insertAll intCmp (fun n => 4 * n + (n / 3) % 2) 30 (SkipList.new 0) [5, 1, 9, 3, 7]
        = some s ∧
      FindGreaterOrEqual intCmp 30 s 4 (some (List.replicate kMaxHeight none))
        = some (node, some prev0) ∧
      insertPrev intCmp (fun n => 4 * n + (n / 3) % 2) 30 s 4 = some prev ∧
      1 ≤ (RandomHeight (fun n => 4 * n + (n / 3) % 2) s.rnd_).1 ∧
      (RandomHeight (fun n => 4 * n + (n / 3) % 2) s.rnd_).1 ≤ kMaxHeight ∧
      Insert intCmp (fun n => 4 * n + (n / 3) % 2) 30 s 4
        = linkLevels prev s.arena_.length (RandomHeight (fun n => 4 * n + (n / 3) % 2) s.rnd_).1
            0 (insertAlloc (fun n => 4 * n + (n / 3) % 2) s 4) ∧
      Insert intCmp (fun n => 4 * n + (n / 3) % 2) 30 s 4 = some s1 ∧
      ∀ i, i < (RandomHeight (fun n => 4 * n + (n / 3) % 2) s.rnd_).1 →
        ∃ p nd T nx u v, prev[i]? = some (some p) ∧
          (i < s.cur_height_ → prev0[i]? = some (some p)) ∧
          (s.cur_height_ ≤ i → p = s.head_) ∧
          s.arena_[p]? = some nd ∧ i < nd.next_.length ∧
          linkLevels prev s.arena_.length i 0
            (insertAlloc (fun n => 4 * n + (n / 3) % 2) s 4) = some T ∧
          NoBarrier_Next T p i = some nx ∧
          NoBarrier_SetNext T s.arena_.length i nx = some u ∧
          SetNext u p i (some s.arena_.length) = some v :=
  insert_prev_non_null intCmp_strict (fun n => 4 * n + (n / 3) % 2) 30 0 [5, 1, 9, 3, 7] 4
    (by decide) (by decide)

theorem maxHeight_insert (e : Entry Key) (post : List (Entry Key)) :
    ∀ pre : List (Entry Key),
      ((pre ++ e :: post).map (fun a => a.height)).foldr max 1
        = max e.height (((pre ++ post).map (fun a => a.height)).foldr max 1)
  | [] => rfl
  | a :: pre => by
    have ih := maxHeight_insert e post pre
    simp only [List.cons_append, List.map_cons, List.foldr_cons] at ih ⊢
    rw [ih]
    omega

/-- The height counter after `Insert` of a key that is not stored: the greater of the
old counter and the drawn height. -/
theorem insert_new_height {cmp : Key → Key → Int} (hc : StrictTotalCmp cmp) {s : SkipList Key}
    {es : List (Entry Key)} (hR : WellFormed cmp s es) (rand : Nat → Nat) (key : Key)
    (fuel : Nat) (hf : es.length + s.cur_height_ ≤ fuel)
    (hnk : ∀ e, e ∈ es → cmp e.key key ≠ 0) (s1 : SkipList Key)
    (hins : Insert cmp rand fuel s key = some s1) :
    s1.cur_height_ = max s.cur_height_ (RandomHeight rand s.rnd_).1 := by
  obtain ⟨pre, post, p1, prev, hes, -, -, -, hdup, hprev, -, -, hP⟩ :=
    insert_prep hc hR rand key fuel hf hnk
  obtain ⟨t, hlink, hshape, -⟩ := insert_partial hR pre post hes rand key prev hP _
    (Nat.le_refl _)
  rw [insert_eq_steps, hdup, hprev] at hins
  simp only [] at hins
  rw [hlink] at hins
  cases hins
  rw [hshape.2.1]
  show (if s.cur_height_ < (RandomHeight rand s.rnd_).1 then (RandomHeight rand s.rnd_).1
    else s.cur_height_) = _
  split_ifs <;> omega

/-- A run of inserts keeps the height counter equal to the greatest height of an entry,
and to 1 when there is none. -/
theorem insertAll_height {cmp : Key → Key → Int} (hc : StrictTotalCmp cmp) (rand : Nat → Nat)
    (fuel : Nat) :
    ∀ (keys : List Key) (s : SkipList Key) (es : List (Entry Key)), WellFormed cmp s es →
      s.cur_height_ = (es.map (fun a => a.height)).foldr max 1 →
      es.length + keys.length + kMaxHeight ≤ fuel →
      ∃ s1 es1, insertAll cmp rand fuel s keys = some s1 ∧ WellFormed cmp s1 es1 ∧
        s1.cur_height_ = (es1.map (fun a => a.height)).foldr max 1 ∧
        es1.length ≤ es.length + keys.length
  | [], s, es, hR, hh, _ => ⟨s, es, rfl, hR, hh, by simp⟩
  | k :: keys, s, es, hR, hh, hf => by
    have hfi : es.length + s.cur_height_ ≤ fuel := by
      have := hR.height_le
      simp only [List.length_cons] at hf
      omega
    by_cases hdup : ∃ e, e ∈ es ∧ cmp e.key k = 0
    · have hins := insert_dup hc hR rand k fuel hfi hdup
      obtain ⟨s1, es1, h1, h2, h3, h4⟩ := insertAll_height hc rand fuel keys s es hR hh
        (by simp only [List.length_cons] at hf; omega)
      exact ⟨s1, es1, by simp only [insertAll, hins, h1], h2, h3,
        by simp only [List.length_cons]; omega⟩
    · have hnk : ∀ e, e ∈ es → cmp e.key k ≠ 0 := fun e he h0 => hdup ⟨e, he, h0⟩
      obtain ⟨s0, pre, post, hes, hins, hR0⟩ := insert_new hc hR rand k fuel hfi hnk
      have hh0 := insert_new_height hc hR rand k fuel hfi hnk s0 hins
      obtain ⟨s1, es1, h1, h2, h3, h4⟩ := insertAll_height hc rand fuel keys s0 _ hR0
        (by
          rw [hh0, maxHeight_insert, hh, hes]
          exact Nat.max_comm _ _)
        (by
          simp only [List.length_cons, List.length_append] at hf ⊢
          rw [hes, List.length_append] at hf
          omega)
      refine ⟨s1, es1, by simp only [insertAll, hins, h1], h2, h3, ?_⟩
      simp only [List.length_cons, List.length_append] at h4 ⊢
      rw [hes, List.length_append]
      omega

theorem heightOf_entries {cmp : Key → Key → Int} {s : SkipList Key} {es : List (Entry Key)}
    (hR : WellFormed cmp s es) :
    (es.map (fun e => e.addr)).map (heightOf s) = es.map (fun e => e.height) := by
  rw [List.map_map]
  refine List.map_congr_left ?_
  intro e he
  obtain ⟨-, -, -, nd, hnd, -, hl⟩ := hR.node e he
  simp only [Function.comp, heightOf, hnd, hl]

/-- C15 (height counter): the constructor leaves the counter at 1 and the 20 links of the
head `nullptr`; on every list reached by inserts the counter is the greatest height of a
linked node, or 1 when no node is linked, it lies in `[1, 20]` and the links of the head
from the counter up are `nullptr`; a further `Insert` of any key returns with a counter
that is not below the old one and lies in `[1, 20]`. -/
theorem height_counter {cmp : Key → Key → Int} (hc : StrictTotalCmp cmp)
    (rand : Nat → Nat) (fuel : Nat) (key0 : Key) (keys : List Key) (k : Key)
    (hf : keys.length + kMaxHeight ≤ fuel) :
    (SkipList.construct key0 = some (SkipList.new key0) ∧
      (SkipList.new key0).cur_height_ = 1 ∧ kMaxHeight = 20 ∧
      ∀ i, i < kMaxHeight → Next (SkipList.new key0) (SkipList.new key0).head_ i = some none) ∧
    ∃ s l s1, insertAll cmp rand fuel (SkipList.new key0) keys = some s ∧
      walk s fuel s.head_ = some l ∧
      s.cur_height_ = (l.map (heightOf s)).foldr max 1 ∧
      1 ≤ s.cur_height_ ∧ s.cur_height_ ≤ kMaxHeight ∧
      (∀ i, s.cur_height_ ≤ i → i < kMaxHeight → Next s s.head_ i = some none) ∧
      Insert cmp rand fuel s k = some s1 ∧ s.cur_height_ ≤ s1.cur_height_ ∧
      1 ≤ s1.cur_height_ ∧ s1.cur_height_ ≤ kMaxHeight := by
  refine ⟨⟨construct_eq_new key0, rfl, rfl, (wellFormed_new cmp key0).chain⟩, ?_⟩
  obtain ⟨s, es, hins, hR, hcur, hlen⟩ := insertAll_height hc rand fuel keys
    (SkipList.new key0) [] (wellFormed_new cmp key0) rfl (by simpa using hf)
  simp only [List.length_nil, Nat.zero_add] at hlen
  have hfi : es.length + s.cur_height_ ≤ fuel := built_fuel hR hlen hf
  have hnull : ∀ i, s.cur_height_ ≤ i → i < kMaxHeight → Next s s.head_ i = some none := by
    intro i hi hi20
    have hch := hR.chain i hi20
    rw [levelOf_eq_nil_of_le (fun e he => by
      have := (hR.node e he).2.2.1
      omega)] at hch
    exact hch
  have hwalk := walk_spec hR fuel (by unfold kMaxHeight at hf; omega)
  have hcur1 : s.cur_height_ = (((es.map (fun e => e.addr)).map (heightOf s))).foldr max 1 := by
    rw [heightOf_entries hR]; exact hcur
  by_cases hdup : ∃ e, e ∈ es ∧ cmp e.key k = 0
  · have hi := insert_dup hc hR rand k fuel hfi hdup
    exact ⟨s, _, s, hins, hwalk, hcur1, hR.height_pos, hR.height_le, hnull, hi,
      Nat.le_refl _, hR.height_pos, hR.height_le⟩
  · have hnk : ∀ e, e ∈ es → cmp e.key k ≠ 0 := fun e he h0 => hdup ⟨e, he, h0⟩
    obtain ⟨s1, pre, post, -, hi, hR1⟩ := insert_new hc hR rand k fuel hfi hnk
    have hh := insert_new_height hc hR rand k fuel hfi hnk s1 hi
    exact ⟨s, _, s1, hins, hwalk, hcur1, hR.height_pos, hR.height_le, hnull, hi,
      by rw [hh]; exact Nat.le_max_left _ _, hR1.height_pos, hR1.height_le⟩

/-- Witness of C15: the counter after inserting 5, 1, 9, 3, 7 and after a further insert
of 4. -/
theorem height_counter_witness :
    (SkipList.construct (0 : Int) = some (SkipList.new 0) ∧
      (SkipList.new (0 : Int)).cur_height_ = 1 ∧ kMaxHeight = 20 ∧
      ∀ i, i < kMaxHeight →
        Next (SkipList.new (0 : Int)) (SkipList.new (0 : Int)).head_ i = some none) ∧
    ∃ s l s1,
      insertAll intCmp (fun n => 4 * n + (n / 3) % 2) 30 (SkipList.new 0) [5, 1, 9, 3, 7]
        = some s ∧
      walk s 30 s.head_ = some l ∧
      s.cur_height_ = (l.map (heightOf s)).foldr max 1 ∧
      1 ≤ s.cur_height_ ∧ s.cur_height_ ≤ kMaxHeight ∧
      (∀ i, s.cur_height_ ≤ i → i < kMaxHeight → Next s s.head_ i = some none) ∧
      Insert intCmp (fun n => 4 * n + (n / 3) % 2) 30 s 4 = some s1 ∧
      s.cur_height_ ≤ s1.cur_height_ ∧ 1 ≤ s1.cur_height_ ∧ s1.cur_height_ ≤ kMaxHeight :=
  height_counter intCmp_strict (fun n => 4 * n + (n / 3) % 2) 30 0 [5, 1, 9, 3, 7] 4
    (by decide)

/-- The duplicate test of `Insert` answers true for a key that is stored. -/
theorem insertDup_true {cmp : Key → Key → Int} (hc : StrictTotalCmp cmp) {s : SkipList Key}
    {es : List (Entry Key)} (hR : WellFormed cmp s es) (key : Key) (fuel : Nat)
    (hf : es.length + s.cur_height_ ≤ fuel) (hdup : ∃ e, e ∈ es ∧ cmp e.key key = 0) :
    insertDup cmp fuel s key = some true := by
  obtain ⟨pre, post, prev1, hes, hpre, hpost, hfge, -, hp⟩ :=
    findGreaterOrEqual_spec hc hR key fuel hf (some (List.replicate kMaxHeight none))
      (fun p hp => by cases hp; simp)
  obtain ⟨p1, hp1, -⟩ := hp _ rfl
  subst hp1
  obtain ⟨e, he, hek⟩ := hdup
  obtain ⟨e0, rest, hpost0, hk0⟩ := head_of_post hc (hes ▸ hR.sorted) hpre hpost (hes ▸ he) hek
  obtain ⟨-, -, -, nd, hnd, hk, -⟩ := hR.node e0 (by rw [hes, hpost0]; simp)
  have heq : Equal cmp key nd.key = true := by
    simp only [Equal, decide_eq_true_eq, hk, hk0]
    exact hc.cmp_self key
  unfold insertDup
  rw [hfge, hpost0]
  simp only [List.head?_cons, Option.map_some', hnd, heq]

/-- C16 (publish order): `Insert` seen one store at a time - the height counter, the
allocation of the node, then per level the link of the new node and the link of its
predecessor. On a list reached by inserts every state between two stores shows, from the
head, at every level a chain that ends at `nullptr` with ascending keys, and at level 0
the old keys or the old keys with the new key at its place; the last state is the result
of `Insert`; a stored key causes no store. At each level `i` below the drawn height the
link of the new node is unset before the two stores, the first store sets it to the old
level-`i` successor of the predecessor while the predecessor still points to that
successor, and the second store points the predecessor at the new node. -/
theorem insert_publish_order {cmp : Key → Key → Int} (hc : StrictTotalCmp cmp)
    (rand : Nat → Nat) (fuel : Nat) (key0 : Key) (keys : List Key) (k : Key)
    (hf : keys.length + kMaxHeight ≤ fuel) :
    ∃ s old tr, insertAll cmp rand fuel (SkipList.new key0) keys = some s ∧
      traverse fuel s = some old ∧
      insertTrace cmp rand fuel s k = some tr ∧
      Insert cmp rand fuel s k = some (tr.getLastD s) ∧
      (∀ t, t ∈ tr →
        (∃ ks, traverse fuel t = some ks ∧
          (ks = old ∨ ∃ a b, old = a ++ b ∧ ks = a ++ k :: b)) ∧
        ∀ i, i < kMaxHeight →
          ∃ l ks, walkAt t i fuel t.head_ = some l ∧ keysOf t l = some ks ∧
            ks.Pairwise (fun a b => cmp a b < 0)) ∧
      ((∃ k1, k1 ∈ keys ∧ cmp k1 k = 0) → tr = []) ∧
      ((∀ k1, k1 ∈ keys → cmp k1 k ≠ 0) →
        ∃ prev, insertPrev cmp rand fuel s k = some prev ∧
          tr.length = 2 + 2 * (RandomHeight rand s.rnd_).1 ∧
          ∀ i, i < (RandomHeight rand s.rnd_).1 →
            ∃ p nx b u v, prev[i]? = some (some p) ∧ Next s p i = some nx ∧
              tr[2 * i + 1]? = some b ∧ tr[2 * i + 2]? = some u ∧
              tr[2 * i + 3]? = some v ∧
              Next b s.arena_.length i = none ∧ Next b p i = some nx ∧
              Next u s.arena_.length i = some nx ∧ Next u p i = some nx ∧
              Next v s.arena_.length i = some nx ∧
              Next v p i = some (some s.arena_.length)) := by
  obtain ⟨s, es, hins, hR, hlen, hmem⟩ := built hc rand fuel key0 keys hf
  have hfi : es.length + s.cur_height_ ≤ fuel := built_fuel hR hlen hf
  have hf1 : es.length + 1 < fuel := by unfold kMaxHeight at hf; omega
  have hold := traverse_spec hR fuel (by omega)
  by_cases hdup : ∃ e, e ∈ es ∧ cmp e.key k = 0
  · refine ⟨s, _, [], hins, hold, ?_, insert_dup hc hR rand k fuel hfi hdup, ?_,
      fun _ => rfl, ?_⟩
    · unfold insertTrace
      rw [insertDup_true hc hR k fuel hfi hdup]
    · intro t ht
      cases ht
    · intro hnew
      obtain ⟨e, he, hek⟩ := hdup
      exact absurd hek (hnew e.key (entry_mem_keys hmem he))
  · have hnk : ∀ e, e ∈ es → cmp e.key k ≠ 0 := fun e he h0 => hdup ⟨e, he, h0⟩
    obtain ⟨pre, post, p1, prev, hes, hpre, hpost, -, hdupf, hprev, -, -, hP⟩ :=
      insert_prep hc hR rand k fuel hfi hnk
    obtain ⟨hh1, hh20⟩ := randomHeight_range rand s.rnd_
    obtain ⟨s1, hlink, -⟩ := insert_partial hR pre post hes rand k prev hP _ (Nat.le_refl _)
    obtain ⟨ltr, htr⟩ : ∃ tr, linkTrace prev s.arena_.length (RandomHeight rand s.rnd_).1 0
        (insertAlloc rand s k) = some tr := by
      have h := hlink
      rw [linkLevels_eq_trace] at h
      cases htr : linkTrace prev s.arena_.length (RandomHeight rand s.rnd_).1 0
          (insertAlloc rand s k) with
      | none => rw [htr] at h; cases h
      | some tr => exact ⟨tr, rfl⟩
    obtain ⟨hltr, -⟩ := linkTrace_get prev s.arena_.length _ 0 _ ltr htr
    refine ⟨s, _, insertRaise rand s :: insertAlloc rand s k :: ltr, hins, hold, ?_, ?_, ?_,
      ?_, ?_⟩
    · unfold insertTrace
      rw [hdupf, hprev]
      simp only [htr, Option.map_some']
    · rw [insert_eq_steps, hdupf, hprev]
      simp only []
      rw [linkLevels_eq_trace, htr]
      simp only [Option.map_some', List.getLastD_cons]
    · intro t ht
      obtain ⟨c, hL⟩ := trace_linked hR pre post hes rand k prev hP ltr htr t ht
      exact observe_linked hR pre post hes k hpre hpost t c hL fuel hf1
    · intro hd
      obtain ⟨k1, hk1, hk⟩ := hd
      obtain ⟨e, he, hek⟩ := mem_keys_entry hmem hk1
      exact absurd (by rw [hek]; exact hk) (hnk e he)
    · intro _
      refine ⟨prev, hprev, by simp only [List.length_cons, hltr]; omega, ?_⟩
      intro i hi
      obtain ⟨T, u, v, nx, c1, c2, c3, c4, c5, c6, c7, c8, c9, c10⟩ :=
        trace_step hR pre post hes rand k prev hP ltr htr i hi
      have hne := (pred_facts hR pre post hes i (by omega)).1
      have hb : (insertRaise rand s :: insertAlloc rand s k :: ltr)[2 * i + 1]? = some T := by
        cases i with
        | zero =>
          simp only [linkLevels, Option.some.injEq] at c3
          subst c3
          simp
        | succ i =>
          obtain ⟨T0, u0, v0, nx0, e1, e2, e3, e4, -⟩ :=
            trace_step hR pre post hes rand k prev hP ltr htr i (by omega)
          rw [c3] at e4
          cases e4
          have : 2 * (i + 1) + 1 = (2 * i + 1) + 1 + 1 := by omega
          rw [this, List.getElem?_cons_succ, List.getElem?_cons_succ]
          exact e2
      have hTp : Next T (lastOr s.head_ (levelOf i pre)) i = some nx := by
        rw [c6.2.2.2.2 i (Nat.le_refl _) _ hne]; exact c5
      have hu1 : Next u s.arena_.length i = some nx := by
        rw [c9, if_pos ⟨rfl, rfl⟩]
      have hu2 : Next u (lastOr s.head_ (levelOf i pre)) i = some nx := by
        rw [c9, if_neg (fun h => hne h.1)]; exact hTp
      refine ⟨_, nx, T, u, v, hP i hi, c5, hb, ?_, ?_, c7, hTp, hu1, hu2, ?_, ?_⟩
      · have : 2 * i + 2 = 2 * i + 1 + 1 := by omega
        rw [this, List.getElem?_cons_succ, List.getElem?_cons_succ]
        exact c1
      · have : 2 * i + 3 = 2 * i + 1 + 1 + 1 := by omega
        rw [this, List.getElem?_cons_succ, List.getElem?_cons_succ]
        exact c2
      · rw [c10, if_neg (fun h => hne h.1.symm)]; exact hu1
      · rw [c10, if_pos ⟨rfl, rfl⟩]

/-- Witness of C16: the stores of the insert of 4 into the list built from 5, 1, 9, 3,
7. -/
theorem insert_publish_order_witness :
    ∃ s old tr,
      insertAll intCmp (fun n => 4 * n + (n / 3) % 2) 30 (SkipList.new 0) [5, 1, 9, 3, 7]
        = some s ∧
      traverse 30 s = some old ∧
      insertTrace intCmp (fun n => 4 * n + (n / 3) % 2) 30 s 4 = some tr ∧
      Insert intCmp (fun n => 4 * n + (n / 3) % 2) 30 s 4 = some (tr.getLastD s) ∧
      (∀ t, t ∈ tr →
        (∃ ks, traverse 30 t = some ks ∧
          (ks = old ∨ ∃ a b, old = a ++ b ∧ ks = a ++ 4 :: b)) ∧
        ∀ i, i < kMaxHeight →
          ∃ l ks, walkAt t i 30 t.head_ = some l ∧ keysOf t l = some ks ∧
            ks.Pairwise (fun a b => intCmp a b < 0)) ∧
      ((∃ k1, k1 ∈ [5, 1, 9, 3, 7] ∧ intCmp k1 4 = 0) → tr = []) ∧
      ((∀ k1, k1 ∈ [5, 1, 9, 3, 7] → intCmp k1 4 ≠ 0) →
        ∃ prev, insertPrev intCmp (fun n => 4 * n + (n / 3) % 2) 30 s 4 = some prev ∧
          tr.length = 2 + 2 * (RandomHeight (fun n => 4 * n + (n / 3) % 2) s.rnd_).1 ∧
          ∀ i, i < (RandomHeight (fun n => 4 * n + (n / 3) % 2) s.rnd_).1 →
            ∃ p nx b u v, prev[i]? = some (some p) ∧ Next s p i = some nx ∧
              tr[2 * i + 1]? = some b ∧ tr[2 * i + 2]? = some u ∧
              tr[2 * i + 3]? = some v ∧
              Next b s.arena_.length i = none ∧ Next b p i = some nx ∧
              Next u s.arena_.length i = some nx ∧ Next u p i = some nx ∧
              Next v s.arena_.length i = some nx ∧
              Next v p i = some (some s.arena_.length)) :=
  insert_publish_order intCmp_strict (fun n => 4 * n + (n / 3) % 2) 30 0 [5, 1, 9, 3, 7] 4
    (by decide)

/-! ## The writes of `CreateFilter` -/

end kv
